import Mathlib

/-!
Block-average downsampling of packed YUV422 (YUYV) images

A shallow embedding of `resizeYUV422Average` (ResizeYUV422.cpp) and the
properties of it that the specification states.

Modelling conventions

* C `int` values are `Int`s, and the routine is embedded twice.  `sample`,
  `scanBlock`, `pixelStep` and `resizeYUV422Average` compute in unbounded integers:
  they describe the runs in which no `int` computation overflows.  `sample32`,
  `scanBlock32`, `pixelStep32` and `resizeYUV422Average32` reduce the two products
  `dst_x * scale`, `dst_y * scale` and every update of the five accumulators to 32
  bits, two's complement (`wrap32`).  The two embeddings agree whenever these values
  fit in `int` (`pixelStep32_eq_pixelStep`, `run32_eq_run`).
* `uint8_t` is `Fin 256`; the conversion of an `int` to `uint8_t` is the explicit
  reduction modulo `256` (`toUint8`).
* The two buffers are lists of bytes.  Every access is bounds checked: an access
  outside its buffer takes the error branch of `Machine.load` or `Machine.store`,
  which records the access in `Machine.faults` (the load then yields `0`, the store
  is dropped).  A run is defined behaviour of the C program exactly when
  `faults = []`.
* The machine also logs every source index read and every destination index
  written (with the value), in program order.
* `x & 1` and `x & ~1` on two's-complement integers are `x % 2` and `x - x % 2`
  (`bitAnd1`, `clearBit0`); `bitAnd1_eq_land` and `clearBit0_eq_land` relate them to
  the bitwise operations of the library.
-/

namespace ResizeYUV422

/-! ## Data model -/

/-- The C type `uint8_t`. -/
abbrev uint8_t := Fin 256

/-- Conversion of an `int` to `uint8_t` (reduction modulo `256`). -/
def toUint8 (v : Int) : uint8_t := ⟨(v % 256).toNat, by omega⟩

/-- The C expression `x & 1`. -/
def bitAnd1 (x : Int) : Int := x % 2

/-- The C expression `x & ~1`. -/
def clearBit0 (x : Int) : Int := x - x % 2

/-- A memory access of the routine: a read of `src[i]` or a write of `dst[i]`. -/
inductive Access where
  | load (i : Int)
  | store (i : Int)
deriving DecidableEq

/-- The observable state of a run: the destination buffer, the log of source
indices read, the log of destination writes, and the out-of-bounds accesses. -/
structure Machine where
  dst : List uint8_t
  loads : List Int
  stores : List (Int × uint8_t)
  faults : List Access
deriving DecidableEq

/-- The accumulators `sum_y, sum_u, sum_v, count_y, count_uv` of one block scan. -/
structure Acc where
  sum_y : Int
  sum_u : Int
  sum_v : Int
  count_y : Int
  count_uv : Int
deriving DecidableEq

/-- The byte `src[i]` promoted to `int`; `0` when `i` is outside the buffer. -/
def srcAt (src : List uint8_t) (i : Int) : Int :=
  if 0 ≤ i ∧ i < src.length then ((src.getD i.toNat 0).val : Int) else 0

/-- Bounds-checked read `src[i]`: logs the index, and records a fault when the
index is outside the buffer. -/
def Machine.load (m : Machine) (src : List uint8_t) (i : Int) : Int × Machine :=
  if 0 ≤ i ∧ i < src.length then
    (srcAt src i, { m with loads := m.loads ++ [i] })
  else
    (srcAt src i, { m with loads := m.loads ++ [i], faults := m.faults ++ [Access.load i] })

/-- Bounds-checked write `dst[i] = v`: logs the write, and records a fault (leaving
the buffer unchanged) when the index is outside the buffer. -/
def Machine.store (m : Machine) (i : Int) (v : uint8_t) : Machine :=
  if 0 ≤ i ∧ i < m.dst.length then
    { m with dst := m.dst.set i.toNat v, stores := m.stores ++ [(i, v)] }
  else
    { m with stores := m.stores ++ [(i, v)], faults := m.faults ++ [Access.store i] }

/-- The values taken by `i` in `for (int i = 0; i < n && guard(i); i++)`. -/
def forIndices (n : Int) (guard : Int → Bool) : List Int :=
  ((List.range n.toNat).map Int.ofNat).takeWhile guard

/-! ## The routine -/

/-- Body of the inner scan loop (lines 46-64): one source pixel of the block.  The
accumulators are unbounded here; `sample32` has them as 32-bit `int`s. -/
def sample (src : List uint8_t) (src_w src_x src_y b_y bx : Int)
    (s : Acc × Machine) : Acc × Machine :=
  let pixel_x := src_x + bx
  let pixel_y := src_y + b_y
  let is_odd := bitAnd1 pixel_x
  let pair_idx := (pixel_y * src_w + clearBit0 pixel_x) * 2
  let y_offset := pair_idx + (if is_odd ≠ 0 then 2 else 0)
  let ry := s.2.load src y_offset
  let a1 : Acc := { s.1 with sum_y := s.1.sum_y + ry.1, count_y := s.1.count_y + 1 }
  if Int.tmod bx 2 = 0 then
    let ru := ry.2.load src (pair_idx + 1)
    let rv := ru.2.load src (pair_idx + 3)
    ({ a1 with sum_u := a1.sum_u + ru.1, sum_v := a1.sum_v + rv.1,
               count_uv := a1.count_uv + 1 }, rv.2)
  else
    (a1, ry.2)

/-- The scan of the `scale x scale` block anchored at `(src_x, src_y)`
(lines 37-66), clipped to the source. -/
def scanBlock (src : List uint8_t) (src_w src_h scale src_x src_y : Int)
    (m : Machine) : Acc × Machine :=
  (forIndices scale (fun b_y => decide (src_y + b_y < src_h))).foldl
    (fun s b_y =>
      (forIndices scale (fun bx => decide (src_x + bx < src_w))).foldl
        (fun s bx => sample src src_w src_x src_y b_y bx s) s)
    (⟨0, 0, 0, 0, 0⟩, m)

/-- The averaged luma `avg_y` (line 69). -/
def avgY (a : Acc) : uint8_t :=
  toUint8 (if a.count_y > 0 then Int.tdiv a.sum_y a.count_y else 0)

/-- The averaged chroma-blue `avg_u` (line 70). -/
def avgU (a : Acc) : uint8_t :=
  toUint8 (if a.count_uv > 0 then Int.tdiv a.sum_u a.count_uv else 128)

/-- The averaged chroma-red `avg_v` (line 71). -/
def avgV (a : Acc) : uint8_t :=
  toUint8 (if a.count_uv > 0 then Int.tdiv a.sum_v a.count_uv else 128)

/-- Body of the destination loops (lines 32-85): one destination pixel.  The products
`dst_x * scale` and `dst_y * scale` are unbounded here; `pixelStep32` has them as
32-bit `int`s. -/
def pixelStep (src : List uint8_t) (src_w src_h dst_w scale dst_y dst_x : Int)
    (m : Machine) : Machine :=
  let src_x := dst_x * scale
  let src_y := dst_y * scale
  let r := scanBlock src src_w src_h scale src_x src_y m
  let avg_y := avgY r.1
  let avg_u := avgU r.1
  let avg_v := avgV r.1
  let is_odd_dst := bitAnd1 dst_x
  let dst_pair_idx := (dst_y * dst_w + clearBit0 dst_x) * 2
  let m1 := r.2.store (dst_pair_idx + (if is_odd_dst ≠ 0 then 2 else 0)) avg_y
  if is_odd_dst = 0 then
    (m1.store (dst_pair_idx + 1) avg_u).store (dst_pair_idx + 3) avg_v
  else
    m1

/-- The routine `resizeYUV422Average`, run on a machine whose destination buffer
initially holds `dst`. -/
def resizeYUV422Average (src : List uint8_t) (src_w src_h : Int)
    (dst : List uint8_t) (dst_w dst_h scale : Int) : Machine :=
  (forIndices dst_h (fun _ => true)).foldl
    (fun m dst_y =>
      (forIndices dst_w (fun _ => true)).foldl
        (fun m dst_x => pixelStep src src_w src_h dst_w scale dst_y dst_x m) m)
    ⟨dst, [], [], []⟩

/-! ## The packed layout and the write log -/

/-- Byte offset of the 4-byte pair holding pixel `(x, y)` in a buffer of width `w`. -/
def pairBase (w x y : Int) : Int := (y * w + clearBit0 x) * 2

/-- Byte offset of the luma of pixel `(x, y)` in a buffer of width `w`. -/
def lumaOffset (w x y : Int) : Int := pairBase w x y + (if bitAnd1 x ≠ 0 then 2 else 0)

/-- The byte of a buffer at an `int` index, when the index is inside the buffer. -/
def byteAt (buf : List uint8_t) (i : Int) : Option uint8_t :=
  if 0 ≤ i then buf[i.toNat]? else none

/-- Replays a log of writes on a buffer; writes outside the buffer are dropped. -/
def writeAll (buf : List uint8_t) (log : List (Int × uint8_t)) : List uint8_t :=
  log.foldl (fun d (p : Int × uint8_t) =>
    if 0 ≤ p.1 ∧ p.1 < d.length then d.set p.1.toNat p.2 else d) buf

/-- The machine before the first access. -/
def Machine.init (dst : List uint8_t) : Machine := ⟨dst, [], [], []⟩

/-- The accumulators of the block anchored at `(src_x, src_y)` after its scan. -/
def blockAcc (src : List uint8_t) (src_w src_h scale src_x src_y : Int) : Acc :=
  (scanBlock src src_w src_h scale src_x src_y (Machine.init [])).1

/-- The writes of the iteration for destination pixel `(dst_x, dst_y)`, in order. -/
def pixelStores (src : List uint8_t) (src_w src_h dst_w scale dst_y dst_x : Int) :
    List (Int × uint8_t) :=
  let a := blockAcc src src_w src_h scale (dst_x * scale) (dst_y * scale)
  (lumaOffset dst_w dst_x dst_y, avgY a) ::
    (if bitAnd1 dst_x = 0 then
      [(pairBase dst_w dst_x dst_y + 1, avgU a), (pairBase dst_w dst_x dst_y + 3, avgV a)]
    else [])

/-- The complete write log of a run, in program order. -/
def allStores (src : List uint8_t) (src_w src_h dst_w dst_h scale : Int) :
    List (Int × uint8_t) :=
  (forIndices dst_h (fun _ => true)).flatMap (fun dst_y =>
    (forIndices dst_w (fun _ => true)).flatMap (fun dst_x =>
      pixelStores src src_w src_h dst_w scale dst_y dst_x))

/-- The consecutive `int` indices `a, a + 1, ..., a + n - 1`. -/
def intRange (a : Int) (n : Nat) : List Int :=
  (List.range n).map (fun (i : Nat) => a + (i : Int))

/-- The coordinates `lo ≤ c < min (lo + scale) hi`: one axis of the block anchored at
`lo`, clipped to a source extent `hi`. -/
def window (lo scale hi : Int) : Finset Int := Finset.Ico lo (min (lo + scale) hi)

/-- The columns of the clipped block at an even offset from its anchor `lo`: the
columns at which the scan samples the chroma pair. -/
def pairColumns (lo scale hi : Int) : Finset Int :=
  (window lo scale hi).filter (fun x => (x - lo) % 2 = 0)

/-- A machine state without faults whose logged reads and writes all lie inside the
nominal extents `src_w * src_h * 2` and `dst_w * dst_h * 2` of the two images, and
whose destination buffer has `dstLen` bytes. -/
def Safe (src_w src_h dst_w dst_h : Int) (dstLen : Nat) (m : Machine) : Prop :=
  m.faults = [] ∧ (∀ i ∈ m.loads, 0 ≤ i ∧ i < src_w * src_h * 2) ∧
    (∀ p ∈ m.stores, 0 ≤ p.1 ∧ p.1 < dst_w * dst_h * 2) ∧ m.dst.length = dstLen

/-! ## The averages the specification describes -/

/-- Number of source pixels in the clipped block of destination pixel `(dx, dy)`. -/
def lumaCount (src_w src_h scale dx dy : Int) : Nat :=
  (window (dy * scale) scale src_h).card * (window (dx * scale) scale src_w).card

/-- Sum of the source luma bytes `src[(y * src_w + (x & ~1)) * 2 + (x odd ? 2 : 0)]`
over the clipped block of destination pixel `(dx, dy)`. -/
def lumaSum (src : List uint8_t) (src_w src_h scale dx dy : Int) : Int :=
  ∑ y ∈ window (dy * scale) scale src_h, ∑ x ∈ window (dx * scale) scale src_w,
    srcAt src (lumaOffset src_w x y)

/-- Number of chroma samples of destination pixel `(dx, dy)`: the rows of its clipped
block times the columns `x = dx * scale + bx < src_w` with `bx` even, `bx < scale`. -/
def chromaCount (src_w src_h scale dx dy : Int) : Nat :=
  (window (dy * scale) scale src_h).card * (pairColumns (dx * scale) scale src_w).card

/-- Sum over the chroma samples of destination pixel `(dx, dy)` of the bytes
`src[(y * src_w + (x & ~1)) * 2 + off]`: blue for `off = 1`, red for `off = 3`. -/
def chromaSum (src : List uint8_t) (src_w src_h scale dx dy off : Int) : Int :=
  ∑ y ∈ window (dy * scale) scale src_h, ∑ x ∈ pairColumns (dx * scale) scale src_w,
    srcAt src (pairBase src_w x y + off)

/-- The average the routine's header comment describes for a destination pair
`(dx, dx + 1)`: the truncated mean of the chroma bytes at offset `off` over the
source block covering both output pixels, columns `dx * scale` up to
`(dx + 2) * scale - 1` and rows `dy * scale` up to `dy * scale + scale - 1`, clipped to
the source. -/
def pairedBlockMean (src : List uint8_t) (src_w src_h scale dx dy off : Int) : Int :=
  Int.tdiv
    (∑ y ∈ window (dy * scale) scale src_h, ∑ x ∈ window (dx * scale) (2 * scale) src_w,
      srcAt src (pairBase src_w x y + off))
    (((window (dy * scale) scale src_h).card
      * (window (dx * scale) (2 * scale) src_w).card : Nat) : Int)

/-! ## Source pixel pairs -/

/-- The indices `k` of the source pixel pairs `(2k, 2k + 1)` that contain at least one
column of the clipped block anchored at column `lo`. -/
def touchedPairs (lo scale hi : Int) : Finset Int :=
  (window lo scale hi).image (fun x => x / 2)

/-! ## The variant that pairs by absolute column parity

The routine with the single change the specification's design notes consider: the
chroma pair is accumulated when the absolute source column `src_x + bx` is even,
instead of when the in-block offset `bx` is even. -/

/-- The body of the inner scan loop with the condition `(src_x + bx) % 2 == 0` in
place of `bx % 2 == 0`. -/
def sampleAbs (src : List uint8_t) (src_w src_x src_y b_y bx : Int)
    (s : Acc × Machine) : Acc × Machine :=
  let pixel_x := src_x + bx
  let pixel_y := src_y + b_y
  let is_odd := bitAnd1 pixel_x
  let pair_idx := (pixel_y * src_w + clearBit0 pixel_x) * 2
  let y_offset := pair_idx + (if is_odd ≠ 0 then 2 else 0)
  let ry := s.2.load src y_offset
  let a1 : Acc := { s.1 with sum_y := s.1.sum_y + ry.1, count_y := s.1.count_y + 1 }
  if Int.tmod (src_x + bx) 2 = 0 then
    let ru := ry.2.load src (pair_idx + 1)
    let rv := ru.2.load src (pair_idx + 3)
    ({ a1 with sum_u := a1.sum_u + ru.1, sum_v := a1.sum_v + rv.1,
               count_uv := a1.count_uv + 1 }, rv.2)
  else
    (a1, ry.2)

/-- The block scan of the variant. -/
def scanBlockAbs (src : List uint8_t) (src_w src_h scale src_x src_y : Int)
    (m : Machine) : Acc × Machine :=
  (forIndices scale (fun b_y => decide (src_y + b_y < src_h))).foldl
    (fun s b_y =>
      (forIndices scale (fun bx => decide (src_x + bx < src_w))).foldl
        (fun s bx => sampleAbs src src_w src_x src_y b_y bx s) s)
    (⟨0, 0, 0, 0, 0⟩, m)

/-- The iteration for one destination pixel of the variant. -/
def pixelStepAbs (src : List uint8_t) (src_w src_h dst_w scale dst_y dst_x : Int)
    (m : Machine) : Machine :=
  let src_x := dst_x * scale
  let src_y := dst_y * scale
  let r := scanBlockAbs src src_w src_h scale src_x src_y m
  let avg_y := avgY r.1
  let avg_u := avgU r.1
  let avg_v := avgV r.1
  let is_odd_dst := bitAnd1 dst_x
  let dst_pair_idx := (dst_y * dst_w + clearBit0 dst_x) * 2
  let m1 := r.2.store (dst_pair_idx + (if is_odd_dst ≠ 0 then 2 else 0)) avg_y
  if is_odd_dst = 0 then
    (m1.store (dst_pair_idx + 1) avg_u).store (dst_pair_idx + 3) avg_v
  else
    m1

/-- The variant of `resizeYUV422Average` that pairs by absolute column parity. -/
def resizeYUV422AverageAbs (src : List uint8_t) (src_w src_h : Int)
    (dst : List uint8_t) (dst_w dst_h scale : Int) : Machine :=
  (forIndices dst_h (fun _ => true)).foldl
    (fun m dst_y =>
      (forIndices dst_w (fun _ => true)).foldl
        (fun m dst_x => pixelStepAbs src src_w src_h dst_w scale dst_y dst_x m) m)
    ⟨dst, [], [], []⟩

/-- The value of a 32-bit two's-complement `int` computation whose mathematical
result is `x`. -/
def wrap32 (x : Int) : Int := (x + 2147483648) % 4294967296 - 2147483648

/-- The accumulators reduced to 32-bit `int`s. -/
def wrapAcc (a : Acc) : Acc :=
  ⟨wrap32 a.sum_y, wrap32 a.sum_u, wrap32 a.sum_v, wrap32 a.count_y, wrap32 a.count_uv⟩

/-- Body of the inner scan loop (lines 46-64) with `int` accumulators. -/
def sample32 (src : List uint8_t) (src_w src_x src_y b_y bx : Int)
    (s : Acc × Machine) : Acc × Machine :=
  let pixel_x := src_x + bx
  let pixel_y := src_y + b_y
  let is_odd := bitAnd1 pixel_x
  let pair_idx := (pixel_y * src_w + clearBit0 pixel_x) * 2
  let y_offset := pair_idx + (if is_odd ≠ 0 then 2 else 0)
  let ry := s.2.load src y_offset
  let a1 : Acc := { s.1 with sum_y := wrap32 (s.1.sum_y + ry.1),
                             count_y := wrap32 (s.1.count_y + 1) }
  if Int.tmod bx 2 = 0 then
    let ru := ry.2.load src (pair_idx + 1)
    let rv := ru.2.load src (pair_idx + 3)
    ({ a1 with sum_u := wrap32 (a1.sum_u + ru.1), sum_v := wrap32 (a1.sum_v + rv.1),
               count_uv := wrap32 (a1.count_uv + 1) }, rv.2)
  else
    (a1, ry.2)

/-- The block scan (lines 37-66) with `int` accumulators. -/
def scanBlock32 (src : List uint8_t) (src_w src_h scale src_x src_y : Int)
    (m : Machine) : Acc × Machine :=
  (forIndices scale (fun b_y => decide (src_y + b_y < src_h))).foldl
    (fun s b_y =>
      (forIndices scale (fun bx => decide (src_x + bx < src_w))).foldl
        (fun s bx => sample32 src src_w src_x src_y b_y bx s) s)
    (⟨0, 0, 0, 0, 0⟩, m)

/-- Body of the destination loops (lines 32-85) with `int` products and
accumulators. -/
def pixelStep32 (src : List uint8_t) (src_w src_h dst_w scale dst_y dst_x : Int)
    (m : Machine) : Machine :=
  let src_x := wrap32 (dst_x * scale)
  let src_y := wrap32 (dst_y * scale)
  let r := scanBlock32 src src_w src_h scale src_x src_y m
  let avg_y := avgY r.1
  let avg_u := avgU r.1
  let avg_v := avgV r.1
  let is_odd_dst := bitAnd1 dst_x
  let dst_pair_idx := (dst_y * dst_w + clearBit0 dst_x) * 2
  let m1 := r.2.store (dst_pair_idx + (if is_odd_dst ≠ 0 then 2 else 0)) avg_y
  if is_odd_dst = 0 then
    (m1.store (dst_pair_idx + 1) avg_u).store (dst_pair_idx + 3) avg_v
  else
    m1

/-- The routine `resizeYUV422Average` with `int` products and accumulators. -/
def resizeYUV422Average32 (src : List uint8_t) (src_w src_h : Int)
    (dst : List uint8_t) (dst_w dst_h scale : Int) : Machine :=
  (forIndices dst_h (fun _ => true)).foldl
    (fun m dst_y =>
      (forIndices dst_w (fun _ => true)).foldl
        (fun m dst_x => pixelStep32 src src_w src_h dst_w scale dst_y dst_x m) m)
    ⟨dst, [], [], []⟩

/-- The accumulators of the iteration for destination pixel `(dx, dy)` after its block
scan, with `int` arithmetic. -/
def pixelAcc32 (src : List uint8_t) (src_w src_h scale dx dy : Int) : Acc :=
  (scanBlock32 src src_w src_h scale (wrap32 (dx * scale)) (wrap32 (dy * scale))
    (Machine.init [])).1

/-- The writes of the iteration for destination pixel `(dst_x, dst_y)`, in order, with
`int` arithmetic. -/
def pixelStores32 (src : List uint8_t) (src_w src_h dst_w scale dst_y dst_x : Int) :
    List (Int × uint8_t) :=
  let a := pixelAcc32 src src_w src_h scale dst_x dst_y
  (lumaOffset dst_w dst_x dst_y, avgY a) ::
    (if bitAnd1 dst_x = 0 then
      [(pairBase dst_w dst_x dst_y + 1, avgU a), (pairBase dst_w dst_x dst_y + 3, avgV a)]
    else [])

/-- The complete write log of a run with `int` arithmetic, in program order. -/
def allStores32 (src : List uint8_t) (src_w src_h dst_w dst_h scale : Int) :
    List (Int × uint8_t) :=
  (forIndices dst_h (fun _ => true)).flatMap (fun dst_y =>
    (forIndices dst_w (fun _ => true)).flatMap (fun dst_x =>
      pixelStores32 src src_w src_h dst_w scale dst_y dst_x))

/-- The integers a 32-bit `int` holds. -/
def InInt (x : Int) : Prop := -2147483648 ≤ x ∧ x ≤ 2147483647

instance (x : Int) : Decidable (InInt x) := by
  unfold InInt
  exact inferInstance

/-- A machine state that has read `src[i]`, and has recorded a fault for that read when
`i` is outside the source buffer. -/
def HasRead (src : List uint8_t) (i : Int) (m : Machine) : Prop :=
  i ∈ m.loads ∧ (¬ (0 ≤ i ∧ i < (src.length : Int)) → Access.load i ∈ m.faults)

/-! ## The bit operations of the source -/

theorem one_testBit_succ (k : Nat) : (1 : Nat).testBit (k + 1) = false := by
  rw [Nat.testBit_succ]; simp

theorem ldiff_one_right (m : Nat) : Nat.ldiff m 1 = m - m % 2 := by
  apply Nat.eq_of_testBit_eq
  intro i
  rw [Nat.testBit_ldiff]
  have h : m - m % 2 = 2 ^ 1 * (m / 2) := by omega
  rw [h, Nat.testBit_mul_pow_two]
  cases i with
  | zero => simp
  | succ k => simp [one_testBit_succ, Nat.testBit_succ]

theorem ldiff_one_left (m : Nat) : Nat.ldiff 1 m = (m + 1) % 2 := by
  apply Nat.eq_of_testBit_eq
  intro i
  rw [Nat.testBit_ldiff]
  cases i with
  | zero =>
    rw [Nat.testBit_zero, Nat.testBit_zero, Nat.testBit_zero]
    rcases Nat.mod_two_eq_zero_or_one m with h | h <;>
      simp [h, Nat.add_mod]
  | succ k =>
    rw [one_testBit_succ, Nat.testBit_succ (_ % 2)]
    have : (m + 1) % 2 / 2 = 0 := by omega
    simp [this]

theorem lor_one (m : Nat) : m ||| 1 = m + 1 - m % 2 := by
  apply Nat.eq_of_testBit_eq
  intro i
  rw [Nat.testBit_lor]
  cases i with
  | zero =>
    rw [Nat.testBit_zero, Nat.testBit_zero, Nat.testBit_zero]
    rcases Nat.mod_two_eq_zero_or_one m with h | h <;> simp [h]
    omega
  | succ k =>
    rw [one_testBit_succ, Nat.testBit_succ, Nat.testBit_succ]
    have : (m + 1 - m % 2) / 2 = m / 2 := by omega
    simp [this]

/-- The model `bitAnd1` of `x & 1` is the bitwise AND with `1` on two's-complement
integers. -/
theorem bitAnd1_eq_land (x : Int) : bitAnd1 x = Int.land x 1 := by
  unfold bitAnd1
  cases x with
  | ofNat m =>
    show _ = Int.ofNat (m &&& 1)
    rw [Nat.and_one_is_mod]; simp
  | negSucc m =>
    show _ = Int.ofNat (Nat.ldiff 1 m)
    rw [ldiff_one_left, Int.negSucc_eq]
    simp only [Int.ofNat_eq_coe]
    omega

/-- The model `clearBit0` of `x & ~1` is the bitwise AND with the complement of `1`
on two's-complement integers. -/
theorem clearBit0_eq_land (x : Int) : clearBit0 x = Int.land x (Int.lnot 1) := by
  unfold clearBit0
  cases x with
  | ofNat m =>
    show _ = Int.ofNat (Nat.ldiff m 1)
    rw [ldiff_one_right]
    simp only [Int.ofNat_eq_coe]
    omega
  | negSucc m =>
    show _ = Int.negSucc (m ||| 1)
    rw [lor_one, Int.negSucc_eq, Int.negSucc_eq]
    omega

/-! ## Loop ranges -/

theorem range_takeWhile_lt (n k : Nat) :
    (List.range n).takeWhile (fun i => decide (i < k)) = List.range (min n k) := by
  have hsplit : List.range n = List.range (min n k) ++ List.range' (min n k) (n - min n k) := by
    rw [List.range_eq_range', List.range_eq_range']
    have := List.range'_append 0 (min n k) (n - min n k) 1
    simp only [Nat.zero_add, Nat.one_mul] at this
    rw [this]
    congr 1
    omega
  have hpos : ∀ i ∈ List.range (min n k), decide (i < k) = true := by
    intro i hi
    have := List.mem_range.mp hi
    simp only [decide_eq_true_eq]
    omega
  rw [hsplit, List.takeWhile_append_of_pos hpos]
  by_cases h : n ≤ k
  · have h0 : n - min n k = 0 := by omega
    have h1 : min (min n k + 0) k = min n k := by omega
    simp [h0, h1]
  · obtain ⟨d, hd⟩ : ∃ d, n - min n k = d + 1 := ⟨n - min n k - 1, by omega⟩
    have hk : min n k = k := by omega
    have h1 : min (k + (d + 1)) k = k := by omega
    rw [hd, List.range'_succ, hk, List.takeWhile_cons_of_neg (by simp)]
    simp [List.length_range, h1]

theorem forIndices_lt (n a b : Int) :
    forIndices n (fun i => decide (a + i < b))
      = (List.range (min n.toNat (b - a).toNat)).map Int.ofNat := by
  unfold forIndices
  rw [List.takeWhile_map, ← range_takeWhile_lt]
  congr 2
  funext i
  simp only [Function.comp, Int.ofNat_eq_coe, decide_eq_decide]
  omega

theorem forIndices_true (n : Int) :
    forIndices n (fun _ => true) = (List.range n.toNat).map Int.ofNat := by
  unfold forIndices
  rw [List.takeWhile_eq_self_iff]
  intros; rfl

/-! ## Memory operations -/

@[simp] theorem load_fst (m : Machine) (src : List uint8_t) (i : Int) :
    (m.load src i).1 = srcAt src i := by
  unfold Machine.load; split <;> rfl

@[simp] theorem load_dst (m : Machine) (src : List uint8_t) (i : Int) :
    (m.load src i).2.dst = m.dst := by
  unfold Machine.load; split <;> rfl

@[simp] theorem load_stores (m : Machine) (src : List uint8_t) (i : Int) :
    (m.load src i).2.stores = m.stores := by
  unfold Machine.load; split <;> rfl

@[simp] theorem load_loads (m : Machine) (src : List uint8_t) (i : Int) :
    (m.load src i).2.loads = m.loads ++ [i] := by
  unfold Machine.load; split <;> rfl

theorem load_faults (m : Machine) (src : List uint8_t) (i : Int) :
    (m.load src i).2.faults
      = m.faults ++ (if 0 ≤ i ∧ i < src.length then [] else [Access.load i]) := by
  unfold Machine.load; split <;> simp

@[simp] theorem store_stores (m : Machine) (i : Int) (v : uint8_t) :
    (m.store i v).stores = m.stores ++ [(i, v)] := by
  unfold Machine.store; split <;> rfl

@[simp] theorem store_loads (m : Machine) (i : Int) (v : uint8_t) :
    (m.store i v).loads = m.loads := by
  unfold Machine.store; split <;> rfl

theorem store_dst (m : Machine) (i : Int) (v : uint8_t) :
    (m.store i v).dst = writeAll m.dst [(i, v)] := by
  unfold Machine.store writeAll
  by_cases h : 0 ≤ i ∧ i < m.dst.length
  · simp [h]
  · simp only [h, if_false, List.foldl_cons, List.foldl_nil]

theorem store_faults (m : Machine) (i : Int) (v : uint8_t) :
    (m.store i v).faults
      = m.faults ++ (if 0 ≤ i ∧ i < m.dst.length then [] else [Access.store i]) := by
  unfold Machine.store; split <;> simp

theorem writeAll_append (d : List uint8_t) (l₁ l₂ : List (Int × uint8_t)) :
    writeAll d (l₁ ++ l₂) = writeAll (writeAll d l₁) l₂ := by
  unfold writeAll; rw [List.foldl_append]

@[simp] theorem writeAll_nil (d : List uint8_t) : writeAll d [] = d := rfl

@[simp] theorem writeAll_length (d : List uint8_t) (l : List (Int × uint8_t)) :
    (writeAll d l).length = d.length := by
  induction l generalizing d with
  | nil => rfl
  | cons p l ih =>
    show (writeAll _ l).length = _
    rw [ih]
    by_cases h : 0 ≤ p.1 ∧ p.1 < d.length
    · simp only [h, and_self, if_true, List.length_set]
    · simp only [h, if_false]

/-! ## Folds -/

theorem foldl_proj_sum {σ ι : Type} (f : σ → ι → σ) (p : σ → Int) (g : ι → Int)
    (h : ∀ s i, p (f s i) = p s + g i) (l : List ι) (s : σ) :
    p (l.foldl f s) = p s + (l.map g).sum := by
  induction l generalizing s with
  | nil => simp
  | cons i l ih => simp [ih, h, add_assoc]

theorem foldl_proj_const {σ ι τ : Type} (f : σ → ι → σ) (p : σ → τ)
    (h : ∀ s i, p (f s i) = p s) (l : List ι) (s : σ) :
    p (l.foldl f s) = p s := by
  induction l generalizing s with
  | nil => rfl
  | cons i l ih => simp [ih, h]

theorem foldl_proj_append {σ ι τ : Type} (f : σ → ι → σ) (p : σ → List τ) (g : ι → List τ)
    (h : ∀ s i, p (f s i) = p s ++ g i) (l : List ι) (s : σ) :
    p (l.foldl f s) = p s ++ l.flatMap g := by
  induction l generalizing s with
  | nil => simp
  | cons i l ih => simp [ih, h]

/-! ## The block scan -/

section scan
variable (src : List uint8_t) (src_w src_h scale src_x src_y : Int)

theorem sample_sum_y (b_y bx : Int) (s : Acc × Machine) :
    (sample src src_w src_x src_y b_y bx s).1.sum_y
      = s.1.sum_y + srcAt src (lumaOffset src_w (src_x + bx) (src_y + b_y)) := by
  unfold sample lumaOffset pairBase
  simp only [load_fst]
  split <;> rfl

theorem sample_count_y (b_y bx : Int) (s : Acc × Machine) :
    (sample src src_w src_x src_y b_y bx s).1.count_y = s.1.count_y + 1 := by
  unfold sample
  simp only []
  split <;> rfl

theorem sample_sum_u (b_y bx : Int) (s : Acc × Machine) :
    (sample src src_w src_x src_y b_y bx s).1.sum_u
      = s.1.sum_u + (if Int.tmod bx 2 = 0 then
          srcAt src (pairBase src_w (src_x + bx) (src_y + b_y) + 1) else 0) := by
  unfold sample pairBase
  simp only [load_fst]
  split <;> simp

theorem sample_sum_v (b_y bx : Int) (s : Acc × Machine) :
    (sample src src_w src_x src_y b_y bx s).1.sum_v
      = s.1.sum_v + (if Int.tmod bx 2 = 0 then
          srcAt src (pairBase src_w (src_x + bx) (src_y + b_y) + 3) else 0) := by
  unfold sample pairBase
  simp only [load_fst]
  split <;> simp

theorem sample_count_uv (b_y bx : Int) (s : Acc × Machine) :
    (sample src src_w src_x src_y b_y bx s).1.count_uv
      = s.1.count_uv + (if Int.tmod bx 2 = 0 then 1 else 0) := by
  unfold sample
  simp only []
  split <;> simp

theorem sample_dst (b_y bx : Int) (s : Acc × Machine) :
    (sample src src_w src_x src_y b_y bx s).2.dst = s.2.dst := by
  unfold sample
  simp only []
  split <;> simp

theorem sample_stores (b_y bx : Int) (s : Acc × Machine) :
    (sample src src_w src_x src_y b_y bx s).2.stores = s.2.stores := by
  unfold sample
  simp only []
  split <;> simp

end scan

theorem foldl_proj_writeAll {σ ι : Type} (f : σ → ι → σ) (p : σ → List uint8_t)
    (g : ι → List (Int × uint8_t))
    (h : ∀ s i, p (f s i) = writeAll (p s) (g i)) (l : List ι) (s : σ) :
    p (l.foldl f s) = writeAll (p s) (l.flatMap g) := by
  induction l generalizing s with
  | nil => simp
  | cons i l ih => simp [ih, h, writeAll_append]

theorem Acc.eq_of_fields {a b : Acc} (h1 : a.sum_y = b.sum_y) (h2 : a.sum_u = b.sum_u)
    (h3 : a.sum_v = b.sum_v) (h4 : a.count_y = b.count_y) (h5 : a.count_uv = b.count_uv) :
    a = b := by
  cases a; cases b; simp_all

section scan
variable (src : List uint8_t) (src_w src_h scale src_x src_y : Int)

/-- The row offsets `by` visited by the scan of a block. -/
theorem scan_sum_y (m : Machine) :
    (scanBlock src src_w src_h scale src_x src_y m).1.sum_y
      = ((forIndices scale (fun b_y => decide (src_y + b_y < src_h))).map (fun b_y =>
          ((forIndices scale (fun bx => decide (src_x + bx < src_w))).map (fun bx =>
            srcAt src (lumaOffset src_w (src_x + bx) (src_y + b_y)))).sum)).sum := by
  unfold scanBlock
  rw [foldl_proj_sum _ (fun s => s.1.sum_y) _ (fun s b_y =>
    foldl_proj_sum _ (fun s => s.1.sum_y) _
      (fun s bx => sample_sum_y src src_w src_x src_y b_y bx s) _ s)]
  simp

theorem scan_count_y (m : Machine) :
    (scanBlock src src_w src_h scale src_x src_y m).1.count_y
      = ((forIndices scale (fun b_y => decide (src_y + b_y < src_h))).map (fun _ =>
          ((forIndices scale (fun bx => decide (src_x + bx < src_w))).map (fun _ =>
            (1 : Int))).sum)).sum := by
  unfold scanBlock
  rw [foldl_proj_sum _ (fun s => s.1.count_y) _ (fun s b_y =>
    foldl_proj_sum _ (fun s => s.1.count_y) _
      (fun s bx => sample_count_y src src_w src_x src_y b_y bx s) _ s)]
  simp

theorem scan_sum_u (m : Machine) :
    (scanBlock src src_w src_h scale src_x src_y m).1.sum_u
      = ((forIndices scale (fun b_y => decide (src_y + b_y < src_h))).map (fun b_y =>
          ((forIndices scale (fun bx => decide (src_x + bx < src_w))).map (fun bx =>
            if Int.tmod bx 2 = 0 then
              srcAt src (pairBase src_w (src_x + bx) (src_y + b_y) + 1) else 0)).sum)).sum := by
  unfold scanBlock
  rw [foldl_proj_sum _ (fun s => s.1.sum_u) _ (fun s b_y =>
    foldl_proj_sum _ (fun s => s.1.sum_u) _
      (fun s bx => sample_sum_u src src_w src_x src_y b_y bx s) _ s)]
  simp

theorem scan_sum_v (m : Machine) :
    (scanBlock src src_w src_h scale src_x src_y m).1.sum_v
      = ((forIndices scale (fun b_y => decide (src_y + b_y < src_h))).map (fun b_y =>
          ((forIndices scale (fun bx => decide (src_x + bx < src_w))).map (fun bx =>
            if Int.tmod bx 2 = 0 then
              srcAt src (pairBase src_w (src_x + bx) (src_y + b_y) + 3) else 0)).sum)).sum := by
  unfold scanBlock
  rw [foldl_proj_sum _ (fun s => s.1.sum_v) _ (fun s b_y =>
    foldl_proj_sum _ (fun s => s.1.sum_v) _
      (fun s bx => sample_sum_v src src_w src_x src_y b_y bx s) _ s)]
  simp

theorem scan_count_uv (m : Machine) :
    (scanBlock src src_w src_h scale src_x src_y m).1.count_uv
      = ((forIndices scale (fun b_y => decide (src_y + b_y < src_h))).map (fun _ =>
          ((forIndices scale (fun bx => decide (src_x + bx < src_w))).map (fun bx =>
            if Int.tmod bx 2 = 0 then (1 : Int) else 0)).sum)).sum := by
  unfold scanBlock
  rw [foldl_proj_sum _ (fun s => s.1.count_uv) _ (fun s b_y =>
    foldl_proj_sum _ (fun s => s.1.count_uv) _
      (fun s bx => sample_count_uv src src_w src_x src_y b_y bx s) _ s)]
  simp

theorem scan_acc (m : Machine) :
    (scanBlock src src_w src_h scale src_x src_y m).1
      = blockAcc src src_w src_h scale src_x src_y := by
  unfold blockAcc
  apply Acc.eq_of_fields
  · rw [scan_sum_y, scan_sum_y]
  · rw [scan_sum_u, scan_sum_u]
  · rw [scan_sum_v, scan_sum_v]
  · rw [scan_count_y, scan_count_y]
  · rw [scan_count_uv, scan_count_uv]

theorem scan_dst (m : Machine) :
    (scanBlock src src_w src_h scale src_x src_y m).2.dst = m.dst := by
  unfold scanBlock
  rw [foldl_proj_const _ (fun s => s.2.dst) (fun s b_y =>
    foldl_proj_const _ (fun s => s.2.dst)
      (fun s bx => sample_dst src src_w src_x src_y b_y bx s) _ s)]

theorem scan_stores (m : Machine) :
    (scanBlock src src_w src_h scale src_x src_y m).2.stores = m.stores := by
  unfold scanBlock
  rw [foldl_proj_const _ (fun s => s.2.stores) (fun s b_y =>
    foldl_proj_const _ (fun s => s.2.stores)
      (fun s bx => sample_stores src src_w src_x src_y b_y bx s) _ s)]

end scan

/-! ## The destination loops -/

section run
variable (src : List uint8_t) (src_w src_h dst_w dst_h scale : Int)

theorem pixelStep_stores (dst_y dst_x : Int) (m : Machine) :
    (pixelStep src src_w src_h dst_w scale dst_y dst_x m).stores
      = m.stores ++ pixelStores src src_w src_h dst_w scale dst_y dst_x := by
  unfold pixelStep pixelStores lumaOffset pairBase
  simp only [scan_acc]
  split <;> simp [scan_stores]

theorem pixelStep_dst (dst_y dst_x : Int) (m : Machine) :
    (pixelStep src src_w src_h dst_w scale dst_y dst_x m).dst
      = writeAll m.dst (pixelStores src src_w src_h dst_w scale dst_y dst_x) := by
  unfold pixelStep pixelStores lumaOffset pairBase
  simp only [scan_acc]
  split
  · rw [store_dst, store_dst, store_dst, scan_dst, ← writeAll_append, ← writeAll_append]
    rfl
  · rw [store_dst, scan_dst]

theorem run_stores (dst : List uint8_t) :
    (resizeYUV422Average src src_w src_h dst dst_w dst_h scale).stores
      = allStores src src_w src_h dst_w dst_h scale := by
  unfold resizeYUV422Average allStores
  rw [foldl_proj_append _ (fun m => m.stores) _ (fun m dst_y =>
    foldl_proj_append _ (fun m => m.stores) _
      (fun m dst_x => pixelStep_stores src src_w src_h dst_w scale dst_y dst_x m) _ m)]
  rfl

theorem run_dst (dst : List uint8_t) :
    (resizeYUV422Average src src_w src_h dst dst_w dst_h scale).dst
      = writeAll dst (allStores src src_w src_h dst_w dst_h scale) := by
  unfold resizeYUV422Average allStores
  rw [foldl_proj_writeAll _ (fun m => m.dst) _ (fun m dst_y =>
    foldl_proj_writeAll _ (fun m => m.dst) _
      (fun m dst_x => pixelStep_dst src src_w src_h dst_w scale dst_y dst_x m) _ m)]

end run

/-! ## The write log of a run -/

theorem intRange_append (a : Int) (m n : Nat) :
    intRange a m ++ intRange (a + m) n = intRange a (m + n) := by
  unfold intRange
  rw [List.range_add, List.map_append, List.map_map]
  congr 1
  apply List.map_congr_left
  intro i _
  simp only [Function.comp]
  push_cast
  ring

theorem mem_intRange {a : Int} {n : Nat} {i : Int} :
    i ∈ intRange a n ↔ a ≤ i ∧ i < a + n := by
  unfold intRange
  simp only [List.mem_map, List.mem_range]
  constructor
  · rintro ⟨k, hk, rfl⟩
    omega
  · rintro ⟨h1, h2⟩
    exact ⟨(i - a).toNat, by omega, by omega⟩

theorem intRange_nodup (a : Int) (n : Nat) : (intRange a n).Nodup := by
  unfold intRange
  apply List.Nodup.map _ (List.nodup_range n)
  intro i j h
  simp only at h
  omega

theorem mem_forIndices_true {n i : Int} :
    i ∈ forIndices n (fun _ => true) ↔ 0 ≤ i ∧ i < n := by
  rw [forIndices_true]
  simp only [List.mem_map, List.mem_range, Int.ofNat_eq_coe]
  constructor
  · rintro ⟨k, hk, rfl⟩
    omega
  · rintro ⟨h1, h2⟩
    exact ⟨i.toNat, by omega, by omega⟩

/-- The destination indices written by the iteration for pixel `(dst_x, dst_y)`. -/
theorem pixelStores_keys (src : List uint8_t) (src_w src_h dst_w scale dst_y dst_x : Int) :
    (pixelStores src src_w src_h dst_w scale dst_y dst_x).map Prod.fst
      = lumaOffset dst_w dst_x dst_y ::
          (if bitAnd1 dst_x = 0 then
            [pairBase dst_w dst_x dst_y + 1, pairBase dst_w dst_x dst_y + 3] else []) := by
  unfold pixelStores
  split <;> simp

theorem row_keys_perm (src : List uint8_t) (src_w src_h dst_w scale dst_y : Int) (k : Nat) :
    ((((List.range (2 * k)).map Int.ofNat).flatMap (fun dst_x =>
        pixelStores src src_w src_h dst_w scale dst_y dst_x)).map Prod.fst).Perm
      (intRange (dst_y * dst_w * 2) (4 * k)) := by
  induction k with
  | zero => simp [intRange]
  | succ k ih =>
    have h1 : 2 * (k + 1) = 2 * k + 1 + 1 := by ring
    have h2 : 4 * (k + 1) = 4 * k + 4 := by ring
    rw [h1, List.range_succ, List.range_succ, h2, ← intRange_append]
    simp only [List.map_append, List.flatMap_append, List.append_assoc]
    refine List.Perm.append ih ?_
    simp only [List.map_cons, List.map_nil, List.flatMap_cons, List.flatMap_nil,
      List.append_nil, List.map_append, pixelStores_keys]
    have e0 : bitAnd1 (Int.ofNat (2 * k)) = 0 := by
      unfold bitAnd1; simp only [Int.ofNat_eq_coe]; omega
    have e1 : bitAnd1 (Int.ofNat (2 * k + 1)) ≠ 0 := by
      unfold bitAnd1; simp only [Int.ofNat_eq_coe]; omega
    have c0 : clearBit0 (Int.ofNat (2 * k)) = 2 * k := by
      unfold clearBit0; simp only [Int.ofNat_eq_coe]; omega
    have c1 : clearBit0 (Int.ofNat (2 * k + 1)) = 2 * k := by
      unfold clearBit0; simp only [Int.ofNat_eq_coe]; omega
    simp only [lumaOffset, pairBase, e0, e1, c0, c1, if_true, if_false, ne_eq,
      not_true_eq_false, not_false_eq_true]
    have hr : intRange (dst_y * dst_w * 2 + ((4 * k : Nat) : Int)) 4
        = [(dst_y * dst_w + 2 * k) * 2 + 0, (dst_y * dst_w + 2 * k) * 2 + 1,
            (dst_y * dst_w + 2 * k) * 2 + 2, (dst_y * dst_w + 2 * k) * 2 + 3] := by
      simp only [intRange, List.range_succ, List.range_zero, List.nil_append, List.map_cons,
        List.map_nil, List.cons_append]
      push_cast
      simp only [List.cons.injEq, and_true]
      refine ⟨?_, ?_, ?_, ?_⟩ <;> ring
    rw [hr]
    simp only [List.cons_append, List.nil_append]
    refine List.Perm.cons _ (List.Perm.cons _ ?_)
    exact List.Perm.swap _ _ _

theorem allStores_keys_perm (src : List uint8_t) (src_w src_h dst_w dst_h scale : Int)
    (hw : Even dst_w) (hw0 : 0 ≤ dst_w) (hh0 : 0 ≤ dst_h) :
    ((allStores src src_w src_h dst_w dst_h scale).map Prod.fst).Perm
      (intRange 0 (dst_w * dst_h * 2).toNat) := by
  obtain ⟨c, hc⟩ := hw
  obtain ⟨k, hk⟩ : ∃ k : Nat, dst_w.toNat = 2 * k := ⟨c.toNat, by omega⟩
  obtain ⟨H, rfl⟩ : ∃ H : Nat, dst_h = (H : Int) := ⟨dst_h.toNat, by omega⟩
  have hwk : dst_w = ((2 * k : Nat) : Int) := by omega
  unfold allStores
  rw [forIndices_true, forIndices_true, hk, Int.toNat_ofNat]
  have hn : ∀ n : Nat, (dst_w * (n : Int) * 2).toNat = n * (4 * k) := by
    intro n
    have : dst_w * (n : Int) * 2 = ((n * (4 * k) : Nat) : Int) := by
      rw [hwk]; push_cast; ring
    rw [this, Int.toNat_ofNat]
  rw [hn]
  induction H with
  | zero => simp [intRange]
  | succ H ih =>
    have h2 : (H + 1) * (4 * k) = H * (4 * k) + 4 * k := by ring
    rw [List.range_succ, h2, ← intRange_append]
    simp only [List.map_append, List.flatMap_append, List.map_cons, List.map_nil,
      List.flatMap_cons, List.flatMap_nil, List.append_nil]
    refine List.Perm.append (ih (by omega)) ?_
    have := row_keys_perm src src_w src_h dst_w scale (Int.ofNat H) k
    have e : Int.ofNat H * dst_w * 2 = 0 + ((H * (4 * k) : Nat) : Int) := by
      rw [hwk]; simp only [Int.ofNat_eq_coe]; push_cast; ring
    rw [e] at this
    exact this

theorem allStores_keys_nodup (src : List uint8_t) (src_w src_h dst_w dst_h scale : Int)
    (hw : Even dst_w) (hw0 : 0 ≤ dst_w) (hh0 : 0 ≤ dst_h) :
    ((allStores src src_w src_h dst_w dst_h scale).map Prod.fst).Nodup :=
  (allStores_keys_perm src src_w src_h dst_w dst_h scale hw hw0 hh0).nodup_iff.mpr
    (intRange_nodup _ _)

theorem mem_allStores {src : List uint8_t} {src_w src_h dst_w dst_h scale dx dy : Int}
    {p : Int × uint8_t} (hx : 0 ≤ dx) (hx1 : dx < dst_w) (hy : 0 ≤ dy) (hy1 : dy < dst_h)
    (hp : p ∈ pixelStores src src_w src_h dst_w scale dy dx) :
    p ∈ allStores src src_w src_h dst_w dst_h scale := by
  unfold allStores
  rw [List.mem_flatMap]
  refine ⟨dy, mem_forIndices_true.mpr ⟨hy, hy1⟩, ?_⟩
  rw [List.mem_flatMap]
  exact ⟨dx, mem_forIndices_true.mpr ⟨hx, hx1⟩, hp⟩

/-! ## Reading back a replayed log -/

theorem byteAt_writeAll_of_not_mem (d : List uint8_t) (l : List (Int × uint8_t)) (i : Int)
    (h : i ∉ l.map Prod.fst) : byteAt (writeAll d l) i = byteAt d i := by
  induction l generalizing d with
  | nil => rfl
  | cons p l ih =>
    simp only [List.map_cons, List.mem_cons, not_or] at h
    show byteAt (writeAll _ l) i = _
    rw [ih _ h.2]
    by_cases hp : 0 ≤ p.1 ∧ p.1 < d.length
    · simp only [hp, and_self, if_true]
      unfold byteAt
      split
      · rw [List.getElem?_set]
        have : p.1.toNat ≠ i.toNat := by
          have := h.1
          omega
        simp [this]
      · rfl
    · simp only [hp, if_false]

theorem byteAt_writeAll_of_mem (d : List uint8_t) (l : List (Int × uint8_t)) (i : Int)
    (v : uint8_t) (hnd : (l.map Prod.fst).Nodup) (hmem : (i, v) ∈ l)
    (h0 : 0 ≤ i) (h1 : i < d.length) : byteAt (writeAll d l) i = some v := by
  induction l generalizing d with
  | nil => simp at hmem
  | cons p l ih =>
    simp only [List.map_cons, List.nodup_cons] at hnd
    show byteAt (writeAll _ l) i = _
    rcases List.mem_cons.mp hmem with hp | hp
    · subst hp
      rw [byteAt_writeAll_of_not_mem _ _ _ hnd.1]
      simp only [h0, h1, and_self, if_true]
      unfold byteAt
      rw [if_pos h0, List.getElem?_set]
      have : i.toNat < d.length := by omega
      simp [this]
    · apply ih _ hnd.2 hp
      by_cases hq : 0 ≤ p.1 ∧ p.1 < d.length
      · simp only [hq, and_self, if_true, List.length_set]; exact h1
      · simp only [hq, if_false]; exact h1

/-- After a run with an even, non-negative destination width and a destination
buffer of adequate size, every logged write is what the buffer holds. -/
theorem byteAt_run (dst : List uint8_t) {src : List uint8_t} {src_w src_h dst_w dst_h scale : Int}
    (hw : Even dst_w) (hw0 : 0 ≤ dst_w) (hh0 : 0 ≤ dst_h)
    (hlen : dst_w * dst_h * 2 ≤ dst.length) {i : Int} {v : uint8_t}
    (hmem : (i, v) ∈ allStores src src_w src_h dst_w dst_h scale) :
    byteAt (resizeYUV422Average src src_w src_h dst dst_w dst_h scale).dst i = some v := by
  rw [run_dst]
  have hk : i ∈ intRange 0 (dst_w * dst_h * 2).toNat :=
    (allStores_keys_perm src src_w src_h dst_w dst_h scale hw hw0 hh0).mem_iff.mp
      (List.mem_map.mpr ⟨(i, v), hmem, rfl⟩)
  rw [mem_intRange] at hk
  exact byteAt_writeAll_of_mem _ _ _ _
    (allStores_keys_nodup src src_w src_h dst_w dst_h scale hw hw0 hh0) hmem
    (by omega) (by omega)

/-! ## The accumulators as sums over the clipped window -/

theorem sum_range_list (n : Nat) (g : Nat → Int) :
    ((List.range n).map g).sum = ∑ i ∈ Finset.range n, g i := by
  induction n with
  | zero => simp
  | succ n ih => rw [List.range_succ, Finset.sum_range_succ, ← ih]; simp

theorem list_sum_eq_Ico (a b : Int) (n : Nat) (hn : n = (b - a).toNat) (g : Int → Int) :
    (((List.range n).map Int.ofNat).map (fun i => g (a + i))).sum
      = ∑ x ∈ Finset.Ico a b, g x := by
  subst hn
  have : Finset.Ico a b
      = Finset.map (Nat.castEmbedding.trans (addLeftEmbedding a))
          (Finset.range (b - a).toNat) := rfl
  rw [this, Finset.sum_map, List.map_map, sum_range_list]
  rfl

theorem forIndices_sum (scale lo hi : Int) (g : Int → Int) :
    ((forIndices scale (fun i => decide (lo + i < hi))).map (fun i => g (lo + i))).sum
      = ∑ x ∈ window lo scale hi, g x := by
  rw [forIndices_lt]
  exact list_sum_eq_Ico lo (min (lo + scale) hi) _ (by omega) g

theorem forIndices_sum_even (scale lo hi : Int) (g : Int → Int) :
    ((forIndices scale (fun i => decide (lo + i < hi))).map (fun i =>
        if Int.tmod i 2 = 0 then g (lo + i) else 0)).sum
      = ∑ x ∈ pairColumns lo scale hi, g x := by
  unfold pairColumns
  rw [Finset.sum_filter, ← forIndices_sum]
  congr 1
  apply List.map_congr_left
  intro i hi
  rw [forIndices_lt] at hi
  obtain ⟨k, -, rfl⟩ := List.mem_map.mp hi
  have : Int.tmod (Int.ofNat k) 2 = (Int.ofNat k) % 2 :=
    Int.tmod_eq_emod (Int.ofNat_nonneg k) (by decide)
  rw [this]
  have e : lo + Int.ofNat k - lo = Int.ofNat k := by ring
  rw [e]

section acc
variable (src : List uint8_t) (src_w src_h scale src_x src_y : Int)

theorem blockAcc_sum_y :
    (blockAcc src src_w src_h scale src_x src_y).sum_y
      = ∑ y ∈ window src_y scale src_h, ∑ x ∈ window src_x scale src_w,
          srcAt src (lumaOffset src_w x y) := by
  unfold blockAcc
  rw [scan_sum_y, ← forIndices_sum]
  congr 1
  apply List.map_congr_left
  intro b_y _
  rw [← forIndices_sum]

theorem blockAcc_sum_u :
    (blockAcc src src_w src_h scale src_x src_y).sum_u
      = ∑ y ∈ window src_y scale src_h, ∑ x ∈ pairColumns src_x scale src_w,
          srcAt src (pairBase src_w x y + 1) := by
  unfold blockAcc
  rw [scan_sum_u, ← forIndices_sum]
  congr 1
  apply List.map_congr_left
  intro b_y _
  rw [← forIndices_sum_even]

theorem blockAcc_sum_v :
    (blockAcc src src_w src_h scale src_x src_y).sum_v
      = ∑ y ∈ window src_y scale src_h, ∑ x ∈ pairColumns src_x scale src_w,
          srcAt src (pairBase src_w x y + 3) := by
  unfold blockAcc
  rw [scan_sum_v, ← forIndices_sum]
  congr 1
  apply List.map_congr_left
  intro b_y _
  rw [← forIndices_sum_even]

theorem blockAcc_count_y :
    (blockAcc src src_w src_h scale src_x src_y).count_y
      = (((window src_y scale src_h).card * (window src_x scale src_w).card : Nat) : Int) := by
  unfold blockAcc
  rw [scan_count_y]
  have h := forIndices_sum scale src_x src_w (fun _ => 1)
  have h' := forIndices_sum scale src_y src_h (fun _ => ((window src_x scale src_w).card : Int))
  simp only [h]
  simp only [Finset.sum_const, smul_eq_mul, mul_one, nsmul_eq_mul] at h' ⊢
  rw [h']
  push_cast
  ring

theorem blockAcc_count_uv :
    (blockAcc src src_w src_h scale src_x src_y).count_uv
      = (((window src_y scale src_h).card * (pairColumns src_x scale src_w).card : Nat)
          : Int) := by
  unfold blockAcc
  rw [scan_count_uv]
  have h := forIndices_sum_even scale src_x src_w (fun _ => 1)
  have h' := forIndices_sum scale src_y src_h
    (fun _ => ((pairColumns src_x scale src_w).card : Int))
  simp only [h]
  simp only [Finset.sum_const, smul_eq_mul, mul_one, nsmul_eq_mul] at h' ⊢
  rw [h']
  push_cast
  ring

end acc

/-! ## Averages and narrowing -/

theorem srcAt_nonneg (src : List uint8_t) (i : Int) : 0 ≤ srcAt src i := by
  unfold srcAt; split <;> omega

theorem srcAt_le (src : List uint8_t) (i : Int) : srcAt src i ≤ 255 := by
  unfold srcAt
  split
  · have := (src.getD i.toNat 0).isLt
    omega
  · omega

theorem toUint8_val {q : Int} (h0 : 0 ≤ q) (h1 : q ≤ 255) : ((toUint8 q).val : Int) = q := by
  unfold toUint8
  simp only
  omega

theorem sum2_nonneg (s t : Finset Int) (f : Int → Int → Int) (hf : ∀ x y, 0 ≤ f x y) :
    0 ≤ ∑ y ∈ s, ∑ x ∈ t, f x y :=
  Finset.sum_nonneg (fun y _ => Finset.sum_nonneg (fun x _ => hf x y))

theorem sum2_le (s t : Finset Int) (f : Int → Int → Int) (c : Int) (hf : ∀ x y, f x y ≤ c) :
    ∑ y ∈ s, ∑ x ∈ t, f x y ≤ c * ((s.card * t.card : Nat) : Int) := by
  have h1 : ∀ y ∈ s, ∑ x ∈ t, f x y ≤ t.card • c :=
    fun y _ => Finset.sum_le_card_nsmul t _ c (fun x _ => hf x y)
  have h2 := Finset.sum_le_card_nsmul s _ _ h1
  refine le_trans h2 (le_of_eq ?_)
  simp only [nsmul_eq_mul]
  push_cast
  ring

theorem tdiv_bounds {S n c : Int} (hS : 0 ≤ S) (hn : 0 < n) (hc : S ≤ c * n) :
    0 ≤ Int.tdiv S n ∧ Int.tdiv S n ≤ c := by
  rw [Int.tdiv_eq_ediv hS (le_of_lt hn)]
  exact ⟨Int.ediv_nonneg hS (le_of_lt hn), Int.ediv_le_of_le_mul hn hc⟩

section avg
variable (src : List uint8_t) (src_w src_h scale src_x src_y : Int)

theorem avgY_val :
    (((avgY (blockAcc src src_w src_h scale src_x src_y)).val : Nat) : Int)
      = if (window src_y scale src_h).card * (window src_x scale src_w).card = 0 then 0
        else Int.tdiv
          (∑ y ∈ window src_y scale src_h, ∑ x ∈ window src_x scale src_w,
            srcAt src (lumaOffset src_w x y))
          (((window src_y scale src_h).card * (window src_x scale src_w).card : Nat) : Int) := by
  unfold avgY
  rw [blockAcc_count_y, blockAcc_sum_y]
  by_cases h : (window src_y scale src_h).card * (window src_x scale src_w).card = 0
  · rw [if_pos h, h]
    simp [toUint8]
  · rw [if_neg h]
    have hpos : (0 : Int) < (((window src_y scale src_h).card
        * (window src_x scale src_w).card : Nat) : Int) := by
      have := Nat.pos_of_ne_zero h
      exact_mod_cast this
    rw [if_pos hpos]
    have hb := tdiv_bounds (sum2_nonneg _ _ _ (fun x y => srcAt_nonneg src (lumaOffset src_w x y)))
      hpos (sum2_le (window src_y scale src_h) (window src_x scale src_w) _ 255
        (fun x y => srcAt_le src (lumaOffset src_w x y)))
    exact toUint8_val hb.1 hb.2

theorem avgU_val :
    (((avgU (blockAcc src src_w src_h scale src_x src_y)).val : Nat) : Int)
      = if (window src_y scale src_h).card * (pairColumns src_x scale src_w).card = 0 then 128
        else Int.tdiv
          (∑ y ∈ window src_y scale src_h, ∑ x ∈ pairColumns src_x scale src_w,
            srcAt src (pairBase src_w x y + 1))
          (((window src_y scale src_h).card * (pairColumns src_x scale src_w).card : Nat)
            : Int) := by
  unfold avgU
  rw [blockAcc_count_uv, blockAcc_sum_u]
  by_cases h : (window src_y scale src_h).card * (pairColumns src_x scale src_w).card = 0
  · rw [if_pos h, h, if_neg (by decide)]
    rfl
  · rw [if_neg h]
    have hpos : (0 : Int) < (((window src_y scale src_h).card
        * (pairColumns src_x scale src_w).card : Nat) : Int) := by
      have := Nat.pos_of_ne_zero h
      exact_mod_cast this
    rw [if_pos hpos]
    have hb := tdiv_bounds
      (sum2_nonneg _ _ _ (fun x y => srcAt_nonneg src (pairBase src_w x y + 1)))
      hpos (sum2_le (window src_y scale src_h) (pairColumns src_x scale src_w) _ 255
        (fun x y => srcAt_le src (pairBase src_w x y + 1)))
    exact toUint8_val hb.1 hb.2

theorem avgV_val :
    (((avgV (blockAcc src src_w src_h scale src_x src_y)).val : Nat) : Int)
      = if (window src_y scale src_h).card * (pairColumns src_x scale src_w).card = 0 then 128
        else Int.tdiv
          (∑ y ∈ window src_y scale src_h, ∑ x ∈ pairColumns src_x scale src_w,
            srcAt src (pairBase src_w x y + 3))
          (((window src_y scale src_h).card * (pairColumns src_x scale src_w).card : Nat)
            : Int) := by
  unfold avgV
  rw [blockAcc_count_uv, blockAcc_sum_v]
  by_cases h : (window src_y scale src_h).card * (pairColumns src_x scale src_w).card = 0
  · rw [if_pos h, h, if_neg (by decide)]
    rfl
  · rw [if_neg h]
    have hpos : (0 : Int) < (((window src_y scale src_h).card
        * (pairColumns src_x scale src_w).card : Nat) : Int) := by
      have := Nat.pos_of_ne_zero h
      exact_mod_cast this
    rw [if_pos hpos]
    have hb := tdiv_bounds
      (sum2_nonneg _ _ _ (fun x y => srcAt_nonneg src (pairBase src_w x y + 3)))
      hpos (sum2_le (window src_y scale src_h) (pairColumns src_x scale src_w) _ 255
        (fun x y => srcAt_le src (pairBase src_w x y + 3)))
    exact toUint8_val hb.1 hb.2

end avg

/-! ## What a run leaves at the offsets of a destination pixel -/

section pixel
variable {src dst : List uint8_t} {src_w src_h dst_w dst_h scale dx dy : Int}

theorem run_luma (hw : Even dst_w) (hlen : dst_w * dst_h * 2 ≤ dst.length)
    (hx : 0 ≤ dx) (hx1 : dx < dst_w) (hy : 0 ≤ dy) (hy1 : dy < dst_h) :
    byteAt (resizeYUV422Average src src_w src_h dst dst_w dst_h scale).dst
        (lumaOffset dst_w dx dy)
      = some (avgY (blockAcc src src_w src_h scale (dx * scale) (dy * scale))) := by
  apply byteAt_run dst hw (by omega) (by omega) hlen
  apply mem_allStores hx hx1 hy hy1
  unfold pixelStores
  exact List.mem_cons_self _ _

end pixel

/-! ## Absence of out-of-bounds accesses -/

theorem foldl_inv {σ ι : Type} (P : σ → Prop) (f : σ → ι → σ) (l : List ι)
    (h : ∀ s, ∀ i ∈ l, P s → P (f s i)) (s : σ) (hs : P s) : P (l.foldl f s) := by
  induction l generalizing s with
  | nil => exact hs
  | cons i l ih =>
    exact ih (fun s j hj => h s j (List.mem_cons_of_mem _ hj)) _
      (h s i (List.mem_cons_self _ _) hs)

theorem mem_forIndices_lt {n a b i : Int} :
    i ∈ forIndices n (fun i => decide (a + i < b)) ↔ 0 ≤ i ∧ i < n ∧ a + i < b := by
  rw [forIndices_lt]
  simp only [List.mem_map, List.mem_range, Int.ofNat_eq_coe]
  constructor
  · rintro ⟨k, hk, rfl⟩
    omega
  · rintro ⟨h1, h2, h3⟩
    exact ⟨i.toNat, by omega, by omega⟩

/-- Inside an image of even width the four bytes of a pixel's pair lie inside the
`w * h * 2` bytes of the image. -/
theorem pair_in_bounds {w h x y : Int} (hw : Even w) (hx0 : 0 ≤ x) (hx : x < w)
    (hy0 : 0 ≤ y) (hy : y < h) :
    0 ≤ pairBase w x y ∧ pairBase w x y + 3 < w * h * 2 := by
  obtain ⟨c, hc⟩ := hw
  have h1 : 0 ≤ y * w := mul_nonneg hy0 (by omega)
  have h2 : y * w + w ≤ w * h := by
    have : (y + 1) * w ≤ h * w := mul_le_mul_of_nonneg_right (by omega) (by omega)
    linarith
  unfold pairBase clearBit0
  generalize y * w = t at h1 h2 ⊢
  generalize w * h = u at h2 ⊢
  omega

theorem lumaOffset_range (w x y : Int) :
    pairBase w x y ≤ lumaOffset w x y ∧ lumaOffset w x y ≤ pairBase w x y + 2 := by
  unfold lumaOffset
  split <;> omega

section safe
variable {src : List uint8_t} {src_w src_h dst_w dst_h : Int} {dstLen : Nat}

theorem safe_load {m : Machine} (hm : Safe src_w src_h dst_w dst_h dstLen m)
    (hlen : src_w * src_h * 2 ≤ src.length) {i : Int} (h0 : 0 ≤ i)
    (h1 : i < src_w * src_h * 2) : Safe src_w src_h dst_w dst_h dstLen (m.load src i).2 := by
  obtain ⟨hf, hl, hs, hd⟩ := hm
  refine ⟨?_, ?_, ?_, ?_⟩
  · rw [load_faults, hf, if_pos ⟨h0, by omega⟩]; rfl
  · rw [load_loads]
    intro j hj
    rcases List.mem_append.mp hj with hj | hj
    · exact hl j hj
    · rw [List.mem_singleton] at hj; subst hj; exact ⟨h0, h1⟩
  · rw [load_stores]; exact hs
  · rw [load_dst]; exact hd

theorem safe_store {m : Machine} (hm : Safe src_w src_h dst_w dst_h dstLen m)
    (hlen : dst_w * dst_h * 2 ≤ dstLen) {i : Int} (v : uint8_t) (h0 : 0 ≤ i)
    (h1 : i < dst_w * dst_h * 2) : Safe src_w src_h dst_w dst_h dstLen (m.store i v) := by
  obtain ⟨hf, hl, hs, hd⟩ := hm
  refine ⟨?_, ?_, ?_, ?_⟩
  · rw [store_faults, hf, if_pos ⟨h0, by omega⟩]; rfl
  · rw [store_loads]; exact hl
  · rw [store_stores]
    intro p hp
    rcases List.mem_append.mp hp with hp | hp
    · exact hs p hp
    · rw [List.mem_singleton] at hp; subst hp; exact ⟨h0, h1⟩
  · rw [store_dst, writeAll_length]; exact hd

theorem safe_sample {s : Acc × Machine} (hm : Safe src_w src_h dst_w dst_h dstLen s.2)
    (hw : Even src_w) (hlen : src_w * src_h * 2 ≤ src.length) {src_x src_y b_y bx : Int}
    (hx0 : 0 ≤ src_x + bx) (hx : src_x + bx < src_w) (hy0 : 0 ≤ src_y + b_y)
    (hy : src_y + b_y < src_h) :
    Safe src_w src_h dst_w dst_h dstLen (sample src src_w src_x src_y b_y bx s).2 := by
  have hp := pair_in_bounds hw hx0 hx hy0 hy
  have hl := lumaOffset_range src_w (src_x + bx) (src_y + b_y)
  have hy' : Safe src_w src_h dst_w dst_h dstLen
      (s.2.load src (lumaOffset src_w (src_x + bx) (src_y + b_y))).2 :=
    safe_load hm hlen (by omega) (by omega)
  have key : (sample src src_w src_x src_y b_y bx s).2
      = if Int.tmod bx 2 = 0 then
          (((s.2.load src (lumaOffset src_w (src_x + bx) (src_y + b_y))).2.load src
            (pairBase src_w (src_x + bx) (src_y + b_y) + 1)).2.load src
            (pairBase src_w (src_x + bx) (src_y + b_y) + 3)).2
        else (s.2.load src (lumaOffset src_w (src_x + bx) (src_y + b_y))).2 := by
    unfold sample lumaOffset pairBase
    simp only []
    split <;> rfl
  rw [key]
  split
  · exact safe_load (safe_load hy' hlen (by omega) (by omega)) hlen (by omega) (by omega)
  · exact hy'

theorem safe_scanBlock {m : Machine} (hm : Safe src_w src_h dst_w dst_h dstLen m)
    (hw : Even src_w) (hlen : src_w * src_h * 2 ≤ src.length) {scale src_x src_y : Int}
    (hx0 : 0 < scale → 0 ≤ src_x) (hy0 : 0 < scale → 0 ≤ src_y) :
    Safe src_w src_h dst_w dst_h dstLen (scanBlock src src_w src_h scale src_x src_y m).2 := by
  unfold scanBlock
  apply foldl_inv (fun s : Acc × Machine => Safe src_w src_h dst_w dst_h dstLen s.2) _ _ _ _ hm
  intro s b_y hby hs
  apply foldl_inv (fun s : Acc × Machine => Safe src_w src_h dst_w dst_h dstLen s.2) _ _ _ _ hs
  intro s bx hbx hs
  rw [mem_forIndices_lt] at hby hbx
  have hx := hx0 (by omega)
  have hy := hy0 (by omega)
  exact safe_sample hs hw hlen (by omega) hbx.2.2 (by omega) hby.2.2

theorem safe_pixelStep {m : Machine} (hm : Safe src_w src_h dst_w dst_h dstLen m)
    (hsw : Even src_w) (hsrc : src_w * src_h * 2 ≤ src.length) (hdw : Even dst_w)
    (hdst : dst_w * dst_h * 2 ≤ dstLen) {scale dst_x dst_y : Int}
    (hx0 : 0 ≤ dst_x) (hx : dst_x < dst_w) (hy0 : 0 ≤ dst_y) (hy : dst_y < dst_h) :
    Safe src_w src_h dst_w dst_h dstLen
      (pixelStep src src_w src_h dst_w scale dst_y dst_x m) := by
  have hs : Safe src_w src_h dst_w dst_h dstLen
      (scanBlock src src_w src_h scale (dst_x * scale) (dst_y * scale) m).2 :=
    safe_scanBlock hm hsw hsrc (fun h => mul_nonneg hx0 (le_of_lt h))
      (fun h => mul_nonneg hy0 (le_of_lt h))
  have hp := pair_in_bounds hdw hx0 hx hy0 hy
  have hl := lumaOffset_range dst_w dst_x dst_y
  have h1 := safe_store hs hdst
    (avgY (scanBlock src src_w src_h scale (dst_x * scale) (dst_y * scale) m).1)
    (show 0 ≤ lumaOffset dst_w dst_x dst_y by omega) (by omega)
  have key : pixelStep src src_w src_h dst_w scale dst_y dst_x m
      = if bitAnd1 dst_x = 0 then
          (((scanBlock src src_w src_h scale (dst_x * scale) (dst_y * scale) m).2.store
              (lumaOffset dst_w dst_x dst_y)
              (avgY (scanBlock src src_w src_h scale (dst_x * scale) (dst_y * scale) m).1)).store
            (pairBase dst_w dst_x dst_y + 1)
              (avgU (scanBlock src src_w src_h scale (dst_x * scale) (dst_y * scale) m).1)).store
            (pairBase dst_w dst_x dst_y + 3)
              (avgV (scanBlock src src_w src_h scale (dst_x * scale) (dst_y * scale) m).1)
        else
          (scanBlock src src_w src_h scale (dst_x * scale) (dst_y * scale) m).2.store
            (lumaOffset dst_w dst_x dst_y)
            (avgY (scanBlock src src_w src_h scale (dst_x * scale) (dst_y * scale) m).1) := rfl
  rw [key]
  split
  · exact safe_store (safe_store h1 hdst _ (by omega) (by omega)) hdst _ (by omega) (by omega)
  · exact h1

/-- A run on images of even widths with buffers of adequate size never leaves the
two images. -/
theorem run_safe (src dst : List uint8_t) (src_w src_h dst_w dst_h scale : Int)
    (hsw : Even src_w) (hdw : Even dst_w) (hsrc : src_w * src_h * 2 ≤ src.length)
    (hdst : dst_w * dst_h * 2 ≤ dst.length) :
    Safe src_w src_h dst_w dst_h dst.length
      (resizeYUV422Average src src_w src_h dst dst_w dst_h scale) := by
  unfold resizeYUV422Average
  apply foldl_inv (fun m : Machine => Safe src_w src_h dst_w dst_h dst.length m)
  · intro m dst_y hy hm
    apply foldl_inv (fun m : Machine => Safe src_w src_h dst_w dst_h dst.length m) _ _ _ _ hm
    intro m dst_x hx hm
    rw [mem_forIndices_true] at hx hy
    exact safe_pixelStep hm hsw hsrc hdw hdst hx.1 hx.2 hy.1 hy.2
  · exact ⟨rfl, by simp, by simp, rfl⟩

end safe

/-! ## Claims -/

/-! ### Scale 1 -/

theorem window_one {lo hi : Int} (h : lo < hi) : window lo 1 hi = {lo} := by
  unfold window
  ext x
  simp only [Finset.mem_Ico, Finset.mem_singleton]
  omega

theorem pairColumns_one {lo hi : Int} (h : lo < hi) : pairColumns lo 1 hi = {lo} := by
  unfold pairColumns
  rw [window_one h]
  ext x
  simp only [Finset.mem_filter, Finset.mem_singleton]
  constructor
  · exact fun hx => hx.1
  · rintro rfl
    simp

theorem byteAt_of_srcAt {src : List uint8_t} {i : Int} {b : uint8_t} (h0 : 0 ≤ i)
    (h1 : i < src.length) (hb : ((b.val : Nat) : Int) = srcAt src i) :
    byteAt src i = some b := by
  have hlt : i.toNat < src.length := by omega
  unfold srcAt at hb
  rw [if_pos ⟨h0, h1⟩, List.getD_eq_getElem _ _ hlt] at hb
  unfold byteAt
  rw [if_pos h0, List.getElem?_eq_getElem hlt]
  congr 1
  apply Fin.ext
  exact_mod_cast hb.symm

theorem byteAt_natCast (l : List uint8_t) (n : Nat) : byteAt l (n : Int) = l[n]? := by
  unfold byteAt
  rw [if_pos (Int.ofNat_nonneg n), Int.toNat_ofNat]

/-- At scale 1 with equal dimensions every logged write stores the source byte of
the same index. -/
theorem allStores_scale_one {src : List uint8_t} {w h : Int} (hw : Even w)
    (hsrc : w * h * 2 ≤ src.length) {p : Int × uint8_t}
    (hp : p ∈ allStores src w h w h 1) : byteAt src p.1 = some p.2 := by
  unfold allStores at hp
  obtain ⟨dy, hdy, hp⟩ := List.mem_flatMap.mp hp
  obtain ⟨dx, hdx, hp⟩ := List.mem_flatMap.mp hp
  rw [mem_forIndices_true] at hdx hdy
  have hb := pair_in_bounds hw hdx.1 hdx.2 hdy.1 hdy.2
  have hl := lumaOffset_range w dx dy
  have hwy : window (dy * 1) 1 h = {dy} := by rw [mul_one]; exact window_one hdy.2
  have hwx : window (dx * 1) 1 w = {dx} := by rw [mul_one]; exact window_one hdx.2
  have hpx : pairColumns (dx * 1) 1 w = {dx} := by rw [mul_one]; exact pairColumns_one hdx.2
  unfold pixelStores at hp
  rcases List.mem_cons.mp hp with hp | hp
  · subst hp
    apply byteAt_of_srcAt (by omega) (by omega)
    rw [avgY_val, hwy, hwx]
    simp
  · split at hp
    · simp only [List.mem_cons, List.mem_singleton, List.not_mem_nil, or_false] at hp
      rcases hp with hp | hp
      · subst hp
        apply byteAt_of_srcAt (by omega) (by omega)
        rw [avgU_val, hwy, hpx]
        simp
      · subst hp
        apply byteAt_of_srcAt (by omega) (by omega)
        rw [avgV_val, hwy, hpx]
        simp
    · simp at hp

/-- Every index of the destination image is the index of a logged write. -/
theorem exists_store (src : List uint8_t) (src_w src_h : Int) {dst_w dst_h : Int}
    (scale : Int) (hw : Even dst_w) (hw0 : 0 ≤ dst_w) (hh0 : 0 ≤ dst_h) {i : Int} (h0 : 0 ≤ i)
    (h1 : i < dst_w * dst_h * 2) :
    ∃ v, (i, v) ∈ allStores src src_w src_h dst_w dst_h scale := by
  have hk : i ∈ (allStores src src_w src_h dst_w dst_h scale).map Prod.fst :=
    (allStores_keys_perm src src_w src_h dst_w dst_h scale hw hw0 hh0).mem_iff.mpr
      (mem_intRange.mpr ⟨h0, by omega⟩)
  obtain ⟨p, hp, rfl⟩ := List.mem_map.mp hk
  exact ⟨p.2, hp⟩

theorem run_dst_length (src dst : List uint8_t) (src_w src_h dst_w dst_h scale : Int) :
    (resizeYUV422Average src src_w src_h dst dst_w dst_h scale).dst.length = dst.length := by
  rw [run_dst, writeAll_length]

/-- C3 (identity at scale 1).  For every even `W ≥ 0`, every `H ≥ 0`, every source of
`W * H * 2` bytes and every initial destination of `W * H * 2` bytes, the run
`resizeYUV422Average(src, W, H, dst, W, H, 1)` takes no error branch and leaves
`dst` equal to `src` byte for byte. -/
theorem identity_scale_one (src dst : List uint8_t) (W H : Int) (hW : Even W) (hW0 : 0 ≤ W)
    (hH0 : 0 ≤ H) (hsrc : (src.length : Int) = W * H * 2)
    (hdst : (dst.length : Int) = W * H * 2) :
    (resizeYUV422Average src W H dst W H 1).faults = [] ∧
    (resizeYUV422Average src W H dst W H 1).dst = src := by
  refine ⟨(run_safe src dst W H W H 1 hW hW (le_of_eq hsrc.symm) (le_of_eq hdst.symm)).1, ?_⟩
  apply List.ext_getElem?
  intro n
  by_cases hn : n < src.length
  · obtain ⟨v, hv⟩ := exists_store src W H 1 hW hW0 hH0 (Int.ofNat_nonneg n) (show (n : Int) < W * H * 2 by omega)
    have h1 := byteAt_run dst hW hW0 hH0 (le_of_eq hdst.symm) hv
    have h2 := allStores_scale_one hW (le_of_eq hsrc.symm) hv
    rw [byteAt_natCast] at h1 h2
    rw [h1, h2]
  · have h1 : (resizeYUV422Average src W H dst W H 1).dst.length ≤ n := by
      rw [run_dst_length]; omega
    rw [List.getElem?_eq_none h1, List.getElem?_eq_none (by omega)]

/-- Witness of C3: a 2 x 2 image copied over a destination of other bytes. -/
theorem identity_scale_one_witness :
    (Even (2 : Int) ∧ (0 : Int) ≤ 2 ∧
      (([10, 20, 30, 40, 50, 60, 70, 80] : List uint8_t).length : Int) = 2 * 2 * 2 ∧
      (([1, 2, 3, 4, 5, 6, 7, 8] : List uint8_t).length : Int) = 2 * 2 * 2) ∧
    ((resizeYUV422Average [10, 20, 30, 40, 50, 60, 70, 80] 2 2
        [1, 2, 3, 4, 5, 6, 7, 8] 2 2 1).faults = [] ∧
    (resizeYUV422Average [10, 20, 30, 40, 50, 60, 70, 80] 2 2
        [1, 2, 3, 4, 5, 6, 7, 8] 2 2 1).dst = [10, 20, 30, 40, 50, 60, 70, 80]) :=
  ⟨⟨by decide, by decide, by decide, by decide⟩,
    identity_scale_one [10, 20, 30, 40, 50, 60, 70, 80] [1, 2, 3, 4, 5, 6, 7, 8] 2 2
      (by decide) (by decide) (by decide) (by decide) (by decide)⟩

/-! ### Coverage of the destination -/

theorem count_intRange (a : Int) (n : Nat) (i : Int) :
    (intRange a n).count i = if a ≤ i ∧ i < a + n then 1 else 0 := by
  by_cases h : a ≤ i ∧ i < a + n
  · rw [if_pos h]
    exact List.count_eq_one_of_mem (intRange_nodup a n) (mem_intRange.mpr h)
  · rw [if_neg h]
    exact List.count_eq_zero_of_not_mem (fun hm => h (mem_intRange.mp hm))

/-- C4 (output full coverage).  For every even `dst_w ≥ 0` and every `dst_h ≥ 0`,
whatever the source and the scale, the run writes every byte index of
`[0, dst_w * dst_h * 2)` exactly once and no other index, so two runs that differ
only in the initial contents of the `dst_w * dst_h * 2` destination bytes end with
the same destination buffer. -/
theorem full_coverage (src dst dst' : List uint8_t) (src_w src_h dst_w dst_h scale : Int)
    (hw : Even dst_w) (hw0 : 0 ≤ dst_w) (hh0 : 0 ≤ dst_h)
    (hlen : (dst.length : Int) = dst_w * dst_h * 2)
    (hlen' : (dst'.length : Int) = dst_w * dst_h * 2) :
    (∀ i : Int,
      ((resizeYUV422Average src src_w src_h dst dst_w dst_h scale).stores.map Prod.fst).count i
        = if 0 ≤ i ∧ i < dst_w * dst_h * 2 then 1 else 0) ∧
    (resizeYUV422Average src src_w src_h dst dst_w dst_h scale).dst
      = (resizeYUV422Average src src_w src_h dst' dst_w dst_h scale).dst := by
  constructor
  · intro i
    rw [run_stores,
      (allStores_keys_perm src src_w src_h dst_w dst_h scale hw hw0 hh0).count_eq,
      count_intRange]
    have : (0 ≤ i ∧ i < 0 + (((dst_w * dst_h * 2).toNat : Nat) : Int))
        ↔ (0 ≤ i ∧ i < dst_w * dst_h * 2) := by omega
    simp only [this]
  · apply List.ext_getElem?
    intro n
    by_cases hn : n < dst.length
    · obtain ⟨v, hv⟩ := exists_store src src_w src_h scale hw hw0 hh0 (Int.ofNat_nonneg n)
        (show (n : Int) < dst_w * dst_h * 2 by omega)
      have h1 := byteAt_run dst hw hw0 hh0 (le_of_eq hlen.symm) hv
      have h2 := byteAt_run dst' hw hw0 hh0 (le_of_eq hlen'.symm) hv
      rw [byteAt_natCast] at h1 h2
      rw [h1, h2]
    · have h1 : (resizeYUV422Average src src_w src_h dst dst_w dst_h scale).dst.length ≤ n := by
        rw [run_dst_length]; omega
      have h2 : (resizeYUV422Average src src_w src_h dst' dst_w dst_h scale).dst.length ≤ n := by
        rw [run_dst_length]; omega
      rw [List.getElem?_eq_none h1, List.getElem?_eq_none h2]

/-- Witness of C4: a 2 x 1 destination filled from a 2 x 2 source at scale 2, from
two different initial contents. -/
theorem full_coverage_witness :
    (Even (2 : Int) ∧ (0 : Int) ≤ 2 ∧ (0 : Int) ≤ 1 ∧
      (([0, 0, 0, 0] : List uint8_t).length : Int) = 2 * 1 * 2 ∧
      (([9, 9, 9, 9] : List uint8_t).length : Int) = 2 * 1 * 2) ∧
    ((∀ i : Int,
      ((resizeYUV422Average [10, 20, 30, 40, 50, 60, 70, 80] 2 2 [0, 0, 0, 0] 2 1 2).stores.map
          Prod.fst).count i
        = if 0 ≤ i ∧ i < 2 * 1 * 2 then 1 else 0) ∧
    (resizeYUV422Average [10, 20, 30, 40, 50, 60, 70, 80] 2 2 [0, 0, 0, 0] 2 1 2).dst
      = (resizeYUV422Average [10, 20, 30, 40, 50, 60, 70, 80] 2 2 [9, 9, 9, 9] 2 1 2).dst) :=
  ⟨⟨by decide, by decide, by decide, by decide, by decide⟩,
    full_coverage [10, 20, 30, 40, 50, 60, 70, 80] [0, 0, 0, 0] [9, 9, 9, 9] 2 2 2 1 2
      (by decide) (by decide) (by decide) (by decide) (by decide)⟩

/-! ### Uniform blocks -/

theorem mem_window_self {lo scale hi : Int} (hs : 1 ≤ scale) (h : lo < hi) :
    lo ∈ window lo scale hi := by
  unfold window
  rw [Finset.mem_Ico]
  omega

/-! ### Scale 2 -/

theorem window_two {lo hi : Int} (h : lo + 2 ≤ hi) : window lo 2 hi = {lo, lo + 1} := by
  unfold window
  ext x
  simp only [Finset.mem_Ico, Finset.mem_insert, Finset.mem_singleton]
  omega

theorem pairColumns_two {lo hi : Int} (h : lo + 2 ≤ hi) : pairColumns lo 2 hi = {lo} := by
  unfold pairColumns
  rw [window_two h]
  ext x
  simp only [Finset.mem_filter, Finset.mem_insert, Finset.mem_singleton]
  omega

/-- C7 (scenario of the specification).  On the source of two rows of one pixel pair
`[10,20,30,40, 50,60,70,80]` (`src_w = 2`, `src_h = 2`) with `scale = 2`, the
iteration for destination pixel `(0, 0)` writes luma 40, chroma-blue 40 and chroma-red
60, and a run on a one-pair destination ends with `[40, 40, 0, 60]`.  In general, at
scale 2 the iteration for a destination pixel at even `dx` whose 2 x 2 block is in
bounds writes the truncated mean of its four lumas and, for each chroma channel, the
truncated mean of the chroma bytes of the block's pair in its two rows. -/
theorem scenario_scale_two :
    (pixelStores [10, 20, 30, 40, 50, 60, 70, 80] 2 2 2 2 0 0 = [(0, 40), (1, 40), (3, 60)] ∧
      (resizeYUV422Average [10, 20, 30, 40, 50, 60, 70, 80] 2 2 [0, 0, 0, 0] 2 1 2).dst
        = [40, 40, 0, 60] ∧
      (resizeYUV422Average [10, 20, 30, 40, 50, 60, 70, 80] 2 2 [0, 0, 0, 0] 2 1 2).faults
        = []) ∧
    (∀ (src : List uint8_t) (src_w src_h dst_w dx dy : Int) (m : Machine),
      Even dx → 0 ≤ dx → 0 ≤ dy → dx * 2 + 2 ≤ src_w → dy * 2 + 2 ≤ src_h →
      ∃ l u v : uint8_t,
        (pixelStep src src_w src_h dst_w 2 dy dx m).stores
          = m.stores ++ [(lumaOffset dst_w dx dy, l), (pairBase dst_w dx dy + 1, u),
              (pairBase dst_w dx dy + 3, v)] ∧
        ((l.val : Nat) : Int)
          = Int.tdiv (srcAt src (lumaOffset src_w (dx * 2) (dy * 2))
              + srcAt src (lumaOffset src_w (dx * 2 + 1) (dy * 2))
              + srcAt src (lumaOffset src_w (dx * 2) (dy * 2 + 1))
              + srcAt src (lumaOffset src_w (dx * 2 + 1) (dy * 2 + 1))) 4 ∧
        ((u.val : Nat) : Int)
          = Int.tdiv (srcAt src (pairBase src_w (dx * 2) (dy * 2) + 1)
              + srcAt src (pairBase src_w (dx * 2) (dy * 2 + 1) + 1)) 2 ∧
        ((v.val : Nat) : Int)
          = Int.tdiv (srcAt src (pairBase src_w (dx * 2) (dy * 2) + 3)
              + srcAt src (pairBase src_w (dx * 2) (dy * 2 + 1) + 3)) 2) := by
  refine ⟨⟨by decide, by decide, by decide⟩, ?_⟩
  intro src src_w src_h dst_w dx dy m hdx _ _ hx hy
  have hwx := window_two hx
  have hwy := window_two hy
  have hpx := pairColumns_two hx
  have hne : dx * 2 ≠ dx * 2 + 1 := by omega
  have hne' : dy * 2 ≠ dy * 2 + 1 := by omega
  have hb : bitAnd1 dx = 0 := Int.even_iff.mp hdx
  refine ⟨avgY (blockAcc src src_w src_h 2 (dx * 2) (dy * 2)),
    avgU (blockAcc src src_w src_h 2 (dx * 2) (dy * 2)),
    avgV (blockAcc src src_w src_h 2 (dx * 2) (dy * 2)), ?_, ?_, ?_, ?_⟩
  · rw [pixelStep_stores]
    unfold pixelStores
    simp only [hb, if_true]
  · rw [avgY_val, hwx, hwy]
    simp only [Finset.card_pair hne, Finset.card_pair hne', Finset.sum_pair hne,
      Finset.sum_pair hne']
    rw [if_neg (by decide)]
    congr 1
    ring
  · rw [avgU_val, hpx, hwy]
    simp only [Finset.card_pair hne', Finset.card_singleton, Finset.sum_pair hne',
      Finset.sum_singleton]
    rw [if_neg (by decide)]
    rfl
  · rw [avgV_val, hpx, hwy]
    simp only [Finset.card_pair hne', Finset.card_singleton, Finset.sum_pair hne',
      Finset.sum_singleton]
    rw [if_neg (by decide)]
    rfl

/-- Witness of C7: the general part of the scenario at the scenario's own source. -/
theorem scenario_scale_two_witness :
    (Even (0 : Int) ∧ (0 : Int) * 2 + 2 ≤ 2) ∧
    ∃ l u v : uint8_t,
      (pixelStep [10, 20, 30, 40, 50, 60, 70, 80] 2 2 2 2 0 0 (Machine.init [0, 0, 0, 0])).stores
        = (Machine.init [0, 0, 0, 0]).stores ++ [(lumaOffset 2 0 0, l), (pairBase 2 0 0 + 1, u),
            (pairBase 2 0 0 + 3, v)] ∧
      ((l.val : Nat) : Int)
        = Int.tdiv (srcAt [10, 20, 30, 40, 50, 60, 70, 80] (lumaOffset 2 (0 * 2) (0 * 2))
            + srcAt [10, 20, 30, 40, 50, 60, 70, 80] (lumaOffset 2 (0 * 2 + 1) (0 * 2))
            + srcAt [10, 20, 30, 40, 50, 60, 70, 80] (lumaOffset 2 (0 * 2) (0 * 2 + 1))
            + srcAt [10, 20, 30, 40, 50, 60, 70, 80] (lumaOffset 2 (0 * 2 + 1) (0 * 2 + 1))) 4 ∧
      ((u.val : Nat) : Int)
        = Int.tdiv (srcAt [10, 20, 30, 40, 50, 60, 70, 80] (pairBase 2 (0 * 2) (0 * 2) + 1)
            + srcAt [10, 20, 30, 40, 50, 60, 70, 80] (pairBase 2 (0 * 2) (0 * 2 + 1) + 1)) 2 ∧
      ((v.val : Nat) : Int)
        = Int.tdiv (srcAt [10, 20, 30, 40, 50, 60, 70, 80] (pairBase 2 (0 * 2) (0 * 2) + 3)
            + srcAt [10, 20, 30, 40, 50, 60, 70, 80] (pairBase 2 (0 * 2) (0 * 2 + 1) + 3)) 2 :=
  ⟨⟨by decide, by decide⟩,
    scenario_scale_two.2 [10, 20, 30, 40, 50, 60, 70, 80] 2 2 2 0 0 (Machine.init [0, 0, 0, 0])
      (by decide) (by decide) (by decide) (by decide) (by decide)⟩

/-! ### Chroma of a destination pair -/

/-- C10 (chroma averaged over the paired block) fails on the code.  On a 4 x 1 source
whose two pixel pairs have chroma `(0, 0)` and `(200, 100)`, at scale 2 the block
covering the destination pair `(0, 1)` is the whole row, whose chroma means are 100
and 50; the run writes the chroma `(0, 0)` of the first source pair alone. -/
theorem paired_block_not_averaged :
    (resizeYUV422Average [7, 0, 7, 0, 7, 200, 7, 100] 4 1 [0, 0, 0, 0] 2 1 2).dst
      = [7, 0, 7, 0] ∧
    (resizeYUV422Average [7, 0, 7, 0, 7, 200, 7, 100] 4 1 [0, 0, 0, 0] 2 1 2).faults = [] ∧
    pairedBlockMean [7, 0, 7, 0, 7, 200, 7, 100] 4 1 2 0 0 1 = 100 ∧
    pairedBlockMean [7, 0, 7, 0, 7, 200, 7, 100] 4 1 2 0 0 3 = 50 := by
  decide

/-! ### Chroma samples and source pixel pairs -/

theorem pairColumns_injOn {lo scale hi : Int} :
    ∀ x ∈ pairColumns lo scale hi, ∀ x' ∈ pairColumns lo scale hi, x / 2 = x' / 2 → x = x' := by
  intro x hx x' hx' h
  unfold pairColumns at hx hx'
  rw [Finset.mem_filter] at hx hx'
  omega

/-- With an even source width, every pair touched by the clipped block of a
destination pixel holds a column of the block at an even offset from its anchor. -/
theorem pairColumns_cover {src_w scale dx : Int} (hsw : Even src_w) :
    ∀ x ∈ window (dx * scale) scale src_w,
      ∃ x' ∈ pairColumns (dx * scale) scale src_w, x' / 2 = x / 2 := by
  intro x hx
  obtain ⟨c, hc⟩ := hsw
  have hpar : (dx * scale) % 2 = 1 → scale % 2 = 1 := by
    intro h
    exact Int.odd_iff.mp (Int.odd_mul.mp (Int.odd_iff.mpr h)).2
  unfold window at hx
  rw [Finset.mem_Ico] at hx
  generalize dx * scale = lo at hx hpar ⊢
  by_cases h0 : (x - lo) % 2 = 0
  · exact ⟨x, by unfold pairColumns window; rw [Finset.mem_filter, Finset.mem_Ico]; omega, rfl⟩
  · by_cases hxo : x % 2 = 1
    · refine ⟨x - 1, ?_, by omega⟩
      unfold pairColumns window
      rw [Finset.mem_filter, Finset.mem_Ico]
      omega
    · have hs := hpar (by omega)
      refine ⟨x + 1, ?_, by omega⟩
      unfold pairColumns window
      rw [Finset.mem_filter, Finset.mem_Ico]
      omega

theorem touchedPairs_eq {src_w scale dx : Int} (hsw : Even src_w) :
    touchedPairs (dx * scale) scale src_w
      = (pairColumns (dx * scale) scale src_w).image (fun x => x / 2) := by
  unfold touchedPairs
  ext k
  simp only [Finset.mem_image]
  constructor
  · rintro ⟨x, hx, rfl⟩
    exact pairColumns_cover hsw x hx
  · rintro ⟨x, hx, rfl⟩
    exact ⟨x, (Finset.mem_filter.mp hx).1, rfl⟩

theorem pairBase_eq_pair (w x y : Int) : pairBase w x y = (y * w + 2 * (x / 2)) * 2 := by
  unfold pairBase clearBit0
  have : x - x % 2 = 2 * (x / 2) := by omega
  rw [this]

theorem sum_pairColumns_eq {src_w scale dx : Int} (hsw : Even src_w) (g : Int → Int) :
    ∑ x ∈ pairColumns (dx * scale) scale src_w, g (x / 2)
      = ∑ k ∈ touchedPairs (dx * scale) scale src_w, g k := by
  rw [touchedPairs_eq hsw, Finset.sum_image pairColumns_injOn]

/-- The unbounded accumulators of the block at `(dx * scale, dy * scale)`, for an even
source width: no two sampled columns of the block lie in the same source pixel pair,
every pair `(2k, 2k + 1)` holding a column of the clipped block holds a sampled one,
`sum_u` and `sum_v` are the sums, over the rows of the block and the pairs it touches,
of the pair's U and V byte taken once, and `count_uv` is the number of such
(row, pair) combinations. -/
theorem blockAcc_once_per_pair (src : List uint8_t) (src_w src_h scale dx dy : Int)
    (hsw : Even src_w) (_hscale : 1 ≤ scale) :
    (∀ x ∈ pairColumns (dx * scale) scale src_w, ∀ x' ∈ pairColumns (dx * scale) scale src_w,
      x / 2 = x' / 2 → x = x') ∧
    (∀ x ∈ window (dx * scale) scale src_w,
      ∃ x' ∈ pairColumns (dx * scale) scale src_w, x' / 2 = x / 2) ∧
    (blockAcc src src_w src_h scale (dx * scale) (dy * scale)).sum_u
      = ∑ y ∈ window (dy * scale) scale src_h, ∑ k ∈ touchedPairs (dx * scale) scale src_w,
          srcAt src ((y * src_w + 2 * k) * 2 + 1) ∧
    (blockAcc src src_w src_h scale (dx * scale) (dy * scale)).sum_v
      = ∑ y ∈ window (dy * scale) scale src_h, ∑ k ∈ touchedPairs (dx * scale) scale src_w,
          srcAt src ((y * src_w + 2 * k) * 2 + 3) ∧
    (blockAcc src src_w src_h scale (dx * scale) (dy * scale)).count_uv
      = (((window (dy * scale) scale src_h).card
          * (touchedPairs (dx * scale) scale src_w).card : Nat) : Int) := by
  refine ⟨pairColumns_injOn, pairColumns_cover hsw, ?_, ?_, ?_⟩
  · rw [blockAcc_sum_u]
    apply Finset.sum_congr rfl
    intro y _
    rw [← sum_pairColumns_eq hsw]
    apply Finset.sum_congr rfl
    intro x _
    rw [pairBase_eq_pair]
  · rw [blockAcc_sum_v]
    apply Finset.sum_congr rfl
    intro y _
    rw [← sum_pairColumns_eq hsw]
    apply Finset.sum_congr rfl
    intro x _
    rw [pairBase_eq_pair]
  · rw [blockAcc_count_uv, touchedPairs_eq hsw, Finset.card_image_of_injOn]
    intro x hx x' hx' h
    exact pairColumns_injOn x hx x' hx' h

/-! ### Blocks outside the source -/

theorem foldl_id {σ ι : Type} (l : List ι) (s : σ) : l.foldl (fun s _ => s) s = s := by
  induction l with
  | nil => rfl
  | cons i l ih => exact ih

/-- The scan of a block reads nothing and leaves the accumulators at zero when the
scale is not positive or the block's origin lies right of or below the source. -/
theorem scanBlock_outside (src : List uint8_t) {src_w src_h scale src_x src_y : Int}
    (h : scale ≤ 0 ∨ src_w ≤ src_x ∨ src_h ≤ src_y) (m : Machine) :
    scanBlock src src_w src_h scale src_x src_y m = (⟨0, 0, 0, 0, 0⟩, m) := by
  unfold scanBlock
  rw [forIndices_lt, forIndices_lt]
  rcases h with h | h | h
  · have : min scale.toNat (src_h - src_y).toNat = 0 := by omega
    rw [this]; rfl
  · have : min scale.toNat (src_w - src_x).toNat = 0 := by omega
    rw [this]
    exact foldl_id _ _
  · have : min scale.toNat (src_h - src_y).toNat = 0 := by omega
    rw [this]; rfl

theorem blockAcc_outside (src : List uint8_t) {src_w src_h scale src_x src_y : Int}
    (h : scale ≤ 0 ∨ src_w ≤ src_x ∨ src_h ≤ src_y) :
    blockAcc src src_w src_h scale src_x src_y = ⟨0, 0, 0, 0, 0⟩ := by
  unfold blockAcc
  rw [scanBlock_outside src h]

theorem pixelStores_outside (src : List uint8_t) {src_w src_h scale dx dy : Int} (dst_w : Int)
    (h : scale ≤ 0 ∨ src_w ≤ dx * scale ∨ src_h ≤ dy * scale) :
    pixelStores src src_w src_h dst_w scale dy dx
      = (lumaOffset dst_w dx dy, 0) ::
          (if bitAnd1 dx = 0 then
            [(pairBase dst_w dx dy + 1, 128), (pairBase dst_w dx dy + 3, 128)] else []) := by
  unfold pixelStores
  rw [blockAcc_outside src h]
  rfl

theorem pixelStep_loads_outside (src : List uint8_t) {src_w src_h scale dx dy : Int}
    (dst_w : Int) (h : scale ≤ 0 ∨ src_w ≤ dx * scale ∨ src_h ≤ dy * scale) (m : Machine) :
    (pixelStep src src_w src_h dst_w scale dy dx m).loads = m.loads := by
  unfold pixelStep
  simp only [scanBlock_outside src h]
  split <;> simp

/-! ### Pairing by absolute column parity -/

theorem foldl_rel {σ τ ι : Type} (R : σ → τ → Prop) (f : σ → ι → σ) (g : τ → ι → τ)
    (l : List ι) (h : ∀ s t, ∀ i ∈ l, R s t → R (f s i) (g t i)) (s : σ) (t : τ)
    (hst : R s t) : R (l.foldl f s) (l.foldl g t) := by
  induction l generalizing s t with
  | nil => exact hst
  | cons i l ih =>
    exact ih (fun s t j hj => h s t j (List.mem_cons_of_mem _ hj)) _ _
      (h s t i (List.mem_cons_self _ _) hst)

section variant
variable (src : List uint8_t) (src_w src_h scale src_x src_y : Int)

theorem sampleAbs_sum_y (b_y bx : Int) (s : Acc × Machine) :
    (sampleAbs src src_w src_x src_y b_y bx s).1.sum_y
      = s.1.sum_y + srcAt src (lumaOffset src_w (src_x + bx) (src_y + b_y)) := by
  unfold sampleAbs lumaOffset pairBase
  simp only [load_fst]
  split <;> rfl

theorem sampleAbs_count_y (b_y bx : Int) (s : Acc × Machine) :
    (sampleAbs src src_w src_x src_y b_y bx s).1.count_y = s.1.count_y + 1 := by
  unfold sampleAbs
  simp only []
  split <;> rfl

theorem sampleAbs_dst (b_y bx : Int) (s : Acc × Machine) :
    (sampleAbs src src_w src_x src_y b_y bx s).2.dst = s.2.dst := by
  unfold sampleAbs
  simp only []
  split <;> simp

theorem sampleAbs_stores (b_y bx : Int) (s : Acc × Machine) :
    (sampleAbs src src_w src_x src_y b_y bx s).2.stores = s.2.stores := by
  unfold sampleAbs
  simp only []
  split <;> simp

/-- Where the two pairing conditions agree, the two loop bodies compute the same
accumulators from the same accumulators. -/
theorem sampleAbs_acc_eq (b_y bx : Int) (s t : Acc × Machine) (hacc : s.1 = t.1)
    (hc : Int.tmod bx 2 = 0 ↔ Int.tmod (src_x + bx) 2 = 0) :
    (sample src src_w src_x src_y b_y bx s).1 = (sampleAbs src src_w src_x src_y b_y bx t).1 := by
  unfold sample sampleAbs
  simp only [load_fst, hacc]
  by_cases h : Int.tmod bx 2 = 0
  · rw [if_pos h, if_pos (hc.mp h)]
  · rw [if_neg h, if_neg (fun h' => h (hc.mpr h'))]

/-- The two scans agree on the luma accumulators and leave the destination and the
write log as they found them. -/
theorem scanBlockAbs_luma (m t : Machine) (hd : m.dst = t.dst) (hs : m.stores = t.stores) :
    (scanBlock src src_w src_h scale src_x src_y m).1.sum_y
        = (scanBlockAbs src src_w src_h scale src_x src_y t).1.sum_y ∧
    (scanBlock src src_w src_h scale src_x src_y m).1.count_y
        = (scanBlockAbs src src_w src_h scale src_x src_y t).1.count_y ∧
    (scanBlock src src_w src_h scale src_x src_y m).2.dst
        = (scanBlockAbs src src_w src_h scale src_x src_y t).2.dst ∧
    (scanBlock src src_w src_h scale src_x src_y m).2.stores
        = (scanBlockAbs src src_w src_h scale src_x src_y t).2.stores := by
  unfold scanBlock scanBlockAbs
  apply foldl_rel (fun s t : Acc × Machine => s.1.sum_y = t.1.sum_y ∧
    s.1.count_y = t.1.count_y ∧ s.2.dst = t.2.dst ∧ s.2.stores = t.2.stores)
  · intro s t b_y _ hst
    apply foldl_rel (fun s t : Acc × Machine => s.1.sum_y = t.1.sum_y ∧
      s.1.count_y = t.1.count_y ∧ s.2.dst = t.2.dst ∧ s.2.stores = t.2.stores) _ _ _ _ _ _ hst
    intro s t bx _ hst
    rw [sample_sum_y, sampleAbs_sum_y, sample_count_y, sampleAbs_count_y, sample_dst,
      sampleAbs_dst, sample_stores, sampleAbs_stores, hst.1, hst.2.1]
    exact ⟨rfl, rfl, hst.2.2.1, hst.2.2.2⟩
  · exact ⟨rfl, rfl, hd, hs⟩

/-- From an even block origin the two scans compute the same accumulators. -/
theorem scanBlockAbs_acc (m t : Machine) (hx : src_x % 2 = 0) (hx0 : 0 < scale → 0 ≤ src_x) :
    (scanBlock src src_w src_h scale src_x src_y m).1
      = (scanBlockAbs src src_w src_h scale src_x src_y t).1 := by
  unfold scanBlock scanBlockAbs
  apply foldl_rel (fun s t : Acc × Machine => s.1 = t.1)
  · intro s t b_y _ hst
    apply foldl_rel (fun s t : Acc × Machine => s.1 = t.1) _ _ _ _ _ _ hst
    intro s t bx hbx hst
    rw [mem_forIndices_lt] at hbx
    have h0 := hx0 (by omega)
    apply sampleAbs_acc_eq _ _ _ _ _ _ _ _ hst
    rw [Int.tmod_eq_emod hbx.1 (by decide), Int.tmod_eq_emod (by omega) (by decide)]
    omega
  · rfl

end variant

theorem avgY_congr {a b : Acc} (h1 : a.sum_y = b.sum_y) (h2 : a.count_y = b.count_y) :
    avgY a = avgY b := by
  unfold avgY; rw [h1, h2]

theorem store_congr {m t : Machine} (hd : m.dst = t.dst) (hs : m.stores = t.stores) (i : Int)
    (v : uint8_t) :
    (m.store i v).dst = (t.store i v).dst ∧ (m.store i v).stores = (t.store i v).stores := by
  rw [store_dst, store_dst, store_stores, store_stores, hd, hs]
  exact ⟨rfl, rfl⟩

/-- One iteration of the routine and of the variant, from machines with the same
destination and write log, end with the same destination and write log. -/
theorem pixelStepAbs_rel (src : List uint8_t) (src_w src_h dst_w scale dst_y dst_x : Int)
    (hx0 : 0 ≤ dst_x) {m t : Machine} (hd : m.dst = t.dst) (hs : m.stores = t.stores) :
    (pixelStep src src_w src_h dst_w scale dst_y dst_x m).dst
        = (pixelStepAbs src src_w src_h dst_w scale dst_y dst_x t).dst ∧
    (pixelStep src src_w src_h dst_w scale dst_y dst_x m).stores
        = (pixelStepAbs src src_w src_h dst_w scale dst_y dst_x t).stores := by
  have hl := scanBlockAbs_luma src src_w src_h scale (dst_x * scale) (dst_y * scale) m t hd hs
  have hy := avgY_congr hl.1 hl.2.1
  unfold pixelStep pixelStepAbs
  simp only []
  rw [hy]
  by_cases hb : bitAnd1 dst_x = 0
  · have hev : dst_x * scale % 2 = 0 :=
      Int.even_iff.mp (Even.mul_right (Int.even_iff.mpr hb) scale)
    have hacc := scanBlockAbs_acc src src_w src_h scale (dst_x * scale) (dst_y * scale) m t
      hev (fun h => mul_nonneg hx0 (le_of_lt h))
    rw [if_pos hb, if_pos hb, hacc]
    have h1 := store_congr hl.2.2.1 hl.2.2.2 ((dst_y * dst_w + clearBit0 dst_x) * 2
      + if bitAnd1 dst_x ≠ 0 then 2 else 0)
      (avgY (scanBlockAbs src src_w src_h scale (dst_x * scale) (dst_y * scale) t).1)
    have h2 := store_congr h1.1 h1.2 ((dst_y * dst_w + clearBit0 dst_x) * 2 + 1)
      (avgU (scanBlockAbs src src_w src_h scale (dst_x * scale) (dst_y * scale) t).1)
    exact store_congr h2.1 h2.2 _ _
  · rw [if_neg hb, if_neg hb]
    exact store_congr hl.2.2.1 hl.2.2.2 _ _

/-- C13 (pairing by in-block offset equals pairing by absolute column parity on the
output).  For all inputs with buffers of adequate size, the variant that accumulates
chroma when `(src_x + bx) % 2 == 0` instead of when `bx % 2 == 0` ends with the same
destination buffer, byte for byte, and with the same write log as the routine; the
origin `dx * scale` of the block of an even `dx`, the only ones whose chroma is written,
is an even column. -/
theorem abs_parity_variant_same_dst (src dst : List uint8_t)
    (src_w src_h dst_w dst_h scale : Int) (_hsrc : src_w * src_h * 2 ≤ src.length)
    (_hdst : dst_w * dst_h * 2 ≤ dst.length) :
    (resizeYUV422AverageAbs src src_w src_h dst dst_w dst_h scale).dst
      = (resizeYUV422Average src src_w src_h dst dst_w dst_h scale).dst ∧
    (resizeYUV422AverageAbs src src_w src_h dst dst_w dst_h scale).stores
      = (resizeYUV422Average src src_w src_h dst dst_w dst_h scale).stores ∧
    (∀ dx : Int, Even dx → Even (dx * scale)) := by
  have key : (resizeYUV422Average src src_w src_h dst dst_w dst_h scale).dst
        = (resizeYUV422AverageAbs src src_w src_h dst dst_w dst_h scale).dst ∧
      (resizeYUV422Average src src_w src_h dst dst_w dst_h scale).stores
        = (resizeYUV422AverageAbs src src_w src_h dst dst_w dst_h scale).stores := by
    unfold resizeYUV422Average resizeYUV422AverageAbs
    apply foldl_rel (fun m t : Machine => m.dst = t.dst ∧ m.stores = t.stores)
    · intro m t dst_y _ hmt
      apply foldl_rel (fun m t : Machine => m.dst = t.dst ∧ m.stores = t.stores) _ _ _ _ _ _ hmt
      intro m t dst_x hx hmt
      rw [mem_forIndices_true] at hx
      exact pixelStepAbs_rel src src_w src_h dst_w scale dst_y dst_x hx.1 hmt.1 hmt.2
    · exact ⟨rfl, rfl⟩
  exact ⟨key.1.symm, key.2.symm, fun dx hdx => Even.mul_right hdx scale⟩

/-- Witness of C13: odd scale 3 over a 6 x 1 source, where the odd destination pixel
`(1, 0)` has an odd block origin and the two variants read different chroma bytes. -/
theorem abs_parity_variant_same_dst_witness :
    ((6 : Int) * 1 * 2 ≤ ([1, 2, 3, 4, 5, 6, 7, 8, 9, 10, 11, 12] : List uint8_t).length ∧
      (2 : Int) * 1 * 2 ≤ ([0, 0, 0, 0] : List uint8_t).length ∧
      (resizeYUV422AverageAbs [1, 2, 3, 4, 5, 6, 7, 8, 9, 10, 11, 12] 6 1 [0, 0, 0, 0] 2 1 3).loads
        ≠ (resizeYUV422Average [1, 2, 3, 4, 5, 6, 7, 8, 9, 10, 11, 12] 6 1 [0, 0, 0, 0] 2 1 3).loads)
    ∧
    ((resizeYUV422AverageAbs [1, 2, 3, 4, 5, 6, 7, 8, 9, 10, 11, 12] 6 1 [0, 0, 0, 0] 2 1 3).dst
      = (resizeYUV422Average [1, 2, 3, 4, 5, 6, 7, 8, 9, 10, 11, 12] 6 1 [0, 0, 0, 0] 2 1 3).dst ∧
    (resizeYUV422AverageAbs [1, 2, 3, 4, 5, 6, 7, 8, 9, 10, 11, 12] 6 1 [0, 0, 0, 0] 2 1 3).stores
      = (resizeYUV422Average [1, 2, 3, 4, 5, 6, 7, 8, 9, 10, 11, 12] 6 1 [0, 0, 0, 0] 2 1 3).stores ∧
    (∀ dx : Int, Even dx → Even (dx * 3))) :=
  ⟨⟨by decide, by decide, by decide⟩,
    abs_parity_variant_same_dst [1, 2, 3, 4, 5, 6, 7, 8, 9, 10, 11, 12] [0, 0, 0, 0] 6 1 2 1 3
      (by decide) (by decide)⟩

/-! ### Empty windows -/

theorem window_card_eq_zero {lo scale hi : Int} :
    (window lo scale hi).card = 0 ↔ scale ≤ 0 ∨ hi ≤ lo := by
  unfold window
  rw [Int.card_Ico]
  omega

theorem pairColumns_card_eq_zero {lo scale hi : Int} :
    (pairColumns lo scale hi).card = 0 ↔ scale ≤ 0 ∨ hi ≤ lo := by
  rw [Finset.card_eq_zero]
  constructor
  · intro h
    by_contra hne
    have hmem : lo ∈ pairColumns lo scale hi := by
      unfold pairColumns window
      rw [Finset.mem_filter, Finset.mem_Ico]
      omega
    rw [h] at hmem
    exact Finset.not_mem_empty _ hmem
  · intro h
    unfold pairColumns
    rw [Finset.card_eq_zero.mp (window_card_eq_zero.mpr h)]
    rfl

theorem pairColumns_of_window_singleton {lo scale hi c : Int}
    (h : window lo scale hi = {c}) : pairColumns lo scale hi = {c} := by
  have hc : c ∈ window lo scale hi := by rw [h]; exact Finset.mem_singleton_self c
  have hlo : lo ∈ window lo scale hi := by
    unfold window at hc ⊢
    rw [Finset.mem_Ico] at hc ⊢
    omega
  rw [h, Finset.mem_singleton] at hlo
  unfold pairColumns
  rw [h]
  ext x
  simp only [Finset.mem_filter, Finset.mem_singleton]
  constructor
  · exact fun hx => hx.1
  · rintro rfl
    exact ⟨rfl, by omega⟩

/-- The unbounded accumulators of the block at `(dx * scale, dy * scale)`:
`count_uv = 0` if and only if `count_y = 0`, which holds if and only if `scale ≤ 0` or
`dx * scale ≥ src_w` or `dy * scale ≥ src_h`; a window clipped to a single source
column `c` has `count_uv` equal to its number of rows, and when it has a row its chroma
averages are the truncated means of the chroma bytes of the pair of column `c` over
its rows. -/
theorem blockAcc_empty_iff (src : List uint8_t) (src_w src_h scale dx dy : Int) :
    ((blockAcc src src_w src_h scale (dx * scale) (dy * scale)).count_uv = 0
      ↔ (blockAcc src src_w src_h scale (dx * scale) (dy * scale)).count_y = 0) ∧
    ((blockAcc src src_w src_h scale (dx * scale) (dy * scale)).count_y = 0
      ↔ scale ≤ 0 ∨ dx * scale ≥ src_w ∨ dy * scale ≥ src_h) ∧
    (∀ c : Int, window (dx * scale) scale src_w = {c} →
      (blockAcc src src_w src_h scale (dx * scale) (dy * scale)).count_uv
        = (((window (dy * scale) scale src_h).card : Nat) : Int) ∧
      ((window (dy * scale) scale src_h).card ≠ 0 →
        (((avgU (blockAcc src src_w src_h scale (dx * scale) (dy * scale))).val : Nat) : Int)
          = Int.tdiv (∑ y ∈ window (dy * scale) scale src_h, srcAt src (pairBase src_w c y + 1))
              (((window (dy * scale) scale src_h).card : Nat) : Int) ∧
        (((avgV (blockAcc src src_w src_h scale (dx * scale) (dy * scale))).val : Nat) : Int)
          = Int.tdiv (∑ y ∈ window (dy * scale) scale src_h, srcAt src (pairBase src_w c y + 3))
              (((window (dy * scale) scale src_h).card : Nat) : Int))) := by
  have hy : (blockAcc src src_w src_h scale (dx * scale) (dy * scale)).count_y = 0
      ↔ scale ≤ 0 ∨ dx * scale ≥ src_w ∨ dy * scale ≥ src_h := by
    rw [blockAcc_count_y]
    have := @window_card_eq_zero (dy * scale) scale src_h
    have := @window_card_eq_zero (dx * scale) scale src_w
    rw [Int.natCast_eq_zero, Nat.mul_eq_zero]
    omega
  have huv : (blockAcc src src_w src_h scale (dx * scale) (dy * scale)).count_uv = 0
      ↔ scale ≤ 0 ∨ dx * scale ≥ src_w ∨ dy * scale ≥ src_h := by
    rw [blockAcc_count_uv]
    have := @window_card_eq_zero (dy * scale) scale src_h
    have := @pairColumns_card_eq_zero (dx * scale) scale src_w
    rw [Int.natCast_eq_zero, Nat.mul_eq_zero]
    omega
  refine ⟨huv.trans hy.symm, hy, ?_⟩
  intro c hc
  have hp := pairColumns_of_window_singleton hc
  refine ⟨?_, ?_⟩
  · rw [blockAcc_count_uv, hp, Finset.card_singleton, Nat.mul_one]
  · intro hne
    constructor
    · rw [avgU_val, hp, Finset.card_singleton, Nat.mul_one, if_neg hne]
      simp only [Finset.sum_singleton]
    · rw [avgV_val, hp, Finset.card_singleton, Nat.mul_one, if_neg hne]
      simp only [Finset.sum_singleton]

/-! ### Averages lie within the sampled range -/

theorem sum2_between (s t : Finset Int) (f : Int → Int → Int) (lo hi : Int)
    (h : ∀ y ∈ s, ∀ x ∈ t, lo ≤ f x y ∧ f x y ≤ hi) :
    lo * ((s.card * t.card : Nat) : Int) ≤ ∑ y ∈ s, ∑ x ∈ t, f x y ∧
    ∑ y ∈ s, ∑ x ∈ t, f x y ≤ hi * ((s.card * t.card : Nat) : Int) := by
  constructor
  · have h1 : ∀ y ∈ s, t.card • lo ≤ ∑ x ∈ t, f x y :=
      fun y hy => Finset.card_nsmul_le_sum t _ lo (fun x hx => (h y hy x hx).1)
    have h2 := Finset.card_nsmul_le_sum s _ _ h1
    refine le_trans (le_of_eq ?_) h2
    simp only [nsmul_eq_mul]
    push_cast
    ring
  · have h1 : ∀ y ∈ s, ∑ x ∈ t, f x y ≤ t.card • hi :=
      fun y hy => Finset.sum_le_card_nsmul t _ hi (fun x hx => (h y hy x hx).2)
    have h2 := Finset.sum_le_card_nsmul s _ _ h1
    refine le_trans h2 (le_of_eq ?_)
    simp only [nsmul_eq_mul]
    push_cast
    ring

theorem tdiv_between {S n lo hi : Int} (hS : 0 ≤ S) (hn : 0 < n) (h1 : lo * n ≤ S)
    (h2 : S ≤ hi * n) : lo ≤ Int.tdiv S n ∧ Int.tdiv S n ≤ hi := by
  rw [Int.tdiv_eq_ediv hS (le_of_lt hn)]
  exact ⟨Int.le_ediv_of_mul_le hn h1, Int.ediv_le_of_le_mul hn h2⟩

/-- The iteration with unbounded integers, for a destination pixel with a non-empty
window: it writes a luma byte `l` and, when `dx` is even, chroma bytes `u` and `v`
whose values are the quotients `sum_y / count_y`, `sum_u / count_uv` and
`sum_v / count_uv` themselves; each lies in `0..255` and between any lower and any
upper bound of the source bytes sampled for it in the window. -/
theorem pixelStep_within_range (src : List uint8_t) (src_w src_h dst_w scale dx dy : Int)
    (m : Machine) (hscale : 1 ≤ scale) (hx : dx * scale < src_w) (hy : dy * scale < src_h) :
    ∃ l u v : uint8_t,
      (pixelStep src src_w src_h dst_w scale dy dx m).stores
        = m.stores ++ (lumaOffset dst_w dx dy, l) ::
            (if bitAnd1 dx = 0 then
              [(pairBase dst_w dx dy + 1, u), (pairBase dst_w dx dy + 3, v)] else []) ∧
      (((l.val : Nat) : Int)
          = Int.tdiv (scanBlock src src_w src_h scale (dx * scale) (dy * scale) m).1.sum_y
              (scanBlock src src_w src_h scale (dx * scale) (dy * scale) m).1.count_y ∧
        ((u.val : Nat) : Int)
          = Int.tdiv (scanBlock src src_w src_h scale (dx * scale) (dy * scale) m).1.sum_u
              (scanBlock src src_w src_h scale (dx * scale) (dy * scale) m).1.count_uv ∧
        ((v.val : Nat) : Int)
          = Int.tdiv (scanBlock src src_w src_h scale (dx * scale) (dy * scale) m).1.sum_v
              (scanBlock src src_w src_h scale (dx * scale) (dy * scale) m).1.count_uv) ∧
      (0 ≤ ((l.val : Nat) : Int) ∧ ((l.val : Nat) : Int) ≤ 255 ∧
        0 ≤ ((u.val : Nat) : Int) ∧ ((u.val : Nat) : Int) ≤ 255 ∧
        0 ≤ ((v.val : Nat) : Int) ∧ ((v.val : Nat) : Int) ≤ 255) ∧
      (∀ lo hi : Int,
        (∀ y ∈ window (dy * scale) scale src_h, ∀ x ∈ window (dx * scale) scale src_w,
          lo ≤ srcAt src (lumaOffset src_w x y) ∧ srcAt src (lumaOffset src_w x y) ≤ hi) →
        lo ≤ ((l.val : Nat) : Int) ∧ ((l.val : Nat) : Int) ≤ hi) ∧
      (∀ lo hi : Int,
        (∀ y ∈ window (dy * scale) scale src_h, ∀ x ∈ pairColumns (dx * scale) scale src_w,
          lo ≤ srcAt src (pairBase src_w x y + 1) ∧ srcAt src (pairBase src_w x y + 1) ≤ hi) →
        lo ≤ ((u.val : Nat) : Int) ∧ ((u.val : Nat) : Int) ≤ hi) ∧
      (∀ lo hi : Int,
        (∀ y ∈ window (dy * scale) scale src_h, ∀ x ∈ pairColumns (dx * scale) scale src_w,
          lo ≤ srcAt src (pairBase src_w x y + 3) ∧ srcAt src (pairBase src_w x y + 3) ≤ hi) →
        lo ≤ ((v.val : Nat) : Int) ∧ ((v.val : Nat) : Int) ≤ hi) := by
  have hr : (window (dy * scale) scale src_h).card ≠ 0 :=
    Finset.card_ne_zero_of_mem (mem_window_self hscale hy)
  have hc : (window (dx * scale) scale src_w).card ≠ 0 :=
    Finset.card_ne_zero_of_mem (mem_window_self hscale hx)
  have hp : (pairColumns (dx * scale) scale src_w).card ≠ 0 := by
    intro h
    have := pairColumns_card_eq_zero.mp h
    omega
  have hny : (window (dy * scale) scale src_h).card
      * (window (dx * scale) scale src_w).card ≠ 0 := Nat.mul_ne_zero hr hc
  have hnu : (window (dy * scale) scale src_h).card
      * (pairColumns (dx * scale) scale src_w).card ≠ 0 := Nat.mul_ne_zero hr hp
  have hny' : (0 : Int) < (((window (dy * scale) scale src_h).card
      * (window (dx * scale) scale src_w).card : Nat) : Int) := by
    exact_mod_cast Nat.pos_of_ne_zero hny
  have hnu' : (0 : Int) < (((window (dy * scale) scale src_h).card
      * (pairColumns (dx * scale) scale src_w).card : Nat) : Int) := by
    exact_mod_cast Nat.pos_of_ne_zero hnu
  have vy := avgY_val src src_w src_h scale (dx * scale) (dy * scale)
  have vu := avgU_val src src_w src_h scale (dx * scale) (dy * scale)
  have vv := avgV_val src src_w src_h scale (dx * scale) (dy * scale)
  rw [if_neg hny] at vy
  rw [if_neg hnu] at vu vv
  refine ⟨avgY (blockAcc src src_w src_h scale (dx * scale) (dy * scale)),
    avgU (blockAcc src src_w src_h scale (dx * scale) (dy * scale)),
    avgV (blockAcc src src_w src_h scale (dx * scale) (dy * scale)), ?_, ?_, ?_, ?_, ?_, ?_⟩
  · rw [pixelStep_stores]
    rfl
  · rw [scan_acc, blockAcc_sum_y, blockAcc_count_y, blockAcc_sum_u, blockAcc_sum_v,
      blockAcc_count_uv]
    exact ⟨vy, vu, vv⟩
  · have h1 := (avgY (blockAcc src src_w src_h scale (dx * scale) (dy * scale))).isLt
    have h2 := (avgU (blockAcc src src_w src_h scale (dx * scale) (dy * scale))).isLt
    have h3 := (avgV (blockAcc src src_w src_h scale (dx * scale) (dy * scale))).isLt
    omega
  · intro lo hi h
    rw [vy]
    have hb := sum2_between _ _ (fun x y => srcAt src (lumaOffset src_w x y)) lo hi h
    exact tdiv_between
      (sum2_nonneg _ _ _ (fun x y => srcAt_nonneg src (lumaOffset src_w x y))) hny' hb.1 hb.2
  · intro lo hi h
    rw [vu]
    have hb := sum2_between _ _ (fun x y => srcAt src (pairBase src_w x y + 1)) lo hi h
    exact tdiv_between
      (sum2_nonneg _ _ _ (fun x y => srcAt_nonneg src (pairBase src_w x y + 1))) hnu' hb.1 hb.2
  · intro lo hi h
    rw [vv]
    have hb := sum2_between _ _ (fun x y => srcAt src (pairBase src_w x y + 3)) lo hi h
    exact tdiv_between
      (sum2_nonneg _ _ _ (fun x y => srcAt_nonneg src (pairBase src_w x y + 3))) hnu' hb.1 hb.2

/-! ### Odd destination widths -/

section inv
variable (src : List uint8_t) (P : Machine → Prop)

/-- A property of machine states kept by every read is kept by the loop body of the
scan. -/
theorem sample_inv (hload : ∀ m i, P m → P (m.load src i).2)
    (src_w src_x src_y b_y bx : Int) (s : Acc × Machine) (hs : P s.2) :
    P (sample src src_w src_x src_y b_y bx s).2 := by
  unfold sample
  simp only []
  split
  · exact hload _ _ (hload _ _ (hload _ _ hs))
  · exact hload _ _ hs

theorem scanBlock_inv (hload : ∀ m i, P m → P (m.load src i).2)
    (src_w src_h scale src_x src_y : Int) (m : Machine) (hm : P m) :
    P (scanBlock src src_w src_h scale src_x src_y m).2 := by
  unfold scanBlock
  apply foldl_inv (fun s : Acc × Machine => P s.2) _ _ _ _ hm
  intro s b_y _ hs
  apply foldl_inv (fun s : Acc × Machine => P s.2) _ _ _ _ hs
  intro s bx _ hs
  exact sample_inv src P hload src_w src_x src_y b_y bx s hs

end inv

theorem wrap32_eq_self {x : Int} (h : InInt x) : wrap32 x = x := by
  unfold InInt at h
  unfold wrap32
  omega

theorem wrap32_add (a b : Int) : wrap32 (wrap32 a + b) = wrap32 (a + b) := by
  unfold wrap32
  omega

theorem wrap32_zero : wrap32 0 = 0 := by decide

section scan32
variable (src : List uint8_t) (src_w src_h scale src_x src_y : Int)

/-- One step of the scan with `int` accumulators is one step of the scan with
unbounded accumulators, reduced to 32 bits; the memory accesses are the same. -/
theorem sample32_wrap (b_y bx : Int) (a : Acc) (m : Machine) :
    sample32 src src_w src_x src_y b_y bx (wrapAcc a, m)
      = (wrapAcc (sample src src_w src_x src_y b_y bx (a, m)).1,
          (sample src src_w src_x src_y b_y bx (a, m)).2) := by
  unfold sample32 sample wrapAcc
  simp only [load_fst]
  split
  · simp only [wrap32_add]
  · simp only [wrap32_add]

theorem scanBlock32_eq (m : Machine) :
    scanBlock32 src src_w src_h scale src_x src_y m
      = (wrapAcc (scanBlock src src_w src_h scale src_x src_y m).1,
          (scanBlock src src_w src_h scale src_x src_y m).2) := by
  unfold scanBlock32 scanBlock
  apply foldl_rel (fun (s t : Acc × Machine) => s = (wrapAcc t.1, t.2))
  · intro s t b_y _ hst
    apply foldl_rel (fun (s t : Acc × Machine) => s = (wrapAcc t.1, t.2)) _ _ _ _ _ _ hst
    intro s t bx _ hst
    rw [hst, sample32_wrap]
  · rfl

end scan32

theorem pixelAcc32_eq (src : List uint8_t) (src_w src_h scale dx dy : Int) :
    pixelAcc32 src src_w src_h scale dx dy
      = wrapAcc (blockAcc src src_w src_h scale (wrap32 (dx * scale)) (wrap32 (dy * scale))) := by
  unfold pixelAcc32 blockAcc
  rw [scanBlock32_eq]

theorem scanBlock32_acc (src : List uint8_t) (src_w src_h scale dx dy : Int) (m : Machine) :
    (scanBlock32 src src_w src_h scale (wrap32 (dx * scale)) (wrap32 (dy * scale)) m).1
      = pixelAcc32 src src_w src_h scale dx dy := by
  rw [pixelAcc32_eq, scanBlock32_eq, scan_acc]

section run32
variable (src : List uint8_t) (src_w src_h dst_w dst_h scale : Int)

theorem pixelStep32_stores (dst_y dst_x : Int) (m : Machine) :
    (pixelStep32 src src_w src_h dst_w scale dst_y dst_x m).stores
      = m.stores ++ pixelStores32 src src_w src_h dst_w scale dst_y dst_x := by
  unfold pixelStep32 pixelStores32 lumaOffset pairBase
  simp only [scanBlock32_acc]
  split <;> simp [scanBlock32_eq, scan_stores]

theorem pixelStep32_dst (dst_y dst_x : Int) (m : Machine) :
    (pixelStep32 src src_w src_h dst_w scale dst_y dst_x m).dst
      = writeAll m.dst (pixelStores32 src src_w src_h dst_w scale dst_y dst_x) := by
  unfold pixelStep32 pixelStores32 lumaOffset pairBase
  simp only [scanBlock32_acc]
  split
  · rw [store_dst, store_dst, store_dst, scanBlock32_eq, scan_dst, ← writeAll_append,
      ← writeAll_append]
    rfl
  · rw [store_dst, scanBlock32_eq, scan_dst]

theorem run32_stores (dst : List uint8_t) :
    (resizeYUV422Average32 src src_w src_h dst dst_w dst_h scale).stores
      = allStores32 src src_w src_h dst_w dst_h scale := by
  unfold resizeYUV422Average32 allStores32
  rw [foldl_proj_append _ (fun m => m.stores) _ (fun m dst_y =>
    foldl_proj_append _ (fun m => m.stores) _
      (fun m dst_x => pixelStep32_stores src src_w src_h dst_w scale dst_y dst_x m) _ m)]
  rfl

theorem run32_dst (dst : List uint8_t) :
    (resizeYUV422Average32 src src_w src_h dst dst_w dst_h scale).dst
      = writeAll dst (allStores32 src src_w src_h dst_w dst_h scale) := by
  unfold resizeYUV422Average32 allStores32
  rw [foldl_proj_writeAll _ (fun m => m.dst) _ (fun m dst_y =>
    foldl_proj_writeAll _ (fun m => m.dst) _
      (fun m dst_x => pixelStep32_dst src src_w src_h dst_w scale dst_y dst_x m) _ m)]

/-- The 32-bit routine writes the same destination indices, in the same order, as the
unbounded one. -/
theorem allStores32_keys :
    (allStores32 src src_w src_h dst_w dst_h scale).map Prod.fst
      = (allStores src src_w src_h dst_w dst_h scale).map Prod.fst := by
  unfold allStores32 allStores
  simp only [List.map_flatMap]
  apply List.flatMap_congr
  intro dst_y _
  apply List.flatMap_congr
  intro dst_x _
  rw [pixelStores_keys]
  unfold pixelStores32
  split <;> simp

end run32

theorem mem_allStores32 {src : List uint8_t} {src_w src_h dst_w dst_h scale dx dy : Int}
    {p : Int × uint8_t} (hx : 0 ≤ dx) (hx1 : dx < dst_w) (hy : 0 ≤ dy) (hy1 : dy < dst_h)
    (hp : p ∈ pixelStores32 src src_w src_h dst_w scale dy dx) :
    p ∈ allStores32 src src_w src_h dst_w dst_h scale := by
  unfold allStores32
  rw [List.mem_flatMap]
  refine ⟨dy, mem_forIndices_true.mpr ⟨hy, hy1⟩, ?_⟩
  rw [List.mem_flatMap]
  exact ⟨dx, mem_forIndices_true.mpr ⟨hx, hx1⟩, hp⟩

/-- After a run of the 32-bit routine with an even, non-negative destination width
and a destination buffer of adequate size, every logged write is what the buffer
holds. -/
theorem byteAt_run32 (dst : List uint8_t) {src : List uint8_t}
    {src_w src_h dst_w dst_h scale : Int}
    (hw : Even dst_w) (hw0 : 0 ≤ dst_w) (hh0 : 0 ≤ dst_h)
    (hlen : dst_w * dst_h * 2 ≤ dst.length) {i : Int} {v : uint8_t}
    (hmem : (i, v) ∈ allStores32 src src_w src_h dst_w dst_h scale) :
    byteAt (resizeYUV422Average32 src src_w src_h dst dst_w dst_h scale).dst i = some v := by
  rw [run32_dst]
  have hperm := allStores_keys_perm src src_w src_h dst_w dst_h scale hw hw0 hh0
  rw [← allStores32_keys] at hperm
  have hk : i ∈ intRange 0 (dst_w * dst_h * 2).toNat :=
    hperm.mem_iff.mp (List.mem_map.mpr ⟨(i, v), hmem, rfl⟩)
  rw [mem_intRange] at hk
  exact byteAt_writeAll_of_mem _ _ _ _ (hperm.nodup_iff.mpr (intRange_nodup _ _)) hmem
    (by omega) (by omega)

section pixel32
variable {src dst : List uint8_t} {src_w src_h dst_w dst_h scale dx dy : Int}

theorem run32_luma (hw : Even dst_w) (hlen : dst_w * dst_h * 2 ≤ dst.length)
    (hx : 0 ≤ dx) (hx1 : dx < dst_w) (hy : 0 ≤ dy) (hy1 : dy < dst_h) :
    byteAt (resizeYUV422Average32 src src_w src_h dst dst_w dst_h scale).dst
        (lumaOffset dst_w dx dy)
      = some (avgY (pixelAcc32 src src_w src_h scale dx dy)) := by
  apply byteAt_run32 dst hw (by omega) (by omega) hlen
  apply mem_allStores32 hx hx1 hy hy1
  unfold pixelStores32
  exact List.mem_cons_self _ _

theorem run32_chroma_u (hw : Even dst_w) (hlen : dst_w * dst_h * 2 ≤ dst.length)
    (hx : 0 ≤ dx) (hx1 : dx < dst_w) (hy : 0 ≤ dy) (hy1 : dy < dst_h) (hdx : dx % 2 = 0) :
    byteAt (resizeYUV422Average32 src src_w src_h dst dst_w dst_h scale).dst
        (pairBase dst_w dx dy + 1)
      = some (avgU (pixelAcc32 src src_w src_h scale dx dy)) := by
  apply byteAt_run32 dst hw (by omega) (by omega) hlen
  apply mem_allStores32 hx hx1 hy hy1
  unfold pixelStores32
  have : bitAnd1 dx = 0 := hdx
  simp [this]

theorem run32_chroma_v (hw : Even dst_w) (hlen : dst_w * dst_h * 2 ≤ dst.length)
    (hx : 0 ≤ dx) (hx1 : dx < dst_w) (hy : 0 ≤ dy) (hy1 : dy < dst_h) (hdx : dx % 2 = 0) :
    byteAt (resizeYUV422Average32 src src_w src_h dst dst_w dst_h scale).dst
        (pairBase dst_w dx dy + 3)
      = some (avgV (pixelAcc32 src src_w src_h scale dx dy)) := by
  apply byteAt_run32 dst hw (by omega) (by omega) hlen
  apply mem_allStores32 hx hx1 hy hy1
  unfold pixelStores32
  have : bitAnd1 dx = 0 := hdx
  simp [this]

end pixel32

/-! ### Runs without `int` overflow -/

theorem lumaSum_nonneg (src : List uint8_t) (src_w src_h scale dx dy : Int) :
    0 ≤ lumaSum src src_w src_h scale dx dy :=
  sum2_nonneg _ _ _ (fun x y => srcAt_nonneg src (lumaOffset src_w x y))

theorem chromaSum_nonneg (src : List uint8_t) (src_w src_h scale dx dy off : Int) :
    0 ≤ chromaSum src src_w src_h scale dx dy off :=
  sum2_nonneg _ _ _ (fun x y => srcAt_nonneg src (pairBase src_w x y + off))

theorem chromaCount_le_lumaCount (src_w src_h scale dx dy : Int) :
    chromaCount src_w src_h scale dx dy ≤ lumaCount src_w src_h scale dx dy := by
  unfold chromaCount lumaCount pairColumns
  exact Nat.mul_le_mul_left _ (Finset.card_filter_le _ _)

section fits
variable (src : List uint8_t) (src_w src_h scale dx dy : Int)

/-- When the two products of the iteration fit in `int`, its 32-bit accumulators are
the unbounded accumulators of the block at `(dx * scale, dy * scale)`, reduced to 32
bits. -/
theorem pixelAcc32_of_products (hx : InInt (dx * scale)) (hy : InInt (dy * scale)) :
    pixelAcc32 src src_w src_h scale dx dy
      = wrapAcc (blockAcc src src_w src_h scale (dx * scale) (dy * scale)) := by
  rw [pixelAcc32_eq, wrap32_eq_self hx, wrap32_eq_self hy]

theorem avgY32_eq (hx : InInt (dx * scale)) (hy : InInt (dy * scale))
    (hs : lumaSum src src_w src_h scale dx dy ≤ 2147483647)
    (hc : (lumaCount src_w src_h scale dx dy : Int) ≤ 2147483647) :
    avgY (pixelAcc32 src src_w src_h scale dx dy)
      = avgY (blockAcc src src_w src_h scale (dx * scale) (dy * scale)) := by
  have h0 := lumaSum_nonneg src src_w src_h scale dx dy
  rw [pixelAcc32_of_products src src_w src_h scale dx dy hx hy]
  unfold avgY wrapAcc
  simp only
  rw [blockAcc_sum_y, blockAcc_count_y]
  rw [wrap32_eq_self (x := ∑ y ∈ window (dy * scale) scale src_h,
      ∑ x ∈ window (dx * scale) scale src_w, srcAt src (lumaOffset src_w x y))
      ⟨le_trans (by decide) h0, hs⟩,
    wrap32_eq_self (x := (((window (dy * scale) scale src_h).card
      * (window (dx * scale) scale src_w).card : Nat) : Int))
      ⟨le_trans (by decide) (Int.ofNat_nonneg _), hc⟩]

theorem avgU32_eq (hx : InInt (dx * scale)) (hy : InInt (dy * scale))
    (hs : chromaSum src src_w src_h scale dx dy 1 ≤ 2147483647)
    (hc : (chromaCount src_w src_h scale dx dy : Int) ≤ 2147483647) :
    avgU (pixelAcc32 src src_w src_h scale dx dy)
      = avgU (blockAcc src src_w src_h scale (dx * scale) (dy * scale)) := by
  have h0 := chromaSum_nonneg src src_w src_h scale dx dy 1
  rw [pixelAcc32_of_products src src_w src_h scale dx dy hx hy]
  unfold avgU wrapAcc
  simp only
  rw [blockAcc_sum_u, blockAcc_count_uv]
  rw [wrap32_eq_self (x := ∑ y ∈ window (dy * scale) scale src_h,
      ∑ x ∈ pairColumns (dx * scale) scale src_w, srcAt src (pairBase src_w x y + 1))
      ⟨le_trans (by decide) h0, hs⟩,
    wrap32_eq_self (x := (((window (dy * scale) scale src_h).card
      * (pairColumns (dx * scale) scale src_w).card : Nat) : Int))
      ⟨le_trans (by decide) (Int.ofNat_nonneg _), hc⟩]

theorem avgV32_eq (hx : InInt (dx * scale)) (hy : InInt (dy * scale))
    (hs : chromaSum src src_w src_h scale dx dy 3 ≤ 2147483647)
    (hc : (chromaCount src_w src_h scale dx dy : Int) ≤ 2147483647) :
    avgV (pixelAcc32 src src_w src_h scale dx dy)
      = avgV (blockAcc src src_w src_h scale (dx * scale) (dy * scale)) := by
  have h0 := chromaSum_nonneg src src_w src_h scale dx dy 3
  rw [pixelAcc32_of_products src src_w src_h scale dx dy hx hy]
  unfold avgV wrapAcc
  simp only
  rw [blockAcc_sum_v, blockAcc_count_uv]
  rw [wrap32_eq_self (x := ∑ y ∈ window (dy * scale) scale src_h,
      ∑ x ∈ pairColumns (dx * scale) scale src_w, srcAt src (pairBase src_w x y + 3))
      ⟨le_trans (by decide) h0, hs⟩,
    wrap32_eq_self (x := (((window (dy * scale) scale src_h).card
      * (pairColumns (dx * scale) scale src_w).card : Nat) : Int))
      ⟨le_trans (by decide) (Int.ofNat_nonneg _), hc⟩]

end fits

/-- The product of a coordinate below `n` with a positive scale fits in `int` when the
product of `n - 1` with the scale does. -/
theorem product_inInt {n scale x : Int} (hs : 1 ≤ scale) (hn : (n - 1) * scale ≤ 2147483647)
    (h0 : 0 ≤ x) (h1 : x < n) : InInt (x * scale) := by
  have h2 : x * scale ≤ (n - 1) * scale := mul_le_mul_of_nonneg_right (by omega) (by omega)
  have h3 : 0 ≤ x * scale := mul_nonneg h0 (by omega)
  unfold InInt
  omega

section safe32
variable {src : List uint8_t} {src_w src_h dst_w dst_h : Int} {dstLen : Nat}

theorem safe_pixelStep32 {m : Machine} (hm : Safe src_w src_h dst_w dst_h dstLen m)
    (hsw : Even src_w) (hsrc : src_w * src_h * 2 ≤ src.length) (hdw : Even dst_w)
    (hdst : dst_w * dst_h * 2 ≤ dstLen) {scale dst_x dst_y : Int}
    (hx0 : 0 ≤ dst_x) (hx : dst_x < dst_w) (hy0 : 0 ≤ dst_y) (hy : dst_y < dst_h)
    (hpx : InInt (dst_x * scale)) (hpy : InInt (dst_y * scale)) :
    Safe src_w src_h dst_w dst_h dstLen
      (pixelStep32 src src_w src_h dst_w scale dst_y dst_x m) := by
  have hs : Safe src_w src_h dst_w dst_h dstLen
      (scanBlock32 src src_w src_h scale (wrap32 (dst_x * scale)) (wrap32 (dst_y * scale))
        m).2 := by
    rw [scanBlock32_eq, wrap32_eq_self hpx, wrap32_eq_self hpy]
    exact safe_scanBlock hm hsw hsrc (fun h => mul_nonneg hx0 (le_of_lt h))
      (fun h => mul_nonneg hy0 (le_of_lt h))
  have hp := pair_in_bounds hdw hx0 hx hy0 hy
  have hl := lumaOffset_range dst_w dst_x dst_y
  have h1 := safe_store hs hdst
    (avgY (scanBlock32 src src_w src_h scale (wrap32 (dst_x * scale))
      (wrap32 (dst_y * scale)) m).1)
    (show 0 ≤ lumaOffset dst_w dst_x dst_y by omega) (by omega)
  have key : pixelStep32 src src_w src_h dst_w scale dst_y dst_x m
      = if bitAnd1 dst_x = 0 then
          (((scanBlock32 src src_w src_h scale (wrap32 (dst_x * scale))
                (wrap32 (dst_y * scale)) m).2.store
              (lumaOffset dst_w dst_x dst_y)
              (avgY (scanBlock32 src src_w src_h scale (wrap32 (dst_x * scale))
                (wrap32 (dst_y * scale)) m).1)).store
            (pairBase dst_w dst_x dst_y + 1)
              (avgU (scanBlock32 src src_w src_h scale (wrap32 (dst_x * scale))
                (wrap32 (dst_y * scale)) m).1)).store
            (pairBase dst_w dst_x dst_y + 3)
              (avgV (scanBlock32 src src_w src_h scale (wrap32 (dst_x * scale))
                (wrap32 (dst_y * scale)) m).1)
        else
          (scanBlock32 src src_w src_h scale (wrap32 (dst_x * scale))
              (wrap32 (dst_y * scale)) m).2.store
            (lumaOffset dst_w dst_x dst_y)
            (avgY (scanBlock32 src src_w src_h scale (wrap32 (dst_x * scale))
              (wrap32 (dst_y * scale)) m).1) := rfl
  rw [key]
  split
  · exact safe_store (safe_store h1 hdst _ (by omega) (by omega)) hdst _ (by omega) (by omega)
  · exact h1

/-- A run of the 32-bit routine on images of even widths, with buffers of adequate
size and block origins that fit in `int`, never leaves the two images. -/
theorem run32_safe (src dst : List uint8_t) (src_w src_h dst_w dst_h scale : Int)
    (hsw : Even src_w) (hdw : Even dst_w) (hsrc : src_w * src_h * 2 ≤ src.length)
    (hdst : dst_w * dst_h * 2 ≤ dst.length)
    (hpx : ∀ x, 0 ≤ x → x < dst_w → InInt (x * scale))
    (hpy : ∀ y, 0 ≤ y → y < dst_h → InInt (y * scale)) :
    Safe src_w src_h dst_w dst_h dst.length
      (resizeYUV422Average32 src src_w src_h dst dst_w dst_h scale) := by
  unfold resizeYUV422Average32
  apply foldl_inv (fun m : Machine => Safe src_w src_h dst_w dst_h dst.length m)
  · intro m dst_y hy hm
    apply foldl_inv (fun m : Machine => Safe src_w src_h dst_w dst_h dst.length m) _ _ _ _ hm
    intro m dst_x hx hm
    rw [mem_forIndices_true] at hx hy
    exact safe_pixelStep32 hm hsw hsrc hdw hdst hx.1 hx.2 hy.1 hy.2 (hpx _ hx.1 hx.2)
      (hpy _ hy.1 hy.2)
  · exact ⟨rfl, by simp, by simp, rfl⟩

end safe32

section acc32
variable (src : List uint8_t) (src_w src_h scale dx dy : Int)

theorem pixelAcc32_sum_y :
    (pixelAcc32 src src_w src_h scale dx dy).sum_y
      = wrap32 (∑ y ∈ window (wrap32 (dy * scale)) scale src_h,
          ∑ x ∈ window (wrap32 (dx * scale)) scale src_w, srcAt src (lumaOffset src_w x y)) := by
  rw [pixelAcc32_eq, ← blockAcc_sum_y]
  rfl

theorem pixelAcc32_sum_u :
    (pixelAcc32 src src_w src_h scale dx dy).sum_u
      = wrap32 (∑ y ∈ window (wrap32 (dy * scale)) scale src_h,
          ∑ x ∈ pairColumns (wrap32 (dx * scale)) scale src_w,
            srcAt src (pairBase src_w x y + 1)) := by
  rw [pixelAcc32_eq, ← blockAcc_sum_u]
  rfl

theorem pixelAcc32_sum_v :
    (pixelAcc32 src src_w src_h scale dx dy).sum_v
      = wrap32 (∑ y ∈ window (wrap32 (dy * scale)) scale src_h,
          ∑ x ∈ pairColumns (wrap32 (dx * scale)) scale src_w,
            srcAt src (pairBase src_w x y + 3)) := by
  rw [pixelAcc32_eq, ← blockAcc_sum_v]
  rfl

theorem pixelAcc32_count_y :
    (pixelAcc32 src src_w src_h scale dx dy).count_y
      = wrap32 (((window (wrap32 (dy * scale)) scale src_h).card
          * (window (wrap32 (dx * scale)) scale src_w).card : Nat) : Int) := by
  rw [pixelAcc32_eq, ← blockAcc_count_y]
  rfl

theorem pixelAcc32_count_uv :
    (pixelAcc32 src src_w src_h scale dx dy).count_uv
      = wrap32 (((window (wrap32 (dy * scale)) scale src_h).card
          * (pairColumns (wrap32 (dx * scale)) scale src_w).card : Nat) : Int) := by
  rw [pixelAcc32_eq, ← blockAcc_count_uv]
  rfl

end acc32

/-! ### Sources of one byte value -/

theorem window_card (lo scale hi : Int) :
    (window lo scale hi).card = (min (lo + scale) hi - lo).toNat := by
  unfold window
  rw [Int.card_Ico]

theorem pairColumns_card (lo scale hi : Int) :
    (pairColumns lo scale hi).card = ((min (lo + scale) hi - lo).toNat + 1) / 2 := by
  have h : pairColumns lo scale hi
      = (Finset.range (((min (lo + scale) hi - lo).toNat + 1) / 2)).image
          (fun k : Nat => lo + 2 * (k : Int)) := by
    unfold pairColumns window
    ext x
    simp only [Finset.mem_filter, Finset.mem_Ico, Finset.mem_image, Finset.mem_range]
    constructor
    · intro hx
      exact ⟨((x - lo) / 2).toNat, by omega, by omega⟩
    · rintro ⟨k, hk, rfl⟩
      omega
  rw [h, Finset.card_image_of_injective, Finset.card_range]
  intro a b hab
  simp only at hab
  omega

theorem srcAt_replicate (n : Nat) (b : uint8_t) {i : Int} (h0 : 0 ≤ i) (h1 : i < n) :
    srcAt (List.replicate n b) i = ((b.val : Nat) : Int) := by
  unfold srcAt
  rw [List.length_replicate, if_pos ⟨h0, h1⟩,
    List.getD_eq_getElem _ _ (by rw [List.length_replicate]; omega), List.getElem_replicate]

section uniform
variable (n : Nat) (b : uint8_t) (w h scale lx ly : Int)

theorem uniform_luma_sum (hw : Even w) (hn : w * h * 2 ≤ n) (hlx : 0 ≤ lx) (hly : 0 ≤ ly) :
    ∑ y ∈ window ly scale h, ∑ x ∈ window lx scale w,
        srcAt (List.replicate n b) (lumaOffset w x y)
      = ((b.val : Nat) : Int)
          * (((window ly scale h).card * (window lx scale w).card : Nat) : Int) := by
  have hc : ∀ y ∈ window ly scale h, ∀ x ∈ window lx scale w,
      srcAt (List.replicate n b) (lumaOffset w x y) = ((b.val : Nat) : Int) := by
    intro y hy x hx
    unfold window at hx hy
    rw [Finset.mem_Ico] at hx hy
    have hp := pair_in_bounds hw (show 0 ≤ x by omega) (show x < w by omega)
      (show 0 ≤ y by omega) (show y < h by omega)
    have hl := lumaOffset_range w x y
    exact srcAt_replicate n b (by omega) (by omega)
  rw [Finset.sum_congr rfl (fun y hy => Finset.sum_congr rfl (fun x hx => hc y hy x hx))]
  simp only [Finset.sum_const, nsmul_eq_mul]
  push_cast
  ring

theorem uniform_chroma_sum (off : Int) (hoff : off = 1 ∨ off = 3) (hw : Even w)
    (hn : w * h * 2 ≤ n) (hlx : 0 ≤ lx) (hly : 0 ≤ ly) :
    ∑ y ∈ window ly scale h, ∑ x ∈ pairColumns lx scale w,
        srcAt (List.replicate n b) (pairBase w x y + off)
      = ((b.val : Nat) : Int)
          * (((window ly scale h).card * (pairColumns lx scale w).card : Nat) : Int) := by
  have hc : ∀ y ∈ window ly scale h, ∀ x ∈ pairColumns lx scale w,
      srcAt (List.replicate n b) (pairBase w x y + off) = ((b.val : Nat) : Int) := by
    intro y hy x hx
    unfold pairColumns at hx
    rw [Finset.mem_filter] at hx
    have hx' := hx.1
    unfold window at hx' hy
    rw [Finset.mem_Ico] at hx' hy
    have hp := pair_in_bounds hw (show 0 ≤ x by omega) (show x < w by omega)
      (show 0 ≤ y by omega) (show y < h by omega)
    exact srcAt_replicate n b (by omega) (by omega)
  rw [Finset.sum_congr rfl (fun y hy => Finset.sum_congr rfl (fun x hx => hc y hy x hx))]
  simp only [Finset.sum_const, nsmul_eq_mul]
  push_cast
  ring

end uniform

/-! ### Reads of a run -/

theorem foldl_establish {σ ι : Type} (P : σ → Prop) (f : σ → ι → σ) (l : List ι) (e : ι)
    (he : e ∈ l) (hkeep : ∀ s i, P s → P (f s i)) (hest : ∀ s, P (f s e)) (s : σ) :
    P (l.foldl f s) := by
  induction l generalizing s with
  | nil => simp at he
  | cons i l ih =>
    rcases List.mem_cons.mp he with h | h
    · subst h
      exact foldl_inv P f l (fun s j _ hs => hkeep s j hs) _ (hest s)
    · exact ih h _

theorem hasRead_load (src : List uint8_t) (i : Int) (m : Machine) (j : Int)
    (hm : HasRead src i m) : HasRead src i (m.load src j).2 := by
  unfold HasRead at hm ⊢
  rw [load_loads, load_faults]
  exact ⟨List.mem_append_left _ hm.1, fun h => List.mem_append_left _ (hm.2 h)⟩

theorem hasRead_store (src : List uint8_t) (i : Int) (m : Machine) (j : Int) (v : uint8_t)
    (hm : HasRead src i m) : HasRead src i (m.store j v) := by
  unfold HasRead at hm ⊢
  rw [store_loads, store_faults]
  exact ⟨hm.1, fun h => List.mem_append_left _ (hm.2 h)⟩

theorem hasRead_first (src : List uint8_t) (i : Int) (m : Machine) :
    HasRead src i (m.load src i).2 := by
  unfold HasRead
  rw [load_loads, load_faults]
  refine ⟨List.mem_append_right _ (List.mem_singleton_self _), fun h => ?_⟩
  rw [if_neg h]
  exact List.mem_append_right _ (List.mem_singleton_self _)

/-- The scan of a block reads the luma byte of every pixel of its rows and columns. -/
theorem scanBlock_reads (src : List uint8_t) (src_w src_h scale src_x src_y b_y bx : Int)
    (hby : b_y ∈ forIndices scale (fun b => decide (src_y + b < src_h)))
    (hbx : bx ∈ forIndices scale (fun b => decide (src_x + b < src_w))) (m : Machine) :
    HasRead src (lumaOffset src_w (src_x + bx) (src_y + b_y))
      (scanBlock src src_w src_h scale src_x src_y m).2 := by
  have hkeep : ∀ (b c : Int) (s : Acc × Machine),
      HasRead src (lumaOffset src_w (src_x + bx) (src_y + b_y)) s.2 →
      HasRead src (lumaOffset src_w (src_x + bx) (src_y + b_y))
        (sample src src_w src_x src_y b c s).2 :=
    fun b c s hs => sample_inv src _ (fun m j hm => hasRead_load src _ m j hm)
      src_w src_x src_y b c s hs
  unfold scanBlock
  apply foldl_establish (fun s : Acc × Machine =>
    HasRead src (lumaOffset src_w (src_x + bx) (src_y + b_y)) s.2) _ _ b_y hby
  · intro s b hs
    exact foldl_inv (fun s : Acc × Machine =>
      HasRead src (lumaOffset src_w (src_x + bx) (src_y + b_y)) s.2) _ _
      (fun s c _ hs => hkeep b c s hs) s hs
  · intro s
    apply foldl_establish (fun s : Acc × Machine =>
      HasRead src (lumaOffset src_w (src_x + bx) (src_y + b_y)) s.2) _ _ bx hbx
      (fun s c hs => hkeep b_y c s hs)
    intro s
    have key : (sample src src_w src_x src_y b_y bx s).2
        = if Int.tmod bx 2 = 0 then
            (((s.2.load src (lumaOffset src_w (src_x + bx) (src_y + b_y))).2.load src
              (pairBase src_w (src_x + bx) (src_y + b_y) + 1)).2.load src
              (pairBase src_w (src_x + bx) (src_y + b_y) + 3)).2
          else (s.2.load src (lumaOffset src_w (src_x + bx) (src_y + b_y))).2 := by
      unfold sample lumaOffset pairBase
      simp only []
      split <;> rfl
    rw [key]
    split
    · exact hasRead_load src _ _ _ (hasRead_load src _ _ _ (hasRead_first src _ _))
    · exact hasRead_first src _ _

theorem hasRead_pixelStep32 (src : List uint8_t) (i : Int)
    (src_w src_h dst_w scale y x : Int) (m : Machine) (hm : HasRead src i m) :
    HasRead src i (pixelStep32 src src_w src_h dst_w scale y x m) := by
  have hs := scanBlock_inv src (HasRead src i) (fun m j hm => hasRead_load src i m j hm)
    src_w src_h scale (wrap32 (x * scale)) (wrap32 (y * scale)) m hm
  unfold pixelStep32
  simp only [scanBlock32_eq]
  split
  · exact hasRead_store src _ _ _ _ (hasRead_store src _ _ _ _ (hasRead_store src _ _ _ _ hs))
  · exact hasRead_store src _ _ _ _ hs

/-- A run of the 32-bit routine reads the luma byte of every pixel of the rows and
columns of the block of every destination pixel, and records a fault for it when its
index is outside the source buffer. -/
theorem run32_reads (src dst : List uint8_t) (src_w src_h dst_w dst_h scale dx dy b_y bx : Int)
    (hx0 : 0 ≤ dx) (hx : dx < dst_w) (hy0 : 0 ≤ dy) (hy : dy < dst_h)
    (hby : b_y ∈ forIndices scale (fun b => decide (wrap32 (dy * scale) + b < src_h)))
    (hbx : bx ∈ forIndices scale (fun b => decide (wrap32 (dx * scale) + b < src_w))) :
    HasRead src (lumaOffset src_w (wrap32 (dx * scale) + bx) (wrap32 (dy * scale) + b_y))
      (resizeYUV422Average32 src src_w src_h dst dst_w dst_h scale) := by
  unfold resizeYUV422Average32
  apply foldl_establish (HasRead src
    (lumaOffset src_w (wrap32 (dx * scale) + bx) (wrap32 (dy * scale) + b_y))) _ _ dy
    (mem_forIndices_true.mpr ⟨hy0, hy⟩)
  · intro m y hm
    exact foldl_inv (HasRead src
      (lumaOffset src_w (wrap32 (dx * scale) + bx) (wrap32 (dy * scale) + b_y))) _ _
      (fun m x _ hm => hasRead_pixelStep32 src _ src_w src_h dst_w scale y x m hm) m hm
  · intro m
    apply foldl_establish (HasRead src
      (lumaOffset src_w (wrap32 (dx * scale) + bx) (wrap32 (dy * scale) + b_y))) _ _ dx
      (mem_forIndices_true.mpr ⟨hx0, hx⟩)
      (fun m x hm => hasRead_pixelStep32 src _ src_w src_h dst_w scale dy x m hm)
    intro m
    have hs := scanBlock_reads src src_w src_h scale (wrap32 (dx * scale))
      (wrap32 (dy * scale)) b_y bx hby hbx m
    unfold pixelStep32
    simp only [scanBlock32_eq]
    split
    · exact hasRead_store src _ _ _ _ (hasRead_store src _ _ _ _ (hasRead_store src _ _ _ _ hs))
    · exact hasRead_store src _ _ _ _ hs

/-! ### Iterations without `int` overflow -/

section iter
variable (src : List uint8_t) (src_w src_h dst_w scale dx dy : Int)

theorem pixelAcc32_count_y_of_fits (hx : InInt (dx * scale)) (hy : InInt (dy * scale))
    (hc : (lumaCount src_w src_h scale dx dy : Int) ≤ 2147483647) :
    (pixelAcc32 src src_w src_h scale dx dy).count_y
      = (blockAcc src src_w src_h scale (dx * scale) (dy * scale)).count_y := by
  rw [pixelAcc32_of_products src src_w src_h scale dx dy hx hy]
  show wrap32 _ = _
  rw [blockAcc_count_y]
  exact wrap32_eq_self ⟨le_trans (by decide) (Int.ofNat_nonneg _), hc⟩

theorem pixelAcc32_count_uv_of_fits (hx : InInt (dx * scale)) (hy : InInt (dy * scale))
    (hc : (chromaCount src_w src_h scale dx dy : Int) ≤ 2147483647) :
    (pixelAcc32 src src_w src_h scale dx dy).count_uv
      = (blockAcc src src_w src_h scale (dx * scale) (dy * scale)).count_uv := by
  rw [pixelAcc32_of_products src src_w src_h scale dx dy hx hy]
  show wrap32 _ = _
  rw [blockAcc_count_uv]
  exact wrap32_eq_self ⟨le_trans (by decide) (Int.ofNat_nonneg _), hc⟩

theorem pixelAcc32_sum_y_of_fits (hx : InInt (dx * scale)) (hy : InInt (dy * scale))
    (hs : lumaSum src src_w src_h scale dx dy ≤ 2147483647) :
    (pixelAcc32 src src_w src_h scale dx dy).sum_y
      = (blockAcc src src_w src_h scale (dx * scale) (dy * scale)).sum_y := by
  rw [pixelAcc32_of_products src src_w src_h scale dx dy hx hy]
  show wrap32 _ = _
  rw [blockAcc_sum_y]
  exact wrap32_eq_self
    ⟨le_trans (by decide) (lumaSum_nonneg src src_w src_h scale dx dy), hs⟩

theorem pixelAcc32_sum_u_of_fits (hx : InInt (dx * scale)) (hy : InInt (dy * scale))
    (hs : chromaSum src src_w src_h scale dx dy 1 ≤ 2147483647) :
    (pixelAcc32 src src_w src_h scale dx dy).sum_u
      = (blockAcc src src_w src_h scale (dx * scale) (dy * scale)).sum_u := by
  rw [pixelAcc32_of_products src src_w src_h scale dx dy hx hy]
  show wrap32 _ = _
  rw [blockAcc_sum_u]
  exact wrap32_eq_self
    ⟨le_trans (by decide) (chromaSum_nonneg src src_w src_h scale dx dy 1), hs⟩

theorem pixelAcc32_sum_v_of_fits (hx : InInt (dx * scale)) (hy : InInt (dy * scale))
    (hs : chromaSum src src_w src_h scale dx dy 3 ≤ 2147483647) :
    (pixelAcc32 src src_w src_h scale dx dy).sum_v
      = (blockAcc src src_w src_h scale (dx * scale) (dy * scale)).sum_v := by
  rw [pixelAcc32_of_products src src_w src_h scale dx dy hx hy]
  show wrap32 _ = _
  rw [blockAcc_sum_v]
  exact wrap32_eq_self
    ⟨le_trans (by decide) (chromaSum_nonneg src src_w src_h scale dx dy 3), hs⟩

/-- When the two products and the five accumulators of an iteration fit in `int`, the
iteration of the 32-bit routine is the iteration with unbounded integers. -/
theorem pixelStep32_eq_pixelStep (hx : InInt (dx * scale)) (hy : InInt (dy * scale))
    (hsy : lumaSum src src_w src_h scale dx dy ≤ 2147483647)
    (hsu : chromaSum src src_w src_h scale dx dy 1 ≤ 2147483647)
    (hsv : chromaSum src src_w src_h scale dx dy 3 ≤ 2147483647)
    (hc : (lumaCount src_w src_h scale dx dy : Int) ≤ 2147483647) (m : Machine) :
    scanBlock32 src src_w src_h scale (wrap32 (dx * scale)) (wrap32 (dy * scale)) m
        = scanBlock src src_w src_h scale (dx * scale) (dy * scale) m ∧
      pixelStep32 src src_w src_h dst_w scale dy dx m
        = pixelStep src src_w src_h dst_w scale dy dx m := by
  have hcu : (chromaCount src_w src_h scale dx dy : Int) ≤ 2147483647 :=
    le_trans (by exact_mod_cast chromaCount_le_lumaCount src_w src_h scale dx dy) hc
  have hacc : pixelAcc32 src src_w src_h scale dx dy
      = blockAcc src src_w src_h scale (dx * scale) (dy * scale) :=
    Acc.eq_of_fields (pixelAcc32_sum_y_of_fits src src_w src_h scale dx dy hx hy hsy)
      (pixelAcc32_sum_u_of_fits src src_w src_h scale dx dy hx hy hsu)
      (pixelAcc32_sum_v_of_fits src src_w src_h scale dx dy hx hy hsv)
      (pixelAcc32_count_y_of_fits src src_w src_h scale dx dy hx hy hc)
      (pixelAcc32_count_uv_of_fits src src_w src_h scale dx dy hx hy hcu)
  have hscan : scanBlock32 src src_w src_h scale (wrap32 (dx * scale)) (wrap32 (dy * scale)) m
      = scanBlock src src_w src_h scale (dx * scale) (dy * scale) m := by
    apply Prod.ext
    · rw [scanBlock32_acc, hacc, scan_acc]
    · rw [scanBlock32_eq, wrap32_eq_self hx, wrap32_eq_self hy]
  refine ⟨hscan, ?_⟩
  unfold pixelStep32 pixelStep
  simp only [hscan]

/-- The iteration for a destination pixel reads the luma byte of every pixel of the
rows and columns of its block. -/
theorem pixelStep32_reads (b_y bx : Int)
    (hby : b_y ∈ forIndices scale (fun b => decide (wrap32 (dy * scale) + b < src_h)))
    (hbx : bx ∈ forIndices scale (fun b => decide (wrap32 (dx * scale) + b < src_w)))
    (m : Machine) :
    HasRead src (lumaOffset src_w (wrap32 (dx * scale) + bx) (wrap32 (dy * scale) + b_y))
      (pixelStep32 src src_w src_h dst_w scale dy dx m) := by
  have hs := scanBlock_reads src src_w src_h scale (wrap32 (dx * scale))
    (wrap32 (dy * scale)) b_y bx hby hbx m
  unfold pixelStep32
  simp only [scanBlock32_eq]
  split
  · exact hasRead_store src _ _ _ _ (hasRead_store src _ _ _ _ (hasRead_store src _ _ _ _ hs))
  · exact hasRead_store src _ _ _ _ hs

end iter

theorem foldl_congr_mem {σ ι : Type} (f g : σ → ι → σ) (l : List ι)
    (h : ∀ s, ∀ i ∈ l, f s i = g s i) (s : σ) : l.foldl f s = l.foldl g s := by
  induction l generalizing s with
  | nil => rfl
  | cons i l ih =>
    rw [List.foldl_cons, List.foldl_cons, h s i (List.mem_cons_self _ _)]
    exact ih (fun s j hj => h s j (List.mem_cons_of_mem _ hj)) _

/-- When the two products and the five accumulators of every iteration fit in `int`,
the run of the 32-bit routine is the run with unbounded integers: same destination,
same reads, same writes, same faults. -/
theorem run32_eq_run (src dst : List uint8_t) (src_w src_h dst_w dst_h scale : Int)
    (hfit : ∀ dx dy : Int, 0 ≤ dx → dx < dst_w → 0 ≤ dy → dy < dst_h →
      InInt (dx * scale) ∧ InInt (dy * scale) ∧
      lumaSum src src_w src_h scale dx dy ≤ 2147483647 ∧
      chromaSum src src_w src_h scale dx dy 1 ≤ 2147483647 ∧
      chromaSum src src_w src_h scale dx dy 3 ≤ 2147483647 ∧
      (lumaCount src_w src_h scale dx dy : Int) ≤ 2147483647) :
    resizeYUV422Average32 src src_w src_h dst dst_w dst_h scale
      = resizeYUV422Average src src_w src_h dst dst_w dst_h scale := by
  unfold resizeYUV422Average32 resizeYUV422Average
  apply foldl_congr_mem
  intro m dy hdy
  apply foldl_congr_mem
  intro m' dx hdx
  have hy := mem_forIndices_true.mp hdy
  have hx := mem_forIndices_true.mp hdx
  obtain ⟨h1, h2, h3, h4, h5, h6⟩ := hfit dx dy hx.1 hx.2 hy.1 hy.2
  exact (pixelStep32_eq_pixelStep src src_w src_h dst_w scale dx dy h1 h2 h3 h4 h5 h6 m').2

/-- The accumulators of destination pixel `(65536, 0)` at scale 65536 over the 2 x 1
source `[10, 20, 30, 40]`: the `int` product `65536 * 65536` wraps to 0 and the block
scanned is the whole source. -/
theorem pixelAcc32_wrapped_origin :
    pixelAcc32 [10, 20, 30, 40] 2 1 65536 65536 0 = ⟨40, 20, 40, 2, 1⟩ := by
  apply Acc.eq_of_fields
  · rw [pixelAcc32_sum_y]; decide
  · rw [pixelAcc32_sum_u]; decide
  · rw [pixelAcc32_sum_v]; decide
  · rw [pixelAcc32_count_y]; decide
  · rw [pixelAcc32_count_uv]; decide

/-! ## Claims on the routine with `int` arithmetic -/

/-- C1, as amended (luma correctness with edge clipping).  For even source and
destination widths, `scale ≥ 1`, buffers of at least `src_w * src_h * 2` and
`dst_w * dst_h * 2` bytes, block origins `dst_x * scale`, `dst_y * scale` that fit in
`int` for every destination pixel, and a luma sum and pixel count of the pixel
`(dx, dy)` that fit in `int`: the run takes no error branch, and the byte left at the
luma offset `(dy * dst_w + (dx & ~1)) * 2 + (dx odd ? 2 : 0)` is the truncated quotient
of the sum of the source luma bytes over exactly the pixels `dx * scale ≤ x <
min (dx * scale + scale) src_w`, `dy * scale ≤ y < min (dy * scale + scale) src_h` by
the number of those pixels, and is `0` when there is no such pixel. -/
theorem luma_correct_int (src dst : List uint8_t) (src_w src_h dst_w dst_h scale dx dy : Int)
    (hsw : Even src_w) (hdw : Even dst_w) (hscale : 1 ≤ scale)
    (hsrc : src_w * src_h * 2 ≤ src.length) (hdst : dst_w * dst_h * 2 ≤ dst.length)
    (hx0 : 0 ≤ dx) (hx : dx < dst_w) (hy0 : 0 ≤ dy) (hy : dy < dst_h)
    (hpx : (dst_w - 1) * scale ≤ 2147483647) (hpy : (dst_h - 1) * scale ≤ 2147483647)
    (hsum : lumaSum src src_w src_h scale dx dy ≤ 2147483647)
    (hcnt : (lumaCount src_w src_h scale dx dy : Int) ≤ 2147483647) :
    (resizeYUV422Average32 src src_w src_h dst dst_w dst_h scale).faults = [] ∧
    (byteAt (resizeYUV422Average32 src src_w src_h dst dst_w dst_h scale).dst
        (lumaOffset dst_w dx dy)).map (fun b => (b.val : Int))
      = some (if lumaCount src_w src_h scale dx dy = 0 then 0
          else Int.tdiv (lumaSum src src_w src_h scale dx dy)
            (lumaCount src_w src_h scale dx dy)) := by
  refine ⟨(run32_safe src dst src_w src_h dst_w dst_h scale hsw hdw hsrc hdst
    (fun x h0 h1 => product_inInt hscale hpx h0 h1)
    (fun y h0 h1 => product_inInt hscale hpy h0 h1)).1, ?_⟩
  rw [run32_luma hdw hdst hx0 hx hy0 hy, Option.map_some',
    avgY32_eq src src_w src_h scale dx dy (product_inInt hscale hpx hx0 hx)
      (product_inInt hscale hpy hy0 hy) hsum hcnt, avgY_val]
  rfl

/-- Witness of C1 as amended: the scenario of the specification, read at destination
pixel `(0, 0)`. -/
theorem luma_correct_int_witness :
    (Even (2 : Int) ∧ (1 : Int) ≤ 2 ∧
      (2 : Int) * 2 * 2 ≤ ([10, 20, 30, 40, 50, 60, 70, 80] : List uint8_t).length ∧
      (2 : Int) * 1 * 2 ≤ ([0, 0, 0, 0] : List uint8_t).length ∧
      ((2 : Int) - 1) * 2 ≤ 2147483647 ∧ ((1 : Int) - 1) * 2 ≤ 2147483647 ∧
      lumaSum [10, 20, 30, 40, 50, 60, 70, 80] 2 2 2 0 0 ≤ 2147483647 ∧
      (lumaCount 2 2 2 0 0 : Int) ≤ 2147483647) ∧
    ((resizeYUV422Average32 [10, 20, 30, 40, 50, 60, 70, 80] 2 2 [0, 0, 0, 0] 2 1 2).faults
        = [] ∧
    (byteAt (resizeYUV422Average32 [10, 20, 30, 40, 50, 60, 70, 80] 2 2 [0, 0, 0, 0] 2 1 2).dst
        (lumaOffset 2 0 0)).map (fun b => (b.val : Int))
      = some (if lumaCount 2 2 2 0 0 = 0 then 0
          else Int.tdiv (lumaSum [10, 20, 30, 40, 50, 60, 70, 80] 2 2 2 0 0)
            (lumaCount 2 2 2 0 0))) :=
  ⟨⟨by decide, by decide, by decide, by decide, by decide, by decide, by decide, by decide⟩,
    luma_correct_int [10, 20, 30, 40, 50, 60, 70, 80] [0, 0, 0, 0] 2 2 2 1 2 0 0
      (by decide) (by decide) (by decide) (by decide) (by decide)
      (by decide) (by decide) (by decide) (by decide) (by decide) (by decide) (by decide)
      (by decide)⟩

/-- C1 as stated fails on the code.  A 2 x 1 source `[10, 20, 30, 40]`, a 65538 x 1
destination and `scale = 65536` meet every precondition of the claim, and every sum
of the run fits in `int`.  For destination pixel `(65536, 0)` the clipped window of
the claim, from column `65536 * 65536`, is empty, so the claim gives luma 0; the `int`
product `dst_x * scale` is `2 ^ 32`, which wraps to 0, the iteration averages the
source columns 0 and 1 and writes luma 20, from any machine state, and the run leaves
20 at the luma offset of the pixel.  Earlier in the same row the product of pixel
`(32768, 0)` wraps to `-(2 ^ 31)` and the run reads outside the source, which the
machine records as a fault. -/
theorem luma_product_overflow :
    (Even (2 : Int) ∧ Even (65538 : Int) ∧ (1 : Int) ≤ 65536 ∧
      (2 : Int) * 1 * 2 ≤ ([10, 20, 30, 40] : List uint8_t).length ∧
      (65538 : Int) * 1 * 2 ≤ (List.replicate 131076 (0 : uint8_t)).length ∧
      (0 : Int) ≤ 65536 ∧ (65536 : Int) < 65538 ∧ (0 : Int) < 1) ∧
    lumaCount 2 1 65536 65536 0 = 0 ∧
    wrap32 (65536 * 65536) = 0 ∧
    (pixelAcc32 [10, 20, 30, 40] 2 1 65536 65536 0).sum_y = 40 ∧
    (∀ m : Machine, ∃ rest,
      (pixelStep32 [10, 20, 30, 40] 2 1 65538 65536 0 65536 m).stores
        = m.stores ++ (lumaOffset 65538 65536 0, 20) :: rest) ∧
    byteAt (resizeYUV422Average32 [10, 20, 30, 40] 2 1 (List.replicate 131076 0)
        65538 1 65536).dst (lumaOffset 65538 65536 0) = some 20 ∧
    (resizeYUV422Average32 [10, 20, 30, 40] 2 1 (List.replicate 131076 0)
        65538 1 65536).faults ≠ [] := by
  have hlen : (65538 : Int) * 1 * 2 ≤ (List.replicate 131076 (0 : uint8_t)).length := by
    rw [List.length_replicate]; decide
  have hv : avgY (pixelAcc32 [10, 20, 30, 40] 2 1 65536 65536 0) = 20 := by
    unfold avgY
    rw [pixelAcc32_sum_y, pixelAcc32_count_y]
    decide
  have hst : pixelStores32 [10, 20, 30, 40] 2 1 65538 65536 0 65536
      = (lumaOffset 65538 65536 0, 20) ::
        (if bitAnd1 65536 = 0 then
          [(pairBase 65538 65536 0 + 1, avgU (pixelAcc32 [10, 20, 30, 40] 2 1 65536 65536 0)),
            (pairBase 65538 65536 0 + 3, avgV (pixelAcc32 [10, 20, 30, 40] 2 1 65536 65536 0))]
        else []) := by
    unfold pixelStores32
    simp only [hv]
  have hr := run32_reads [10, 20, 30, 40] (List.replicate 131076 0) 2 1 65538 1 65536
    32768 0 0 0 (by decide) (by decide) (by decide) (by decide)
    (mem_forIndices_lt.mpr (by decide)) (mem_forIndices_lt.mpr (by decide))
  refine ⟨⟨by decide, by decide, by decide, by decide, hlen, by decide, by decide,
    by decide⟩, by decide, by decide, ?_, ?_, ?_, ?_⟩
  · rw [pixelAcc32_sum_y]
    decide
  · intro m
    exact ⟨_, by rw [pixelStep32_stores, hst]⟩
  · rw [run32_luma (by decide) hlen (by decide) (by decide) (by decide) (by decide), hv]
  · exact List.ne_nil_of_mem (hr.2 (by decide))

/-! ### Chroma averages with `int` sums -/

/-- C2, as amended (chroma correctness).  For even source and destination widths,
`scale ≥ 1`, buffers of adequate size, block origins that fit in `int` for every
destination pixel, and chroma sums and a sample count of the pixel that fit in `int`:
for every even `dx < dst_w` and every `dy < dst_h` whose number `n` of chroma samples
is positive, the run takes no error branch and the bytes left at `pairBase + 1` and
`pairBase + 3` are the truncated quotients `sumU / n` and `sumV / n` over the rows of
the clipped block and its columns `dx * scale + bx < src_w` with `bx` even. -/
theorem chroma_correct_int (src dst : List uint8_t)
    (src_w src_h dst_w dst_h scale dx dy : Int)
    (hsw : Even src_w) (hdw : Even dst_w) (hscale : 1 ≤ scale)
    (hsrc : src_w * src_h * 2 ≤ src.length) (hdst : dst_w * dst_h * 2 ≤ dst.length)
    (hx0 : 0 ≤ dx) (hx : dx < dst_w) (hdx : Even dx) (hy0 : 0 ≤ dy) (hy : dy < dst_h)
    (hn : 0 < chromaCount src_w src_h scale dx dy)
    (hpx : (dst_w - 1) * scale ≤ 2147483647) (hpy : (dst_h - 1) * scale ≤ 2147483647)
    (hsu : chromaSum src src_w src_h scale dx dy 1 ≤ 2147483647)
    (hsv : chromaSum src src_w src_h scale dx dy 3 ≤ 2147483647)
    (hcnt : (chromaCount src_w src_h scale dx dy : Int) ≤ 2147483647) :
    (resizeYUV422Average32 src src_w src_h dst dst_w dst_h scale).faults = [] ∧
    (byteAt (resizeYUV422Average32 src src_w src_h dst dst_w dst_h scale).dst
        (pairBase dst_w dx dy + 1)).map (fun b => (b.val : Int))
      = some (Int.tdiv (chromaSum src src_w src_h scale dx dy 1)
          (chromaCount src_w src_h scale dx dy)) ∧
    (byteAt (resizeYUV422Average32 src src_w src_h dst dst_w dst_h scale).dst
        (pairBase dst_w dx dy + 3)).map (fun b => (b.val : Int))
      = some (Int.tdiv (chromaSum src src_w src_h scale dx dy 3)
          (chromaCount src_w src_h scale dx dy)) := by
  have hdx' : dx % 2 = 0 := Int.even_iff.mp hdx
  have hne : ¬ ((window (dy * scale) scale src_h).card
      * (pairColumns (dx * scale) scale src_w).card = 0) := Nat.pos_iff_ne_zero.mp hn
  have hix := product_inInt hscale hpx hx0 hx
  have hiy := product_inInt hscale hpy hy0 hy
  refine ⟨(run32_safe src dst src_w src_h dst_w dst_h scale hsw hdw hsrc hdst
    (fun x h0 h1 => product_inInt hscale hpx h0 h1)
    (fun y h0 h1 => product_inInt hscale hpy h0 h1)).1, ?_, ?_⟩
  · rw [run32_chroma_u hdw hdst hx0 hx hy0 hy hdx', Option.map_some',
      avgU32_eq src src_w src_h scale dx dy hix hiy hsu hcnt, avgU_val, if_neg hne]
    rfl
  · rw [run32_chroma_v hdw hdst hx0 hx hy0 hy hdx', Option.map_some',
      avgV32_eq src src_w src_h scale dx dy hix hiy hsv hcnt, avgV_val, if_neg hne]
    rfl

/-- Witness of C2 as amended: the scenario of the specification, read at destination
pair `(0, 0)`. -/
theorem chroma_correct_int_witness :
    (Even (2 : Int) ∧ (1 : Int) ≤ 2 ∧
      (2 : Int) * 2 * 2 ≤ ([10, 20, 30, 40, 50, 60, 70, 80] : List uint8_t).length ∧
      (2 : Int) * 1 * 2 ≤ ([0, 0, 0, 0] : List uint8_t).length ∧ Even (0 : Int) ∧
      0 < chromaCount 2 2 2 0 0 ∧
      ((2 : Int) - 1) * 2 ≤ 2147483647 ∧ ((1 : Int) - 1) * 2 ≤ 2147483647 ∧
      chromaSum [10, 20, 30, 40, 50, 60, 70, 80] 2 2 2 0 0 1 ≤ 2147483647 ∧
      chromaSum [10, 20, 30, 40, 50, 60, 70, 80] 2 2 2 0 0 3 ≤ 2147483647 ∧
      (chromaCount 2 2 2 0 0 : Int) ≤ 2147483647) ∧
    ((resizeYUV422Average32 [10, 20, 30, 40, 50, 60, 70, 80] 2 2 [0, 0, 0, 0] 2 1 2).faults
        = [] ∧
    (byteAt (resizeYUV422Average32 [10, 20, 30, 40, 50, 60, 70, 80] 2 2 [0, 0, 0, 0] 2 1 2).dst
        (pairBase 2 0 0 + 1)).map (fun b => (b.val : Int))
      = some (Int.tdiv (chromaSum [10, 20, 30, 40, 50, 60, 70, 80] 2 2 2 0 0 1)
          (chromaCount 2 2 2 0 0)) ∧
    (byteAt (resizeYUV422Average32 [10, 20, 30, 40, 50, 60, 70, 80] 2 2 [0, 0, 0, 0] 2 1 2).dst
        (pairBase 2 0 0 + 3)).map (fun b => (b.val : Int))
      = some (Int.tdiv (chromaSum [10, 20, 30, 40, 50, 60, 70, 80] 2 2 2 0 0 3)
          (chromaCount 2 2 2 0 0))) :=
  ⟨⟨by decide, by decide, by decide, by decide, by decide, by decide, by decide, by decide,
      by decide, by decide, by decide⟩,
    chroma_correct_int [10, 20, 30, 40, 50, 60, 70, 80] [0, 0, 0, 0] 2 2 2 1 2 0 0
      (by decide) (by decide) (by decide) (by decide) (by decide)
      (by decide) (by decide) (by decide) (by decide) (by decide) (by decide)
      (by decide) (by decide) (by decide) (by decide) (by decide)⟩

/-- C2 as stated fails on the code.  A 4106 x 4106 source whose bytes are all 255, a
2 x 1 destination and `scale = 4106` meet every precondition of the claim.  The block
of destination pixel `(0, 0)` has 4106 * 2053 = 8429618 chroma samples of value 255, so
the claim gives chroma-blue 255; their sum 2149552590 exceeds the largest `int`, the
`int` sum wraps to a negative value, the quotient is -254 and the routine leaves the
byte 2. -/
theorem chroma_sum_overflow :
    (Even (4106 : Int) ∧ Even (2 : Int) ∧ (1 : Int) ≤ 4106 ∧
      (4106 : Int) * 4106 * 2 ≤ (List.replicate 33718472 (255 : uint8_t)).length ∧
      (2 : Int) * 1 * 2 ≤ ([0, 0, 0, 0] : List uint8_t).length ∧
      (0 : Int) < 2 ∧ Even (0 : Int) ∧ (0 : Int) < 1 ∧
      0 < chromaCount 4106 4106 4106 0 0) ∧
    chromaSum (List.replicate 33718472 255) 4106 4106 4106 0 0 1 = 2149552590 ∧
    Int.tdiv (chromaSum (List.replicate 33718472 255) 4106 4106 4106 0 0 1)
        (chromaCount 4106 4106 4106 0 0) = 255 ∧
    (pixelAcc32 (List.replicate 33718472 255) 4106 4106 4106 0 0).sum_u = -2145414706 ∧
    byteAt (resizeYUV422Average32 (List.replicate 33718472 255) 4106 4106 [0, 0, 0, 0]
        2 1 4106).dst (pairBase 2 0 0 + 1) = some 2 := by
  have hlen : (4106 : Int) * 4106 * 2 ≤ (List.replicate 33718472 (255 : uint8_t)).length := by
    rw [List.length_replicate]; decide
  have hcount : chromaCount 4106 4106 4106 0 0 = 8429618 := by
    unfold chromaCount
    rw [window_card, pairColumns_card]
    decide
  have hsum : chromaSum (List.replicate 33718472 255) 4106 4106 4106 0 0 1 = 2149552590 := by
    unfold chromaSum
    rw [uniform_chroma_sum 33718472 255 4106 4106 4106 (0 * 4106) (0 * 4106) 1 (Or.inl rfl)
      (by decide) (by decide) (by decide) (by decide), window_card, pairColumns_card]
    decide
  have hw0 : wrap32 (0 * 4106) = 0 := by decide
  have hacc : (pixelAcc32 (List.replicate 33718472 255) 4106 4106 4106 0 0).sum_u
      = -2145414706 := by
    rw [pixelAcc32_sum_u, hw0,
      uniform_chroma_sum 33718472 255 4106 4106 4106 0 0 1 (Or.inl rfl)
        (by decide) (by decide) (by decide) (by decide), window_card, pairColumns_card]
    decide
  have hcnt : (pixelAcc32 (List.replicate 33718472 255) 4106 4106 4106 0 0).count_uv
      = 8429618 := by
    rw [pixelAcc32_count_uv, hw0, window_card, pairColumns_card]
    decide
  have hv : avgU (pixelAcc32 (List.replicate 33718472 255) 4106 4106 4106 0 0) = 2 := by
    unfold avgU
    rw [hacc, hcnt]
    decide
  refine ⟨⟨by decide, by decide, by decide, hlen, by decide, by decide, by decide, by decide,
    by rw [hcount]; decide⟩, hsum, by rw [hsum, hcount]; decide, hacc, ?_⟩
  rw [run32_chroma_u (by decide) (by decide) (by decide) (by decide) (by decide) (by decide)
    (by decide), hv]

/-! ### Memory safety with `int` products -/

/-- C5, as amended (no out-of-bounds access under the preconditions).  If `src_w` and
`dst_w` are even and positive, `src_h` and `dst_h` are positive, `scale ≥ 1`, the block
origins `dst_x * scale` and `dst_y * scale` of every destination pixel fit in `int`,
and the buffers hold at least `src_w * src_h * 2` and `dst_w * dst_h * 2` bytes, then
the run never takes the error branch of a bounds check, every index it reads from
`src` lies in `[0, src_w * src_h * 2)` and every index it writes to `dst` lies in
`[0, dst_w * dst_h * 2)`; nothing relates `dst_w * scale` to `src_w` or
`dst_h * scale` to `src_h`. -/
theorem no_out_of_bounds_int (src dst : List uint8_t) (src_w src_h dst_w dst_h scale : Int)
    (hsw : Even src_w) (_hsw0 : 0 < src_w) (hdw : Even dst_w) (_hdw0 : 0 < dst_w)
    (_hsh0 : 0 < src_h) (_hdh0 : 0 < dst_h) (hscale : 1 ≤ scale)
    (hsrc : src_w * src_h * 2 ≤ src.length) (hdst : dst_w * dst_h * 2 ≤ dst.length)
    (hpx : (dst_w - 1) * scale ≤ 2147483647) (hpy : (dst_h - 1) * scale ≤ 2147483647) :
    (resizeYUV422Average32 src src_w src_h dst dst_w dst_h scale).faults = [] ∧
    (∀ i ∈ (resizeYUV422Average32 src src_w src_h dst dst_w dst_h scale).loads,
      0 ≤ i ∧ i < src_w * src_h * 2) ∧
    (∀ p ∈ (resizeYUV422Average32 src src_w src_h dst dst_w dst_h scale).stores,
      0 ≤ p.1 ∧ p.1 < dst_w * dst_h * 2) := by
  have h := run32_safe src dst src_w src_h dst_w dst_h scale hsw hdw hsrc hdst
    (fun x h0 h1 => product_inInt hscale hpx h0 h1)
    (fun y h0 h1 => product_inInt hscale hpy h0 h1)
  exact ⟨h.1, h.2.1, h.2.2.1⟩

/-- Witness of C5 as amended: a 2 x 2 source and a 4 x 2 destination at scale 3, so
that `dst_w * scale > src_w` and `dst_h * scale > src_h`. -/
theorem no_out_of_bounds_int_witness :
    (Even (2 : Int) ∧ (0 : Int) < 2 ∧ Even (4 : Int) ∧ (0 : Int) < 4 ∧ (1 : Int) ≤ 3 ∧
      (4 : Int) * 3 > 2 ∧ (2 : Int) * 3 > 2 ∧
      (2 : Int) * 2 * 2 ≤ ([10, 20, 30, 40, 50, 60, 70, 80] : List uint8_t).length ∧
      (4 : Int) * 2 * 2 ≤ (List.replicate 16 (0 : uint8_t)).length ∧
      ((4 : Int) - 1) * 3 ≤ 2147483647 ∧ ((2 : Int) - 1) * 3 ≤ 2147483647) ∧
    ((resizeYUV422Average32 [10, 20, 30, 40, 50, 60, 70, 80] 2 2
        (List.replicate 16 0) 4 2 3).faults = [] ∧
    (∀ i ∈ (resizeYUV422Average32 [10, 20, 30, 40, 50, 60, 70, 80] 2 2
        (List.replicate 16 0) 4 2 3).loads, 0 ≤ i ∧ i < 2 * 2 * 2) ∧
    (∀ p ∈ (resizeYUV422Average32 [10, 20, 30, 40, 50, 60, 70, 80] 2 2
        (List.replicate 16 0) 4 2 3).stores, 0 ≤ p.1 ∧ p.1 < 4 * 2 * 2)) :=
  ⟨⟨by decide, by decide, by decide, by decide, by decide, by decide, by decide, by decide,
      by decide, by decide, by decide⟩,
    no_out_of_bounds_int [10, 20, 30, 40, 50, 60, 70, 80] (List.replicate 16 0) 2 2 4 2 3
      (by decide) (by decide) (by decide) (by decide) (by decide) (by decide) (by decide)
      (by decide) (by decide) (by decide) (by decide)⟩

/-- C5 as stated fails on the code.  A 2 x 1 source of 4 bytes, a 4 x 1 destination of
8 bytes and `scale = 1610612736` meet every precondition of the claim.  For destination
pixel `(2, 0)` the `int` product `dst_x * scale` is `3 * 2 ^ 30`, which wraps to
`-(2 ^ 30)`; the clip test `src_x + bx < src_w` passes at `bx = 0`, and the routine
reads `src[-2147483648]`, outside the source buffer. -/
theorem product_overflow_reads_outside :
    (Even (2 : Int) ∧ (0 : Int) < 2 ∧ Even (4 : Int) ∧ (0 : Int) < 4 ∧ (0 : Int) < 1 ∧
      (1 : Int) ≤ 1610612736 ∧
      (2 : Int) * 1 * 2 ≤ ([10, 20, 30, 40] : List uint8_t).length ∧
      (4 : Int) * 1 * 2 ≤ ([0, 0, 0, 0, 0, 0, 0, 0] : List uint8_t).length) ∧
    wrap32 (2 * 1610612736) = -1073741824 ∧
    (-2147483648 : Int) ∈ (resizeYUV422Average32 [10, 20, 30, 40] 2 1
        [0, 0, 0, 0, 0, 0, 0, 0] 4 1 1610612736).loads ∧
    Access.load (-2147483648) ∈ (resizeYUV422Average32 [10, 20, 30, 40] 2 1
        [0, 0, 0, 0, 0, 0, 0, 0] 4 1 1610612736).faults := by
  have h := run32_reads [10, 20, 30, 40] [0, 0, 0, 0, 0, 0, 0, 0] 2 1 4 1 1610612736 2 0 0 0
    (by decide) (by decide) (by decide) (by decide)
    (mem_forIndices_lt.mpr (by decide)) (mem_forIndices_lt.mpr (by decide))
  have hi : lumaOffset 2 (wrap32 (2 * 1610612736) + 0) (wrap32 (0 * 1610612736) + 0)
      = -2147483648 := by decide
  rw [hi] at h
  exact ⟨⟨by decide, by decide, by decide, by decide, by decide, by decide, by decide,
    by decide⟩, by decide, h.1, h.2 (by decide)⟩

/-! ### Uniform luma with `int` sums -/

theorem uniform_luma_at (n : Nat) (b : uint8_t) (w h scale lx ly : Int) (hw : Even w)
    (hn : w * h * 2 ≤ n) (hlx : 0 ≤ lx) (hly : 0 ≤ ly) :
    ∀ x ∈ window lx scale w, ∀ y ∈ window ly scale h,
      srcAt (List.replicate n b) (lumaOffset w x y) = ((b.val : Nat) : Int) := by
  intro x hx y hy
  unfold window at hx hy
  rw [Finset.mem_Ico] at hx hy
  have hp := pair_in_bounds hw (show 0 ≤ x by omega) (show x < w by omega)
    (show 0 ≤ y by omega) (show y < h by omega)
  have hl := lumaOffset_range w x y
  exact srcAt_replicate n b (by omega) (by omega)

/-- The luma sum of a block of uniform luma `v` is `v` times its number of pixels. -/
theorem lumaSum_uniform (src : List uint8_t) (src_w src_h scale dx dy : Int) (v : uint8_t)
    (hu : ∀ x ∈ window (dx * scale) scale src_w, ∀ y ∈ window (dy * scale) scale src_h,
      srcAt src (lumaOffset src_w x y) = ((v.val : Nat) : Int)) :
    lumaSum src src_w src_h scale dx dy
      = ((v.val : Nat) : Int) * (lumaCount src_w src_h scale dx dy : Int) := by
  unfold lumaSum lumaCount
  rw [Finset.sum_congr rfl (fun y hy' => Finset.sum_congr rfl (fun x hx' => hu x hx' y hy'))]
  simp only [Finset.sum_const, nsmul_eq_mul]
  push_cast
  ring

/-- The truncated mean of a non-empty block of uniform luma `v` is `v`. -/
theorem avgY_uniform (src : List uint8_t) (src_w src_h scale dx dy : Int) (v : uint8_t)
    (hscale : 1 ≤ scale) (hx : dx * scale < src_w) (hy : dy * scale < src_h)
    (hu : ∀ x ∈ window (dx * scale) scale src_w, ∀ y ∈ window (dy * scale) scale src_h,
      srcAt src (lumaOffset src_w x y) = ((v.val : Nat) : Int)) :
    avgY (blockAcc src src_w src_h scale (dx * scale) (dy * scale)) = v := by
  apply Fin.ext
  have h := avgY_val src src_w src_h scale (dx * scale) (dy * scale)
  have hne : (window (dy * scale) scale src_h).card
      * (window (dx * scale) scale src_w).card ≠ 0 :=
    Nat.mul_ne_zero (Finset.card_ne_zero_of_mem (mem_window_self hscale hy))
      (Finset.card_ne_zero_of_mem (mem_window_self hscale hx))
  have hsum := lumaSum_uniform src src_w src_h scale dx dy v hu
  unfold lumaSum lumaCount at hsum
  rw [if_neg hne, hsum, Int.mul_tdiv_cancel _ (by exact_mod_cast hne)] at h
  exact_mod_cast h

/-- The 2903 x 2903 block of destination pixel `(0, 0)` over a 2904 x 2903 source
whose bytes are all 255: the `int` luma sum wraps to a negative value. -/
theorem saturated_block_sum_y :
    (pixelAcc32 (List.replicate 16860624 255) 2904 2903 2903 0 0).sum_y = -2145978001 := by
  have hw0 : wrap32 (0 * 2903) = 0 := by decide
  rw [pixelAcc32_sum_y, hw0,
    uniform_luma_sum 16860624 255 2904 2903 2903 0 0 (by decide) (by decide) (by decide)
      (by decide), window_card, window_card]
  decide

theorem saturated_block_count_y :
    (pixelAcc32 (List.replicate 16860624 255) 2904 2903 2903 0 0).count_y = 8427409 := by
  have hw0 : wrap32 (0 * 2903) = 0 := by decide
  rw [pixelAcc32_count_y, hw0, window_card, window_card]
  decide

theorem saturated_block_avgY :
    avgY (pixelAcc32 (List.replicate 16860624 255) 2904 2903 2903 0 0) = 2 := by
  unfold avgY
  rw [saturated_block_sum_y, saturated_block_count_y]
  decide

/-- C6, as amended (uniform luma is preserved).  For every destination pixel
`(dx, dy)` whose clipped source window is not empty (`scale ≥ 1`, `dx * scale < src_w`,
`dy * scale < src_h`) and every byte `v`, if every source pixel of the window has
luma `v`, the block origins `dx * scale` and `dy * scale` fit in `int`, and the number
of window pixels and `v` times that number, the luma sum, fit in `int`, then the
iteration for `(dx, dy)` writes exactly `v` at the luma offset of `(dx, dy)`, from any
machine state, and this write is in the log of every run whose destination contains
the pixel.  Nothing is assumed about the source outside the window. -/
theorem uniform_luma_int (src : List uint8_t) (src_w src_h dst_w scale dx dy : Int)
    (v : uint8_t)
    (hscale : 1 ≤ scale) (hx : dx * scale < src_w) (hy : dy * scale < src_h)
    (hu : ∀ x ∈ window (dx * scale) scale src_w, ∀ y ∈ window (dy * scale) scale src_h,
      srcAt src (lumaOffset src_w x y) = ((v.val : Nat) : Int))
    (hpx : InInt (dx * scale)) (hpy : InInt (dy * scale))
    (hfit : ((v.val : Nat) : Int) * (lumaCount src_w src_h scale dx dy : Int) ≤ 2147483647)
    (hcnt : (lumaCount src_w src_h scale dx dy : Int) ≤ 2147483647) :
    (∀ m : Machine, ∃ rest,
      (pixelStep32 src src_w src_h dst_w scale dy dx m).stores
        = m.stores ++ (lumaOffset dst_w dx dy, v) :: rest) ∧
    (∀ (dst : List uint8_t) (dst_h : Int), 0 ≤ dx → dx < dst_w → 0 ≤ dy → dy < dst_h →
      (lumaOffset dst_w dx dy, v)
        ∈ (resizeYUV422Average32 src src_w src_h dst dst_w dst_h scale).stores) := by
  have hsum : lumaSum src src_w src_h scale dx dy ≤ 2147483647 := by
    rw [lumaSum_uniform src src_w src_h scale dx dy v hu]
    exact hfit
  have hv : avgY (pixelAcc32 src src_w src_h scale dx dy) = v := by
    rw [avgY32_eq src src_w src_h scale dx dy hpx hpy hsum hcnt]
    exact avgY_uniform src src_w src_h scale dx dy v hscale hx hy hu
  have hst : pixelStores32 src src_w src_h dst_w scale dy dx
      = (lumaOffset dst_w dx dy, v) ::
        (if bitAnd1 dx = 0 then
          [(pairBase dst_w dx dy + 1, avgU (pixelAcc32 src src_w src_h scale dx dy)),
            (pairBase dst_w dx dy + 3, avgV (pixelAcc32 src src_w src_h scale dx dy))]
        else []) := by
    unfold pixelStores32
    simp only [hv]
  constructor
  · intro m
    exact ⟨_, by rw [pixelStep32_stores, hst]⟩
  · intro dst dst_h hx0 hx1 hy0 hy1
    rw [run32_stores]
    apply mem_allStores32 hx0 hx1 hy0 hy1
    rw [hst]
    exact List.mem_cons_self _ _

/-- Witness of C6 as amended: a 3 x 1 block of luma 77 clipped from a 4-pixel row whose
last pixel, outside the block, differs. -/
theorem uniform_luma_int_witness :
    ((1 : Int) ≤ 3 ∧ (0 : Int) * 3 < 4 ∧ (0 : Int) * 3 < 1 ∧
      (∀ x ∈ window (0 * 3) 3 4, ∀ y ∈ window (0 * 3) 3 1,
        srcAt [77, 1, 77, 2, 77, 3, 200, 4] (lumaOffset 4 x y)
          = ((((77 : uint8_t)).val : Nat) : Int)) ∧
      InInt (0 * 3) ∧
      ((((77 : uint8_t)).val : Nat) : Int) * (lumaCount 4 1 3 0 0 : Int) ≤ 2147483647 ∧
      (lumaCount 4 1 3 0 0 : Int) ≤ 2147483647) ∧
    ((∀ m : Machine, ∃ rest,
      (pixelStep32 [77, 1, 77, 2, 77, 3, 200, 4] 4 1 2 3 0 0 m).stores
        = m.stores ++ (lumaOffset 2 0 0, 77) :: rest) ∧
    (∀ (dst : List uint8_t) (dst_h : Int), (0 : Int) ≤ 0 → (0 : Int) < 2 → (0 : Int) ≤ 0 →
      0 < dst_h →
      (lumaOffset 2 0 0, (77 : uint8_t))
        ∈ (resizeYUV422Average32 [77, 1, 77, 2, 77, 3, 200, 4] 4 1 dst 2 dst_h 3).stores)) :=
  ⟨⟨by decide, by decide, by decide, by decide, by decide, by decide, by decide⟩,
    uniform_luma_int [77, 1, 77, 2, 77, 3, 200, 4] 4 1 2 3 0 0 77
      (by decide) (by decide) (by decide) (by decide) (by decide) (by decide) (by decide)
      (by decide)⟩

/-- C6 as stated fails on the code.  A 2904 x 2903 source whose bytes are all 255 and
`scale = 2903` give destination pixel `(0, 0)` a non-empty window of 2903 * 2903 =
8427409 pixels of uniform luma 255.  Their sum 2148989295 exceeds the largest `int`;
the `int` sum wraps to -2145978001, the quotient is -254, and the iteration writes the
luma byte 2, not 255. -/
theorem uniform_luma_sum_overflow :
    ((1 : Int) ≤ 2903 ∧ (0 : Int) * 2903 < 2904 ∧ (0 : Int) * 2903 < 2903 ∧
      (∀ x ∈ window (0 * 2903) 2903 2904, ∀ y ∈ window (0 * 2903) 2903 2903,
        srcAt (List.replicate 16860624 255) (lumaOffset 2904 x y)
          = ((((255 : uint8_t)).val : Nat) : Int))) ∧
    (pixelAcc32 (List.replicate 16860624 255) 2904 2903 2903 0 0).sum_y = -2145978001 ∧
    (∀ m : Machine, ∃ rest,
      (pixelStep32 (List.replicate 16860624 255) 2904 2903 2 2903 0 0 m).stores
        = m.stores ++ (lumaOffset 2 0 0, 2) :: rest) := by
  refine ⟨⟨by decide, by decide, by decide,
    uniform_luma_at 16860624 255 2904 2903 2903 (0 * 2903) (0 * 2903) (by decide) (by decide)
      (by decide) (by decide)⟩, saturated_block_sum_y, ?_⟩
  have hst : pixelStores32 (List.replicate 16860624 255) 2904 2903 2 2903 0 0
      = (lumaOffset 2 0 0, 2) ::
        (if bitAnd1 0 = 0 then
          [(pairBase 2 0 0 + 1,
              avgU (pixelAcc32 (List.replicate 16860624 255) 2904 2903 2903 0 0)),
            (pairBase 2 0 0 + 3,
              avgV (pixelAcc32 (List.replicate 16860624 255) 2904 2903 2903 0 0))]
        else []) := by
    unfold pixelStores32
    simp only [saturated_block_avgY]
  intro m
  exact ⟨_, by rw [pixelStep32_stores, hst]⟩

/-! ### The chroma default with `int` arithmetic -/

theorem wrap32_even {x : Int} (h : Even x) : Even (wrap32 x) := by
  obtain ⟨k, hk⟩ := h
  rw [Int.even_iff]
  unfold wrap32
  omega

/-- C9, as amended (degenerate chroma default).  For every destination pixel
`(dx, dy)` with even `dx` whose block scan ends with `count_uv = 0`, the iteration
writes the neutral value 128 to the chroma-blue and to the chroma-red byte of the
destination pair, and a run over an even-width destination of adequate size that
contains the pixel leaves 128 in both bytes. -/
theorem degenerate_chroma_default_int (src : List uint8_t)
    (src_w src_h dst_w scale dx dy : Int) (m : Machine) (hdx : Even dx)
    (h0 : (scanBlock32 src src_w src_h scale (wrap32 (dx * scale)) (wrap32 (dy * scale))
      m).1.count_uv = 0) :
    (∃ l : uint8_t,
      (pixelStep32 src src_w src_h dst_w scale dy dx m).stores
        = m.stores ++ [(lumaOffset dst_w dx dy, l), (pairBase dst_w dx dy + 1, 128),
            (pairBase dst_w dx dy + 3, 128)]) ∧
    (∀ (dst : List uint8_t) (dst_h : Int), Even dst_w → dst_w * dst_h * 2 ≤ dst.length →
      0 ≤ dx → dx < dst_w → 0 ≤ dy → dy < dst_h →
      byteAt (resizeYUV422Average32 src src_w src_h dst dst_w dst_h scale).dst
          (pairBase dst_w dx dy + 1) = some 128 ∧
      byteAt (resizeYUV422Average32 src src_w src_h dst dst_w dst_h scale).dst
          (pairBase dst_w dx dy + 3) = some 128) := by
  have hb : bitAnd1 dx = 0 := Int.even_iff.mp hdx
  rw [scanBlock32_acc] at h0
  have hu : avgU (pixelAcc32 src src_w src_h scale dx dy) = 128 := by
    unfold avgU; rw [h0]; rfl
  have hv : avgV (pixelAcc32 src src_w src_h scale dx dy) = 128 := by
    unfold avgV; rw [h0]; rfl
  constructor
  · refine ⟨avgY (pixelAcc32 src src_w src_h scale dx dy), ?_⟩
    rw [pixelStep32_stores]
    unfold pixelStores32
    simp only [hb, if_true, hu, hv]
  · intro dst dst_h hdw hdst hx0 hx hy0 hy
    exact ⟨by rw [run32_chroma_u hdw hdst hx0 hx hy0 hy hb, hu],
      by rw [run32_chroma_v hdw hdst hx0 hx hy0 hy hb, hv]⟩

/-- Witness of C9 as amended: destination pixel `(2, 0)` at scale 1 over a source one
pair wide, whose block lies wholly right of the source. -/
theorem degenerate_chroma_default_int_witness :
    (Even (2 : Int) ∧
      (scanBlock32 [10, 20, 30, 40] 2 1 1 (wrap32 (2 * 1)) (wrap32 (0 * 1))
        (Machine.init [0, 0, 0, 0, 0, 0, 0, 0])).1.count_uv = 0) ∧
    ((∃ l : uint8_t,
      (pixelStep32 [10, 20, 30, 40] 2 1 4 1 0 2 (Machine.init [0, 0, 0, 0, 0, 0, 0, 0])).stores
        = (Machine.init [0, 0, 0, 0, 0, 0, 0, 0]).stores
          ++ [(lumaOffset 4 2 0, l), (pairBase 4 2 0 + 1, 128), (pairBase 4 2 0 + 3, 128)]) ∧
    (∀ (dst : List uint8_t) (dst_h : Int), Even (4 : Int) → (4 : Int) * dst_h * 2 ≤ dst.length →
      (0 : Int) ≤ 2 → (2 : Int) < 4 → (0 : Int) ≤ 0 → 0 < dst_h →
      byteAt (resizeYUV422Average32 [10, 20, 30, 40] 2 1 dst 4 dst_h 1).dst
          (pairBase 4 2 0 + 1) = some 128 ∧
      byteAt (resizeYUV422Average32 [10, 20, 30, 40] 2 1 dst 4 dst_h 1).dst
          (pairBase 4 2 0 + 3) = some 128)) :=
  ⟨⟨by decide, by decide⟩,
    degenerate_chroma_default_int [10, 20, 30, 40] 2 1 4 1 2 0
      (Machine.init [0, 0, 0, 0, 0, 0, 0, 0]) (by decide) (by decide)⟩

/-- C9 as stated fails on the code: a block clipped to a single odd column does not
yield zero chroma samples.  On the 4 x 1 source `[7, 0, 7, 0, 7, 200, 7, 100]` at scale
3 the block of destination pixel `(1, 0)` is clipped to the single odd column 3; its
offset 0 is even, so the scan takes one chroma sample, `count_uv = 1`, and the
averages are the bytes 200 and 100 of the pair of column 3, not 128; the run over a
2 x 1 destination takes no error branch and leaves the pair `[7, 100, 7, 50]`, with no
chroma byte 128.  No block of an even `dx` is clipped to a single odd column, since
its first column `dx * scale` is even, also after the `int` product wraps. -/
theorem single_odd_column_has_chroma :
    window (wrap32 (1 * 3)) 3 4 = {3} ∧
    (pixelAcc32 [7, 0, 7, 0, 7, 200, 7, 100] 4 1 3 1 0).count_uv = 1 ∧
    avgU (pixelAcc32 [7, 0, 7, 0, 7, 200, 7, 100] 4 1 3 1 0) = 200 ∧
    avgV (pixelAcc32 [7, 0, 7, 0, 7, 200, 7, 100] 4 1 3 1 0) = 100 ∧
    (resizeYUV422Average32 [7, 0, 7, 0, 7, 200, 7, 100] 4 1 [0, 0, 0, 0] 2 1 3).dst
      = [7, 100, 7, 50] ∧
    (resizeYUV422Average32 [7, 0, 7, 0, 7, 200, 7, 100] 4 1 [0, 0, 0, 0] 2 1 3).faults = [] ∧
    (∀ src_w scale dx c : Int, Even dx →
      window (wrap32 (dx * scale)) scale src_w = {c} → Even c) := by
  refine ⟨by decide, by decide, by decide, by decide, by decide, by decide, ?_⟩
  intro src_w scale dx c hdx h
  have hc : c ∈ window (wrap32 (dx * scale)) scale src_w := by
    rw [h]; exact Finset.mem_singleton_self c
  have hlo : wrap32 (dx * scale) ∈ window (wrap32 (dx * scale)) scale src_w := by
    unfold window at hc ⊢
    rw [Finset.mem_Ico] at hc ⊢
    omega
  rw [h, Finset.mem_singleton] at hlo
  rw [← hlo]
  exact wrap32_even (Even.mul_right hdx scale)

/-! ### Chroma samples and source pixel pairs, with `int` arithmetic -/

/-- C11, as amended (chroma is accumulated once per source pixel pair).  For an even
source width, `scale ≥ 1` and every destination pixel `(dx, dy)`, even or odd, whose
block origins `dx * scale`, `dy * scale`, chroma sums and chroma sample count fit in
`int`: no two sampled columns of the block lie in the same source pixel pair, every
pair `(2k, 2k + 1)` holding a column of the clipped block holds a sampled one, so that
`sum_u` and `sum_v` are the sums, over the rows of the block and the pairs it touches,
of the pair's U and V byte taken once, and `count_uv` is the number of such
(row, pair) combinations. -/
theorem chroma_once_per_pair_int (src : List uint8_t) (src_w src_h scale dx dy : Int)
    (hsw : Even src_w) (hscale : 1 ≤ scale)
    (hpx : InInt (dx * scale)) (hpy : InInt (dy * scale))
    (hsu : chromaSum src src_w src_h scale dx dy 1 ≤ 2147483647)
    (hsv : chromaSum src src_w src_h scale dx dy 3 ≤ 2147483647)
    (hc : (chromaCount src_w src_h scale dx dy : Int) ≤ 2147483647) :
    (∀ x ∈ pairColumns (dx * scale) scale src_w, ∀ x' ∈ pairColumns (dx * scale) scale src_w,
      x / 2 = x' / 2 → x = x') ∧
    (∀ x ∈ window (dx * scale) scale src_w,
      ∃ x' ∈ pairColumns (dx * scale) scale src_w, x' / 2 = x / 2) ∧
    (pixelAcc32 src src_w src_h scale dx dy).sum_u
      = ∑ y ∈ window (dy * scale) scale src_h, ∑ k ∈ touchedPairs (dx * scale) scale src_w,
          srcAt src ((y * src_w + 2 * k) * 2 + 1) ∧
    (pixelAcc32 src src_w src_h scale dx dy).sum_v
      = ∑ y ∈ window (dy * scale) scale src_h, ∑ k ∈ touchedPairs (dx * scale) scale src_w,
          srcAt src ((y * src_w + 2 * k) * 2 + 3) ∧
    (pixelAcc32 src src_w src_h scale dx dy).count_uv
      = (((window (dy * scale) scale src_h).card
          * (touchedPairs (dx * scale) scale src_w).card : Nat) : Int) := by
  rw [pixelAcc32_sum_u_of_fits src src_w src_h scale dx dy hpx hpy hsu,
    pixelAcc32_sum_v_of_fits src src_w src_h scale dx dy hpx hpy hsv,
    pixelAcc32_count_uv_of_fits src src_w src_h scale dx dy hpx hpy hc]
  exact blockAcc_once_per_pair src src_w src_h scale dx dy hsw hscale

/-- Witness of C11 as amended: the odd destination pixel `(1, 0)` at scale 3 over a
6 x 1 source, whose block is the columns 3, 4, 5 and touches the pairs 1 and 2. -/
theorem chroma_once_per_pair_int_witness :
    (Even (6 : Int) ∧ (1 : Int) ≤ 3 ∧ InInt (1 * 3) ∧ InInt (0 * 3) ∧
      chromaSum [1, 2, 3, 4, 5, 6, 7, 8, 9, 10, 11, 12] 6 1 3 1 0 1 ≤ 2147483647 ∧
      chromaSum [1, 2, 3, 4, 5, 6, 7, 8, 9, 10, 11, 12] 6 1 3 1 0 3 ≤ 2147483647 ∧
      (chromaCount 6 1 3 1 0 : Int) ≤ 2147483647 ∧
      touchedPairs (1 * 3) 3 6 = {1, 2}) ∧
    ((∀ x ∈ pairColumns (1 * 3) 3 6, ∀ x' ∈ pairColumns (1 * 3) 3 6, x / 2 = x' / 2 → x = x') ∧
    (∀ x ∈ window (1 * 3) 3 6, ∃ x' ∈ pairColumns (1 * 3) 3 6, x' / 2 = x / 2) ∧
    (pixelAcc32 [1, 2, 3, 4, 5, 6, 7, 8, 9, 10, 11, 12] 6 1 3 1 0).sum_u
      = ∑ y ∈ window (0 * 3) 3 1, ∑ k ∈ touchedPairs (1 * 3) 3 6,
          srcAt [1, 2, 3, 4, 5, 6, 7, 8, 9, 10, 11, 12] ((y * 6 + 2 * k) * 2 + 1) ∧
    (pixelAcc32 [1, 2, 3, 4, 5, 6, 7, 8, 9, 10, 11, 12] 6 1 3 1 0).sum_v
      = ∑ y ∈ window (0 * 3) 3 1, ∑ k ∈ touchedPairs (1 * 3) 3 6,
          srcAt [1, 2, 3, 4, 5, 6, 7, 8, 9, 10, 11, 12] ((y * 6 + 2 * k) * 2 + 3) ∧
    (pixelAcc32 [1, 2, 3, 4, 5, 6, 7, 8, 9, 10, 11, 12] 6 1 3 1 0).count_uv
      = (((window (0 * 3) 3 1).card * (touchedPairs (1 * 3) 3 6).card : Nat) : Int)) :=
  ⟨⟨by decide, by decide, by decide, by decide, by decide, by decide, by decide, by decide⟩,
    chroma_once_per_pair_int [1, 2, 3, 4, 5, 6, 7, 8, 9, 10, 11, 12] 6 1 3 1 0
      (by decide) (by decide) (by decide) (by decide) (by decide) (by decide) (by decide)⟩

/-- C11 as stated fails on the code.  On the 2 x 1 source `[10, 20, 30, 40]` at
`scale = 65536`, the clipped window of destination pixel `(65536, 0)` starts at column
`65536 * 65536`, right of the source: it holds no column and touches no source pixel
pair, so the claim gives `count_uv = 0`.  The `int` product wraps to 0, the routine
scans the source columns 0 and 1 and ends with `count_uv = 1`, `sum_u = 20` and
`sum_v = 40`. -/
theorem chroma_pairs_product_overflow :
    (Even (2 : Int) ∧ (1 : Int) ≤ 65536) ∧
    touchedPairs (65536 * 65536) 65536 2 = ∅ ∧
    (((window (0 * 65536) 65536 1).card * (touchedPairs (65536 * 65536) 65536 2).card : Nat)
      : Int) = 0 ∧
    (pixelAcc32 [10, 20, 30, 40] 2 1 65536 65536 0).count_uv = 1 ∧
    (pixelAcc32 [10, 20, 30, 40] 2 1 65536 65536 0).sum_u = 20 ∧
    (pixelAcc32 [10, 20, 30, 40] 2 1 65536 65536 0).sum_v = 40 := by
  have ht : touchedPairs (65536 * 65536) 65536 2 = ∅ := by
    unfold touchedPairs
    rw [Finset.card_eq_zero.mp (window_card_eq_zero.mpr (Or.inr (by decide)))]
    rfl
  refine ⟨⟨by decide, by decide⟩, ht, ?_, ?_, ?_, ?_⟩
  · rw [ht]
    simp
  · rw [pixelAcc32_wrapped_origin]
  · rw [pixelAcc32_wrapped_origin]
  · rw [pixelAcc32_wrapped_origin]

/-! ### Blocks outside the source, with `int` arithmetic -/

theorem pixelAcc32_outside (src : List uint8_t) {src_w src_h scale dx dy : Int}
    (h : scale ≤ 0 ∨ src_w ≤ wrap32 (dx * scale) ∨ src_h ≤ wrap32 (dy * scale)) :
    pixelAcc32 src src_w src_h scale dx dy = ⟨0, 0, 0, 0, 0⟩ := by
  rw [pixelAcc32_eq, blockAcc_outside src h]
  rfl

theorem pixelStores32_outside (src : List uint8_t) {src_w src_h scale dx dy : Int}
    (dst_w : Int)
    (h : scale ≤ 0 ∨ src_w ≤ wrap32 (dx * scale) ∨ src_h ≤ wrap32 (dy * scale)) :
    pixelStores32 src src_w src_h dst_w scale dy dx
      = (lumaOffset dst_w dx dy, 0) ::
          (if bitAnd1 dx = 0 then
            [(pairBase dst_w dx dy + 1, 128), (pairBase dst_w dx dy + 3, 128)] else []) := by
  unfold pixelStores32
  rw [pixelAcc32_outside src h]
  rfl

theorem pixelStep32_loads_outside (src : List uint8_t) {src_w src_h scale dx dy : Int}
    (dst_w : Int)
    (h : scale ≤ 0 ∨ src_w ≤ wrap32 (dx * scale) ∨ src_h ≤ wrap32 (dy * scale))
    (m : Machine) :
    (pixelStep32 src src_w src_h dst_w scale dy dx m).loads = m.loads := by
  unfold pixelStep32
  simp only [scanBlock32_eq, scanBlock_outside src h]
  split <;> simp

/-- C12, as amended (no failure path for a non-positive scale).  For every
`scale ≤ 0`, every even `dst_w`, every `dst_h` and a destination of adequate size, the
run reads no byte of `src`, and for every destination pixel it leaves luma 0 and, at
the two chroma offsets of its pair, 128; the four bytes of every destination pair are
`[0, 128, 0, 128]`.  For any scale, the iteration for a single destination pixel whose
products `dx * scale` and `dy * scale` fit in `int` and whose block origin lies outside
the source (`dx * scale ≥ src_w` or `dy * scale ≥ src_h`) reads nothing and writes the
same values: luma 0 and, when `dx` is even, chroma 128 and 128. -/
theorem nonpositive_scale_defaults_int (src dst : List uint8_t)
    (src_w src_h dst_w dst_h scale : Int) (hscale : scale ≤ 0) (hdw : Even dst_w)
    (hdst : dst_w * dst_h * 2 ≤ dst.length) :
    (resizeYUV422Average32 src src_w src_h dst dst_w dst_h scale).loads = [] ∧
    (∀ dx dy : Int, 0 ≤ dx → dx < dst_w → 0 ≤ dy → dy < dst_h →
      byteAt (resizeYUV422Average32 src src_w src_h dst dst_w dst_h scale).dst
          (lumaOffset dst_w dx dy) = some 0 ∧
      byteAt (resizeYUV422Average32 src src_w src_h dst dst_w dst_h scale).dst
          (pairBase dst_w dx dy + 1) = some 128 ∧
      byteAt (resizeYUV422Average32 src src_w src_h dst dst_w dst_h scale).dst
          (pairBase dst_w dx dy + 3) = some 128 ∧
      (Even dx →
        byteAt (resizeYUV422Average32 src src_w src_h dst dst_w dst_h scale).dst
            (pairBase dst_w dx dy) = some 0 ∧
        byteAt (resizeYUV422Average32 src src_w src_h dst dst_w dst_h scale).dst
            (pairBase dst_w dx dy + 2) = some 0)) ∧
    (∀ (s dx dy : Int) (m : Machine), InInt (dx * s) → InInt (dy * s) →
      src_w ≤ dx * s ∨ src_h ≤ dy * s →
      (pixelStep32 src src_w src_h dst_w s dy dx m).loads = m.loads ∧
      (pixelStep32 src src_w src_h dst_w s dy dx m).stores
        = m.stores ++ (lumaOffset dst_w dx dy, 0) ::
            (if bitAnd1 dx = 0 then
              [(pairBase dst_w dx dy + 1, 128), (pairBase dst_w dx dy + 3, 128)] else [])) := by
  refine ⟨?_, ?_, ?_⟩
  · unfold resizeYUV422Average32
    rw [foldl_proj_const _ (fun m : Machine => m.loads) (fun m dst_y =>
      foldl_proj_const _ (fun m : Machine => m.loads)
        (fun m dst_x => pixelStep32_loads_outside src dst_w (Or.inl hscale) m) _ m)]
  · intro dx dy hx0 hx hy0 hy
    have hout : ∀ x y : Int,
        scale ≤ 0 ∨ src_w ≤ wrap32 (x * scale) ∨ src_h ≤ wrap32 (y * scale) :=
      fun _ _ => Or.inl hscale
    -- the even pixel of the pair of `(dx, dy)` and its odd neighbour
    have hw2 : dst_w % 2 = 0 := Int.even_iff.mp hdw
    have he : (dx - dx % 2) % 2 = 0 := by omega
    have hbase : pairBase dst_w (dx - dx % 2) dy = pairBase dst_w dx dy := by
      unfold pairBase clearBit0
      have : dx - dx % 2 - (dx - dx % 2) % 2 = dx - dx % 2 := by omega
      rw [this]
    have hl : byteAt (resizeYUV422Average32 src src_w src_h dst dst_w dst_h scale).dst
        (lumaOffset dst_w dx dy) = some 0 := by
      rw [run32_luma hdw hdst hx0 hx hy0 hy, pixelAcc32_outside src (hout dx dy)]
      rfl
    have hu : byteAt (resizeYUV422Average32 src src_w src_h dst dst_w dst_h scale).dst
        (pairBase dst_w dx dy + 1) = some 128 := by
      rw [← hbase, run32_chroma_u hdw hdst (by omega) (by omega) hy0 hy he,
        pixelAcc32_outside src (hout _ dy)]
      rfl
    have hv : byteAt (resizeYUV422Average32 src src_w src_h dst dst_w dst_h scale).dst
        (pairBase dst_w dx dy + 3) = some 128 := by
      rw [← hbase, run32_chroma_v hdw hdst (by omega) (by omega) hy0 hy he,
        pixelAcc32_outside src (hout _ dy)]
      rfl
    refine ⟨hl, hu, hv, ?_⟩
    intro hdx
    have hdx2 : dx % 2 = 0 := Int.even_iff.mp hdx
    have hl0 : lumaOffset dst_w dx dy = pairBase dst_w dx dy := by
      unfold lumaOffset bitAnd1
      rw [if_neg (by omega)]
      omega
    have hb1 : pairBase dst_w (dx + 1) dy = pairBase dst_w dx dy := by
      unfold pairBase clearBit0
      have : dx + 1 - (dx + 1) % 2 = dx - dx % 2 := by omega
      rw [this]
    have hl1 : lumaOffset dst_w (dx + 1) dy = pairBase dst_w dx dy + 2 := by
      unfold lumaOffset bitAnd1
      rw [if_pos (by omega), hb1]
    constructor
    · rw [← hl0]; exact hl
    · rw [← hl1, run32_luma hdw hdst (by omega) (by omega) hy0 hy,
        pixelAcc32_outside src (hout _ dy)]
      rfl
  · intro s dx dy m hpx hpy h
    have h' : s ≤ 0 ∨ src_w ≤ wrap32 (dx * s) ∨ src_h ≤ wrap32 (dy * s) := by
      rw [wrap32_eq_self hpx, wrap32_eq_self hpy]
      exact Or.inr h
    exact ⟨pixelStep32_loads_outside src dst_w h' m,
      by rw [pixelStep32_stores, pixelStores32_outside src dst_w h']⟩

/-- Witness of C12 as amended: scale 0 on a 2 x 1 destination of other bytes. -/
theorem nonpositive_scale_defaults_int_witness :
    ((0 : Int) ≤ 0 ∧ Even (2 : Int) ∧
      (2 : Int) * 1 * 2 ≤ ([9, 9, 9, 9] : List uint8_t).length) ∧
    (resizeYUV422Average32 [10, 20, 30, 40] 2 1 [9, 9, 9, 9] 2 1 0).dst = [0, 128, 0, 128] ∧
    ((resizeYUV422Average32 [10, 20, 30, 40] 2 1 [9, 9, 9, 9] 2 1 0).loads = [] ∧
    (∀ dx dy : Int, 0 ≤ dx → dx < 2 → 0 ≤ dy → dy < 1 →
      byteAt (resizeYUV422Average32 [10, 20, 30, 40] 2 1 [9, 9, 9, 9] 2 1 0).dst
          (lumaOffset 2 dx dy) = some 0 ∧
      byteAt (resizeYUV422Average32 [10, 20, 30, 40] 2 1 [9, 9, 9, 9] 2 1 0).dst
          (pairBase 2 dx dy + 1) = some 128 ∧
      byteAt (resizeYUV422Average32 [10, 20, 30, 40] 2 1 [9, 9, 9, 9] 2 1 0).dst
          (pairBase 2 dx dy + 3) = some 128 ∧
      (Even dx →
        byteAt (resizeYUV422Average32 [10, 20, 30, 40] 2 1 [9, 9, 9, 9] 2 1 0).dst
            (pairBase 2 dx dy) = some 0 ∧
        byteAt (resizeYUV422Average32 [10, 20, 30, 40] 2 1 [9, 9, 9, 9] 2 1 0).dst
            (pairBase 2 dx dy + 2) = some 0)) ∧
    (∀ (s dx dy : Int) (m : Machine), InInt (dx * s) → InInt (dy * s) →
      2 ≤ dx * s ∨ 1 ≤ dy * s →
      (pixelStep32 [10, 20, 30, 40] 2 1 2 s dy dx m).loads = m.loads ∧
      (pixelStep32 [10, 20, 30, 40] 2 1 2 s dy dx m).stores
        = m.stores ++ (lumaOffset 2 dx dy, 0) ::
            (if bitAnd1 dx = 0 then
              [(pairBase 2 dx dy + 1, 128), (pairBase 2 dx dy + 3, 128)] else []))) :=
  ⟨⟨by decide, by decide, by decide⟩, by decide,
    nonpositive_scale_defaults_int [10, 20, 30, 40] [9, 9, 9, 9] 2 1 2 1 0
      (by decide) (by decide) (by decide)⟩

/-- C12 as stated fails on the code, in its last part.  On the 2 x 1 source
`[10, 20, 30, 40]` at `scale = 65536`, the block origin of destination pixel
`(65536, 0)` is `65536 * 65536 ≥ src_w`, outside the source, so the claim gives no read
and the bytes 0, 128, 128.  The `int` product wraps to 0: the iteration reads `src[0]`
and writes luma 20 and chroma 20 and 40. -/
theorem origin_outside_before_wrap :
    (2 : Int) ≤ 65536 * 65536 ∧
    (Machine.init []).loads = [] ∧
    (0 : Int) ∈ (pixelStep32 [10, 20, 30, 40] 2 1 65538 65536 0 65536 (Machine.init [])).loads ∧
    (∀ m : Machine,
      (pixelStep32 [10, 20, 30, 40] 2 1 65538 65536 0 65536 m).stores
        = m.stores ++ [(lumaOffset 65538 65536 0, 20), (pairBase 65538 65536 0 + 1, 20),
            (pairBase 65538 65536 0 + 3, 40)]) := by
  have h := pixelStep32_reads [10, 20, 30, 40] 2 1 65538 65536 65536 0 0 0
    (mem_forIndices_lt.mpr (by decide)) (mem_forIndices_lt.mpr (by decide)) (Machine.init [])
  have hi : lumaOffset 2 (wrap32 (65536 * 65536) + 0) (wrap32 (0 * 65536) + 0) = 0 := by
    decide
  rw [hi] at h
  refine ⟨by decide, rfl, h.1, ?_⟩
  intro m
  rw [pixelStep32_stores]
  unfold pixelStores32
  rw [pixelAcc32_wrapped_origin]
  rfl

/-! ### Empty windows, with `int` arithmetic -/

/-- C14, as amended (the chroma default is reached only for an empty window).  For
every destination pixel whose block origins `dx * scale`, `dy * scale` and pixel count
fit in `int`, `count_uv = 0` if and only if `count_y = 0`, which holds if and only if
`scale ≤ 0` or `dx * scale ≥ src_w` or `dy * scale ≥ src_h`.  In particular a window
clipped to a single source column `c`, of either parity, has `count_uv` equal to its
number of rows, and when it has a row and its two chroma sums fit in `int`, its chroma
bytes are the truncated means of the chroma bytes of the pair of column `c` over its
rows, not the default. -/
theorem chroma_default_only_empty_int (src : List uint8_t)
    (src_w src_h scale dx dy : Int)
    (hpx : InInt (dx * scale)) (hpy : InInt (dy * scale))
    (hc : (lumaCount src_w src_h scale dx dy : Int) ≤ 2147483647) :
    ((pixelAcc32 src src_w src_h scale dx dy).count_uv = 0
      ↔ (pixelAcc32 src src_w src_h scale dx dy).count_y = 0) ∧
    ((pixelAcc32 src src_w src_h scale dx dy).count_y = 0
      ↔ scale ≤ 0 ∨ dx * scale ≥ src_w ∨ dy * scale ≥ src_h) ∧
    (∀ c : Int, window (dx * scale) scale src_w = {c} →
      (pixelAcc32 src src_w src_h scale dx dy).count_uv
        = (((window (dy * scale) scale src_h).card : Nat) : Int) ∧
      ((window (dy * scale) scale src_h).card ≠ 0 →
        chromaSum src src_w src_h scale dx dy 1 ≤ 2147483647 →
        chromaSum src src_w src_h scale dx dy 3 ≤ 2147483647 →
        (((avgU (pixelAcc32 src src_w src_h scale dx dy)).val : Nat) : Int)
          = Int.tdiv (∑ y ∈ window (dy * scale) scale src_h, srcAt src (pairBase src_w c y + 1))
              (((window (dy * scale) scale src_h).card : Nat) : Int) ∧
        (((avgV (pixelAcc32 src src_w src_h scale dx dy)).val : Nat) : Int)
          = Int.tdiv (∑ y ∈ window (dy * scale) scale src_h, srcAt src (pairBase src_w c y + 3))
              (((window (dy * scale) scale src_h).card : Nat) : Int))) := by
  have hcu : (chromaCount src_w src_h scale dx dy : Int) ≤ 2147483647 :=
    le_trans (by exact_mod_cast chromaCount_le_lumaCount src_w src_h scale dx dy) hc
  have h := blockAcc_empty_iff src src_w src_h scale dx dy
  rw [pixelAcc32_count_y_of_fits src src_w src_h scale dx dy hpx hpy hc,
    pixelAcc32_count_uv_of_fits src src_w src_h scale dx dy hpx hpy hcu]
  refine ⟨h.1, h.2.1, ?_⟩
  intro c hw
  refine ⟨(h.2.2 c hw).1, ?_⟩
  intro hne hsu hsv
  rw [avgU32_eq src src_w src_h scale dx dy hpx hpy hsu hcu,
    avgV32_eq src src_w src_h scale dx dy hpx hpy hsv hcu]
  exact (h.2.2 c hw).2 hne

/-- Witness of C14 as amended: the odd destination pixel `(1, 0)` at scale 3 over a
4 x 1 source, whose block is clipped to the single odd column 3; its chroma averages
are the bytes 200 and 100 of the pair of column 3. -/
theorem chroma_default_only_empty_int_witness :
    (InInt (1 * 3) ∧ InInt (0 * 3) ∧ (lumaCount 4 1 3 1 0 : Int) ≤ 2147483647 ∧
      window (1 * 3) 3 4 = {3} ∧ (window (0 * 3) 3 1).card ≠ 0 ∧
      chromaSum [7, 0, 7, 0, 7, 200, 7, 100] 4 1 3 1 0 1 ≤ 2147483647 ∧
      chromaSum [7, 0, 7, 0, 7, 200, 7, 100] 4 1 3 1 0 3 ≤ 2147483647 ∧
      avgU (pixelAcc32 [7, 0, 7, 0, 7, 200, 7, 100] 4 1 3 1 0) = 200 ∧
      avgV (pixelAcc32 [7, 0, 7, 0, 7, 200, 7, 100] 4 1 3 1 0) = 100) ∧
    (((pixelAcc32 [7, 0, 7, 0, 7, 200, 7, 100] 4 1 3 1 0).count_uv = 0
      ↔ (pixelAcc32 [7, 0, 7, 0, 7, 200, 7, 100] 4 1 3 1 0).count_y = 0) ∧
    ((pixelAcc32 [7, 0, 7, 0, 7, 200, 7, 100] 4 1 3 1 0).count_y = 0
      ↔ (3 : Int) ≤ 0 ∨ (1 : Int) * 3 ≥ 4 ∨ (0 : Int) * 3 ≥ 1) ∧
    (∀ c : Int, window (1 * 3) 3 4 = {c} →
      (pixelAcc32 [7, 0, 7, 0, 7, 200, 7, 100] 4 1 3 1 0).count_uv
        = (((window (0 * 3) 3 1).card : Nat) : Int) ∧
      ((window (0 * 3) 3 1).card ≠ 0 →
        chromaSum [7, 0, 7, 0, 7, 200, 7, 100] 4 1 3 1 0 1 ≤ 2147483647 →
        chromaSum [7, 0, 7, 0, 7, 200, 7, 100] 4 1 3 1 0 3 ≤ 2147483647 →
        (((avgU (pixelAcc32 [7, 0, 7, 0, 7, 200, 7, 100] 4 1 3 1 0)).val : Nat) : Int)
          = Int.tdiv (∑ y ∈ window (0 * 3) 3 1,
              srcAt [7, 0, 7, 0, 7, 200, 7, 100] (pairBase 4 c y + 1))
              (((window (0 * 3) 3 1).card : Nat) : Int) ∧
        (((avgV (pixelAcc32 [7, 0, 7, 0, 7, 200, 7, 100] 4 1 3 1 0)).val : Nat) : Int)
          = Int.tdiv (∑ y ∈ window (0 * 3) 3 1,
              srcAt [7, 0, 7, 0, 7, 200, 7, 100] (pairBase 4 c y + 3))
              (((window (0 * 3) 3 1).card : Nat) : Int)))) :=
  ⟨⟨by decide, by decide, by decide, by decide, by decide, by decide, by decide, by decide,
      by decide⟩,
    chroma_default_only_empty_int [7, 0, 7, 0, 7, 200, 7, 100] 4 1 3 1 0
      (by decide) (by decide) (by decide)⟩

/-- C14 as stated fails on the code.  On the 2 x 1 source `[10, 20, 30, 40]` at
`scale = 65536`, destination pixel `(65536, 0)` has `dx * scale = 65536 * 65536 ≥ src_w`,
so the claim gives `count_y = 0`.  The `int` product wraps to 0, the routine scans the
source columns 0 and 1 and ends with `count_y = 2` and `count_uv = 1`. -/
theorem nonempty_scan_origin_outside :
    ((65536 : Int) ≤ 0 ∨ (65536 : Int) * 65536 ≥ 2 ∨ (0 : Int) * 65536 ≥ 1) ∧
    wrap32 (65536 * 65536) = 0 ∧
    (pixelAcc32 [10, 20, 30, 40] 2 1 65536 65536 0).count_y = 2 ∧
    (pixelAcc32 [10, 20, 30, 40] 2 1 65536 65536 0).count_uv = 1 ∧
    ¬ ((pixelAcc32 [10, 20, 30, 40] 2 1 65536 65536 0).count_y = 0
      ↔ (65536 : Int) ≤ 0 ∨ (65536 : Int) * 65536 ≥ 2 ∨ (0 : Int) * 65536 ≥ 1) := by
  refine ⟨by decide, by decide, ?_, ?_, ?_⟩
  · rw [pixelAcc32_wrapped_origin]
  · rw [pixelAcc32_wrapped_origin]
  · rw [pixelAcc32_wrapped_origin]
    decide

/-! ### Averages within the sampled range, with `int` sums -/

/-- C15, as amended (averages stay within the sampled range).  For every destination
pixel with a non-empty window whose block origins `dx * scale`, `dy * scale`, luma sum,
two chroma sums and pixel count fit in `int`, the iteration writes a luma byte `l` and,
when `dx` is even, chroma bytes `u` and `v` whose values are the `int` quotients
`sum_y / count_y`, `sum_u / count_uv` and `sum_v / count_uv` themselves, so the
narrowing to `uint8_t` changes nothing and each average is in `0..255`; `l` lies
between any lower and any upper bound of the source luma bytes sampled in the window,
in particular between their minimum and maximum, and `u` and `v` lie between any
bounds of the sampled source chroma bytes of their channel. -/
theorem averages_within_range_int (src : List uint8_t)
    (src_w src_h dst_w scale dx dy : Int) (m : Machine)
    (hscale : 1 ≤ scale) (hx : dx * scale < src_w) (hy : dy * scale < src_h)
    (hpx : InInt (dx * scale)) (hpy : InInt (dy * scale))
    (hsy : lumaSum src src_w src_h scale dx dy ≤ 2147483647)
    (hsu : chromaSum src src_w src_h scale dx dy 1 ≤ 2147483647)
    (hsv : chromaSum src src_w src_h scale dx dy 3 ≤ 2147483647)
    (hc : (lumaCount src_w src_h scale dx dy : Int) ≤ 2147483647) :
    ∃ l u v : uint8_t,
      (pixelStep32 src src_w src_h dst_w scale dy dx m).stores
        = m.stores ++ (lumaOffset dst_w dx dy, l) ::
            (if bitAnd1 dx = 0 then
              [(pairBase dst_w dx dy + 1, u), (pairBase dst_w dx dy + 3, v)] else []) ∧
      (((l.val : Nat) : Int)
          = Int.tdiv
              (scanBlock32 src src_w src_h scale (wrap32 (dx * scale)) (wrap32 (dy * scale))
                m).1.sum_y
              (scanBlock32 src src_w src_h scale (wrap32 (dx * scale)) (wrap32 (dy * scale))
                m).1.count_y ∧
        ((u.val : Nat) : Int)
          = Int.tdiv
              (scanBlock32 src src_w src_h scale (wrap32 (dx * scale)) (wrap32 (dy * scale))
                m).1.sum_u
              (scanBlock32 src src_w src_h scale (wrap32 (dx * scale)) (wrap32 (dy * scale))
                m).1.count_uv ∧
        ((v.val : Nat) : Int)
          = Int.tdiv
              (scanBlock32 src src_w src_h scale (wrap32 (dx * scale)) (wrap32 (dy * scale))
                m).1.sum_v
              (scanBlock32 src src_w src_h scale (wrap32 (dx * scale)) (wrap32 (dy * scale))
                m).1.count_uv) ∧
      (0 ≤ ((l.val : Nat) : Int) ∧ ((l.val : Nat) : Int) ≤ 255 ∧
        0 ≤ ((u.val : Nat) : Int) ∧ ((u.val : Nat) : Int) ≤ 255 ∧
        0 ≤ ((v.val : Nat) : Int) ∧ ((v.val : Nat) : Int) ≤ 255) ∧
      (∀ lo hi : Int,
        (∀ y ∈ window (dy * scale) scale src_h, ∀ x ∈ window (dx * scale) scale src_w,
          lo ≤ srcAt src (lumaOffset src_w x y) ∧ srcAt src (lumaOffset src_w x y) ≤ hi) →
        lo ≤ ((l.val : Nat) : Int) ∧ ((l.val : Nat) : Int) ≤ hi) ∧
      (∀ lo hi : Int,
        (∀ y ∈ window (dy * scale) scale src_h, ∀ x ∈ pairColumns (dx * scale) scale src_w,
          lo ≤ srcAt src (pairBase src_w x y + 1) ∧ srcAt src (pairBase src_w x y + 1) ≤ hi) →
        lo ≤ ((u.val : Nat) : Int) ∧ ((u.val : Nat) : Int) ≤ hi) ∧
      (∀ lo hi : Int,
        (∀ y ∈ window (dy * scale) scale src_h, ∀ x ∈ pairColumns (dx * scale) scale src_w,
          lo ≤ srcAt src (pairBase src_w x y + 3) ∧ srcAt src (pairBase src_w x y + 3) ≤ hi) →
        lo ≤ ((v.val : Nat) : Int) ∧ ((v.val : Nat) : Int) ≤ hi) := by
  have he := pixelStep32_eq_pixelStep src src_w src_h dst_w scale dx dy hpx hpy hsy hsu hsv hc m
  rw [he.1, he.2]
  exact pixelStep_within_range src src_w src_h dst_w scale dx dy m hscale hx hy

/-- Witness of C15 as amended: destination pixel `(0, 0)` of the specification's
scenario. -/
theorem averages_within_range_int_witness :
    ((1 : Int) ≤ 2 ∧ (0 : Int) * 2 < 2 ∧ InInt (0 * 2) ∧
      lumaSum [10, 20, 30, 40, 50, 60, 70, 80] 2 2 2 0 0 ≤ 2147483647 ∧
      chromaSum [10, 20, 30, 40, 50, 60, 70, 80] 2 2 2 0 0 1 ≤ 2147483647 ∧
      chromaSum [10, 20, 30, 40, 50, 60, 70, 80] 2 2 2 0 0 3 ≤ 2147483647 ∧
      (lumaCount 2 2 2 0 0 : Int) ≤ 2147483647) ∧
    ∃ l u v : uint8_t,
      (pixelStep32 [10, 20, 30, 40, 50, 60, 70, 80] 2 2 2 2 0 0
          (Machine.init [0, 0, 0, 0])).stores
        = (Machine.init [0, 0, 0, 0]).stores ++ (lumaOffset 2 0 0, l) ::
            (if bitAnd1 0 = 0 then
              [(pairBase 2 0 0 + 1, u), (pairBase 2 0 0 + 3, v)] else []) ∧
      (((l.val : Nat) : Int)
          = Int.tdiv
              (scanBlock32 [10, 20, 30, 40, 50, 60, 70, 80] 2 2 2 (wrap32 (0 * 2))
                (wrap32 (0 * 2)) (Machine.init [0, 0, 0, 0])).1.sum_y
              (scanBlock32 [10, 20, 30, 40, 50, 60, 70, 80] 2 2 2 (wrap32 (0 * 2))
                (wrap32 (0 * 2)) (Machine.init [0, 0, 0, 0])).1.count_y ∧
        ((u.val : Nat) : Int)
          = Int.tdiv
              (scanBlock32 [10, 20, 30, 40, 50, 60, 70, 80] 2 2 2 (wrap32 (0 * 2))
                (wrap32 (0 * 2)) (Machine.init [0, 0, 0, 0])).1.sum_u
              (scanBlock32 [10, 20, 30, 40, 50, 60, 70, 80] 2 2 2 (wrap32 (0 * 2))
                (wrap32 (0 * 2)) (Machine.init [0, 0, 0, 0])).1.count_uv ∧
        ((v.val : Nat) : Int)
          = Int.tdiv
              (scanBlock32 [10, 20, 30, 40, 50, 60, 70, 80] 2 2 2 (wrap32 (0 * 2))
                (wrap32 (0 * 2)) (Machine.init [0, 0, 0, 0])).1.sum_v
              (scanBlock32 [10, 20, 30, 40, 50, 60, 70, 80] 2 2 2 (wrap32 (0 * 2))
                (wrap32 (0 * 2)) (Machine.init [0, 0, 0, 0])).1.count_uv) ∧
      (0 ≤ ((l.val : Nat) : Int) ∧ ((l.val : Nat) : Int) ≤ 255 ∧
        0 ≤ ((u.val : Nat) : Int) ∧ ((u.val : Nat) : Int) ≤ 255 ∧
        0 ≤ ((v.val : Nat) : Int) ∧ ((v.val : Nat) : Int) ≤ 255) ∧
      (∀ lo hi : Int,
        (∀ y ∈ window (0 * 2) 2 2, ∀ x ∈ window (0 * 2) 2 2,
          lo ≤ srcAt [10, 20, 30, 40, 50, 60, 70, 80] (lumaOffset 2 x y) ∧
            srcAt [10, 20, 30, 40, 50, 60, 70, 80] (lumaOffset 2 x y) ≤ hi) →
        lo ≤ ((l.val : Nat) : Int) ∧ ((l.val : Nat) : Int) ≤ hi) ∧
      (∀ lo hi : Int,
        (∀ y ∈ window (0 * 2) 2 2, ∀ x ∈ pairColumns (0 * 2) 2 2,
          lo ≤ srcAt [10, 20, 30, 40, 50, 60, 70, 80] (pairBase 2 x y + 1) ∧
            srcAt [10, 20, 30, 40, 50, 60, 70, 80] (pairBase 2 x y + 1) ≤ hi) →
        lo ≤ ((u.val : Nat) : Int) ∧ ((u.val : Nat) : Int) ≤ hi) ∧
      (∀ lo hi : Int,
        (∀ y ∈ window (0 * 2) 2 2, ∀ x ∈ pairColumns (0 * 2) 2 2,
          lo ≤ srcAt [10, 20, 30, 40, 50, 60, 70, 80] (pairBase 2 x y + 3) ∧
            srcAt [10, 20, 30, 40, 50, 60, 70, 80] (pairBase 2 x y + 3) ≤ hi) →
        lo ≤ ((v.val : Nat) : Int) ∧ ((v.val : Nat) : Int) ≤ hi) :=
  ⟨⟨by decide, by decide, by decide, by decide, by decide, by decide, by decide⟩,
    averages_within_range_int [10, 20, 30, 40, 50, 60, 70, 80] 2 2 2 2 0 0
      (Machine.init [0, 0, 0, 0]) (by decide) (by decide) (by decide) (by decide) (by decide)
      (by decide) (by decide) (by decide) (by decide)⟩

/-- C15 as stated fails on the code.  A 2904 x 2903 source whose bytes are all 255 and
`scale = 2903` give destination pixel `(0, 0)` a non-empty window in which every
sampled luma byte is 255, so the minimum and the maximum are 255.  The `int` luma sum
wraps, the `int` quotient `sum_y / count_y` is -254, the narrowing to `uint8_t` changes
it to 2, and the luma byte written, 2, is below the minimum. -/
theorem average_outside_sampled_range :
    ((1 : Int) ≤ 2903 ∧ (0 : Int) * 2903 < 2904 ∧ (0 : Int) * 2903 < 2903) ∧
    (∀ y ∈ window (0 * 2903) 2903 2903, ∀ x ∈ window (0 * 2903) 2903 2904,
      255 ≤ srcAt (List.replicate 16860624 255) (lumaOffset 2904 x y) ∧
        srcAt (List.replicate 16860624 255) (lumaOffset 2904 x y) ≤ 255) ∧
    Int.tdiv
        (scanBlock32 (List.replicate 16860624 255) 2904 2903 2903 (wrap32 (0 * 2903))
          (wrap32 (0 * 2903)) (Machine.init [0, 0, 0, 0])).1.sum_y
        (scanBlock32 (List.replicate 16860624 255) 2904 2903 2903 (wrap32 (0 * 2903))
          (wrap32 (0 * 2903)) (Machine.init [0, 0, 0, 0])).1.count_y = -254 ∧
    ∃ rest,
      (pixelStep32 (List.replicate 16860624 255) 2904 2903 2 2903 0 0
          (Machine.init [0, 0, 0, 0])).stores
        = (lumaOffset 2 0 0, 2) :: rest := by
  have hst : pixelStores32 (List.replicate 16860624 255) 2904 2903 2 2903 0 0
      = (lumaOffset 2 0 0, 2) ::
        (if bitAnd1 0 = 0 then
          [(pairBase 2 0 0 + 1,
              avgU (pixelAcc32 (List.replicate 16860624 255) 2904 2903 2903 0 0)),
            (pairBase 2 0 0 + 3,
              avgV (pixelAcc32 (List.replicate 16860624 255) 2904 2903 2903 0 0))]
        else []) := by
    unfold pixelStores32
    simp only [saturated_block_avgY]
  refine ⟨⟨by decide, by decide, by decide⟩, ?_, ?_, ⟨_, by rw [pixelStep32_stores, hst]; rfl⟩⟩
  · intro y hy x hx
    have h := uniform_luma_at 16860624 255 2904 2903 2903 (0 * 2903) (0 * 2903) (by decide)
      (by decide) (by decide) (by decide) x hx y hy
    rw [h]
    decide
  · rw [scanBlock32_acc, saturated_block_sum_y, saturated_block_count_y]
    decide

end ResizeYUV422
